import Mathlib

/-!
The Copr plugin of dnf5: identifier codec, chroot resolver, repository assembler, writer
and the arguments of the `enable` command.

A shallow embedding of `dnf5-plugins/copr_plugin` (`copr_repo.cpp`, `copr_repo.hpp`,
`copr.cpp`, `copr_enable.cpp`) and theorems about it.

* A `std::string` is the list of its `char`s (`Str`).
* `std::regex_replace` is embedded as the replace loop of the C++ library, run with a
  matcher that tells, for the text at the current position, how long the (leftmost,
  greedy) match of the regular expression starting there is.  Every regular expression the
  plugin uses gets its own matcher below.
* A C++ exception is a value of `Error`, and a function that can throw returns `Except`.
-/

namespace dnf5

/-- A `std::string`: the sequence of its characters. -/
abbrev Str := List Char

/-- Thrown C++ exceptions. -/
inductive Error where
  /-- `std::runtime_error(message)`, thrown by `available_chroots_error`. -/
  | runtime_error (message : Str)
  /-- `std::invalid_argument` / `std::out_of_range`, thrown by `std::stoi`. -/
  | stoi_error (input : Str)
  /-- A JSON value was accessed as something it is not. -/
  | json_error
  deriving DecidableEq, Repr

/-! ## `std::string` helpers -/

/-- `s.starts_with(p)`. -/
def starts_with (s p : Str) : Bool := p.isPrefixOf s

/-- `s.ends_with(p)`. -/
def ends_with (s p : Str) : Bool := p.isSuffixOf s

/-- `s.substr(n)`. -/
def substr (s : Str) (n : Nat) : Str := s.drop n

/-! ## `std::regex_replace` -/

/-- The character `$` of a replacement format string. -/
def dollar : Char := Char.ofNat 36

/-- Where the scan of a replacement format string stands: in plain text, behind a `$`, or
behind a `$` and one decimal digit. -/
inductive FormatState where
  | text
  | after_dollar
  | after_digit (d : Char)

/-- The scan of `match_results::format` over an ECMAScript replacement format string, for a
regular expression without capture groups: `$$` is a dollar sign, `$&` the matched text,
dollar-backquote the text before the match, dollar-quote the text after it, `$n` and `$nn`
(one or two decimal digits) the n-th group (the whole match for number 0, nothing for the
others, since there are no groups), and a dollar sign before anything else, or at the end,
is copied. -/
def format_scan (m pre suf : Str) : FormatState → Str → Str
  | FormatState.text, [] => []
  | FormatState.text, c :: rest =>
    if c = dollar then format_scan m pre suf FormatState.after_dollar rest
    else c :: format_scan m pre suf FormatState.text rest
  | FormatState.after_dollar, [] => [dollar]
  | FormatState.after_dollar, d :: rest =>
    if d = dollar then dollar :: format_scan m pre suf FormatState.text rest
    else if d = Char.ofNat 38 then m ++ format_scan m pre suf FormatState.text rest
    else if d = Char.ofNat 96 then pre ++ format_scan m pre suf FormatState.text rest
    else if d = Char.ofNat 39 then suf ++ format_scan m pre suf FormatState.text rest
    else if d.isDigit then format_scan m pre suf (FormatState.after_digit d) rest
    else dollar :: d :: format_scan m pre suf FormatState.text rest
  | FormatState.after_digit d, [] => if d = Char.ofNat 48 then m else []
  | FormatState.after_digit d, e :: rest =>
    if e.isDigit then
      (if d = Char.ofNat 48 ∧ e = Char.ofNat 48 then m else [])
        ++ format_scan m pre suf FormatState.text rest
    else if e = dollar then
      (if d = Char.ofNat 48 then m else []) ++ format_scan m pre suf FormatState.after_dollar rest
    else
      (if d = Char.ofNat 48 then m else []) ++ e :: format_scan m pre suf FormatState.text rest

/-- `match_results::format(fmt)` for the matched text `m`, the text `pre` before the match
and the text `suf` after it. -/
def format_expand (m pre suf fmt : Str) : Str :=
  format_scan m pre suf FormatState.text fmt

/-- A compiled regular expression, as far as `regex_replace` needs it: given whether the
current position is the beginning of the input and the text from the current position to
the end of the input, the length of the match that starts at the current position, if
there is one.  All expressions of the plugin match non-empty text only. -/
abbrev Matcher := Bool → Str → Option Nat

/-- The loop of `std::regex_replace(s, re, fmt)`: scan from the left; where the expression
matches, emit the expanded format and continue behind the match; copy everything else.
`skip` counts the characters of the current match that are still to be passed over and
`pre` is the unmatched text since the previous match. -/
def regex_replace_loop (re : Matcher) (fmt : Str) : Str → Bool → Nat → Str → Str
  | [], _, _, _ => []
  | _ :: cs, _, skip + 1, pre => regex_replace_loop re fmt cs false skip pre
  | c :: cs, bol, 0, pre =>
    match re bol (c :: cs) with
    | some n =>
      format_expand ((c :: cs).take n) pre ((c :: cs).drop n) fmt
        ++ regex_replace_loop re fmt cs false (n - 1) []
    | none => c :: regex_replace_loop re fmt cs false 0 (pre ++ [c])

/-- `std::regex_replace(s, re, fmt)`. -/
def regex_replace (s : Str) (re : Matcher) (fmt : Str) : Str :=
  regex_replace_loop re fmt s true 0 []

/-- The loop of `std::regex_replace(s, re, fmt, format_first_only)`: only the first match
is replaced, the text behind it is copied. -/
def regex_replace_first_loop (re : Matcher) (fmt : Str) : Str → Bool → Str → Str
  | [], _, _ => []
  | c :: cs, bol, pre =>
    match re bol (c :: cs) with
    | some n => format_expand ((c :: cs).take n) pre ((c :: cs).drop n) fmt ++ (c :: cs).drop n
    | none => c :: regex_replace_first_loop re fmt cs false (pre ++ [c])

/-- `std::regex_replace(s, re, fmt, std::regex_constants::format_first_only)`. -/
def regex_replace_first (s : Str) (re : Matcher) (fmt : Str) : Str :=
  regex_replace_first_loop re fmt s true []

/-- A regular expression that is plain text (`":"`, `"/"`, `"@"`, `"/group_"`, and with the
escaped dollar sign `"\\$basearch"`, `"\\$chroot"`): it matches where the text starts with
it. -/
def re_literal (pat : Str) : Matcher :=
  fun _ s => if pat.isPrefixOf s then some pat.length else none

/-- The expression `^pat`: plain text at the beginning of the input only. -/
def re_bol_literal (pat : Str) : Matcher :=
  fun bol s => if bol && pat.isPrefixOf s then some pat.length else none

/-- The expression `pat$`: plain text that reaches the end of the input. -/
def re_literal_eol (pat : Str) : Matcher :=
  fun _ s => if s = pat then some pat.length else none

/-- A line terminator, which `.` does not match. -/
def is_line_terminator (c : Char) : Bool := c = Char.ofNat 10 || c = Char.ofNat 13

/-- The expression `:.*`: a colon and the rest of its line. -/
def re_colon_rest : Matcher :=
  fun _ s =>
    match s with
    | [] => none
    | c :: cs => if c = ':' then some (1 + (cs.takeWhile (fun x => !is_line_terminator x)).length)
                 else none

/-- The expression `-[^-]*`: a dash and everything up to the next dash. -/
def re_dash_segment : Matcher :=
  fun _ s =>
    match s with
    | [] => none
    | c :: cs => if c = '-' then some (1 + (cs.takeWhile (fun x => x != '-')).length) else none

/-- Index just behind the last dash of a text, if it has a dash. -/
def after_last_dash : Str → Option Nat
  | [] => none
  | c :: cs =>
    match after_last_dash cs with
    | some n => some (n + 1)
    | none => if c = '-' then some 1 else none

/-- The expression `.*-`: from the current position through the last dash of the line. -/
def re_through_last_dash : Matcher :=
  fun _ s => after_last_dash (s.takeWhile (fun x => !is_line_terminator x))

/-! ## Identifier codec (`copr_repo.cpp`) -/

/-- `expand_at_in_groupname`. -/
def expand_at_in_groupname (ownername : Str) : Str :=
  if starts_with ownername "@".toList then "group_".toList ++ substr ownername 1
  else ownername

/-- `copr_id_from_repo_id`. -/
def copr_id_from_repo_id (repo_id : Str) : Str :=
  if !starts_with repo_id "copr:".toList then []
  else
    let copr_id := regex_replace repo_id (re_bol_literal "copr:".toList) []
    let copr_id := regex_replace_first copr_id (re_literal ":".toList) "/".toList
    let copr_id := regex_replace copr_id (re_literal "/group_".toList) "/@".toList
    let copr_id := regex_replace_first copr_id (re_literal ":".toList) "/".toList
    let copr_id := regex_replace copr_id (re_literal_eol ":ml".toList) []
    copr_id

/-- `copr_id_to_copr_file`. -/
def copr_id_to_copr_file (repo_id : Str) : Str :=
  let output := regex_replace repo_id (re_literal_eol ":ml".toList) []
  let output := regex_replace output (re_literal "/".toList) ":".toList
  let output := regex_replace output (re_literal "@".toList) "group_".toList
  "_copr:".toList ++ output ++ ".repo".toList

/-! ## Chroot resolver (`copr.cpp`, `copr_repo.cpp`) -/

/-- The message catalogue lookup `_( ... )`; messages are left untranslated. -/
def gettext (msgid : Str) : Str := msgid

/-- `std::string::operator<`: lexicographic comparison of the characters. -/
def str_lt : Str → Str → Bool
  | [], [] => false
  | [], _ :: _ => true
  | _ :: _, [] => false
  | a :: as, b :: bs =>
    if a.toNat < b.toNat then true
    else if b.toNat < a.toNat then false
    else str_lt as bs

/-- A `std::set<std::string>`, as the list of its elements in iteration order. -/
abbrev StrSet := List Str

/-- `std::set<std::string>::insert`: the element goes to its place in ascending order, and
an element that is already there is not inserted again. -/
def set_insert : StrSet → Str → StrSet
  | [], x => [x]
  | y :: ys, x =>
    if str_lt x y then x :: y :: ys
    else if str_lt y x then y :: set_insert ys x
    else y :: ys

/-- `std::set<std::string>::contains`. -/
def set_contains (s : StrSet) (x : Str) : Bool := s.contains x

/-- `repo_fallbacks` (`copr.cpp`). -/
def repo_fallbacks (name_version : Str) : List Str :=
  let retval : List Str := []
  let retval := retval ++ [name_version]
  retval

/-- The body of the `for` loop of `available_chroots_error`. -/
def available_chroots_lines : List Str → Bool → Str
  | [], _ => []
  | available :: rest, first =>
    (if !first then "\n".toList else []) ++ " ".toList ++ available
      ++ available_chroots_lines rest false

/-- The message `available_chroots_error` builds. -/
def available_chroots_message (chroots : StrSet) (chroot : Str) : Str :=
  let message : Str :=
    if chroot ≠ [] then
      gettext "Chroot not found in the given Copr project".toList ++ " (".toList ++ chroot
        ++ ").".toList
    else gettext "Unable to detect chroot, specify it explicitly.".toList
  let message := message ++ " ".toList
    ++ gettext "You can choose one of the avaiable chroots explicitly:".toList ++ "\n".toList
  message ++ available_chroots_lines chroots true

/-- `available_chroots_error`: it always throws; the value is the exception thrown. -/
def available_chroots_error (chroots : StrSet) (chroot : Str) : Error :=
  Error.runtime_error (available_chroots_message chroots chroot)

/-- The template chosen inside the loop of `get_repo_triplet` once the chroot of the guess
`nv` has been found ("do the magic with $releasever and $basearch"). -/
def repo_triplet_template (nv : Str) : Str :=
  if nv = "fedora-eln".toList then nv ++ "-$basearch".toList
  else if starts_with nv "fedora-".toList then "fedora-$releasever-$basearch".toList
  else if starts_with nv "opensuse-leap-".toList then
    "opensuse-leap-$releasever-$basearch".toList
  else if starts_with nv "mageia".toList then
    let os_version := "$releasever".toList
    let os_version := if ends_with nv "cauldron".toList then "cauldron".toList else os_version
    "mageia-".toList ++ os_version ++ "-$basearch".toList
  else nv ++ "-$basearch".toList

/-- The `for` loop of `get_repo_triplet` over the fallback guesses; the result is the
returned template and the value left in the output parameter `name_version`. -/
def get_repo_triplet_loop (available_chroots : StrSet) (config_arch : Str) :
    List Str → Str × Str
  | [] => ([], [])
  | nv :: rest =>
    let chroot := nv ++ "-".toList ++ config_arch
    if set_contains available_chroots chroot then (repo_triplet_template nv, nv)
    else get_repo_triplet_loop available_chroots config_arch rest

/-- `get_repo_triplet`: the returned template paired with the output parameter
`name_version`. -/
def get_repo_triplet (available_chroots : StrSet) (config_name_version config_arch : Str) :
    Str × Str :=
  get_repo_triplet_loop available_chroots config_arch (repo_fallbacks config_name_version)

/-! ## JSON documents (`json.hpp`) -/

/-- Modelled from the spec: class `Json` is only declared (`json.hpp`); its implementation
over the json-c library is not among the sources.  A document is the JSON tree of the
descriptor the spec describes; an object keeps its members in the order of the document.
Numbers are integers. -/
inductive Json where
  | null
  | boolean (b : Bool)
  | integer (i : Int)
  | string (s : Str)
  | array (items : List Json)
  | object (members : List (Str × Json))

instance : Inhabited Json := ⟨Json.null⟩

/-- `std::to_string` of a non-negative `int`: the decimal digits. -/
def to_string (n : Nat) : Str := Nat.toDigits 10 n

/-- The decimal text of an `int`, as `operator<<` and json-c print it. -/
def int_to_string (i : Int) : Str :=
  if i < 0 then '-' :: to_string i.natAbs else to_string i.natAbs

namespace Json

/-- Modelled from the spec: `Json::get_dict_item` (`json.cpp` is not among the sources);
the member with the given key, and the null value when there is none or when the value is
not an object. -/
def get_dict_item (j : Json) (key : Str) : Json :=
  match j with
  | object members => (members.lookup key).getD null
  | _ => null

/-- Modelled from the spec: `Json::has_key` (`json.cpp` is not among the sources). -/
def has_key (j : Json) (key : Str) : Bool :=
  match j with
  | object members => (members.lookup key).isSome
  | _ => false

/-- Modelled from the spec: `Json::keys` (`json.cpp` is not among the sources); the keys of
an object in document order; asking anything else for its keys is an error. -/
def keys (j : Json) : Except Error (List Str) :=
  match j with
  | object members => pure (members.map Prod.fst)
  | _ => throw Error.json_error

/-- Modelled from the spec: `Json::string` (`json.cpp` is not among the sources); the text
of a string, the printed form of a number or boolean; the text of the null value or of a
container is an error. -/
def string_value (j : Json) : Except Error Str :=
  match j with
  | string s => pure s
  | integer i => pure (int_to_string i)
  | boolean b => pure (if b then "true".toList else "false".toList)
  | _ => throw Error.json_error

/-- Modelled from the spec: `Json::boolean` (`json.cpp` is not among the sources); a
boolean is itself, a number is true when non-zero, a string when non-empty, anything else
is false. -/
def boolean_value (j : Json) : Bool :=
  match j with
  | boolean b => b
  | integer i => i ≠ 0
  | string s => s ≠ []
  | _ => false

/-- Modelled from the spec: `Json::array_length` (`json.cpp` is not among the sources). -/
def array_length (j : Json) : Except Error Nat :=
  match j with
  | array items => pure items.length
  | _ => throw Error.json_error

/-- Modelled from the spec: `Json::get_array_item` (`json.cpp` is not among the sources). -/
def get_array_item (j : Json) (i : Nat) : Json :=
  match j with
  | array items => items.getD i null
  | _ => null

end Json

/-! ## `std::stoi` -/

/-- The C `isspace` in the default locale. -/
def isspace (c : Char) : Bool :=
  c = ' ' || (9 ≤ c.toNat && c.toNat ≤ 13)

/-- The value of a run of decimal digits. -/
def digits_value (ds : Str) : Nat :=
  ds.foldl (fun acc c => 10 * acc + (c.toNat - 48)) 0

/-- `std::stoi(s)`: skip white space, read an optional sign and the longest run of decimal
digits; `std::invalid_argument` when there is no digit, `std::out_of_range` when the value
does not fit an `int`. -/
def stoi (s : Str) : Except Error Int :=
  let s1 := s.dropWhile isspace
  let negative := s1.head? = some '-'
  let s2 := if s1.head? = some '-' ∨ s1.head? = some '+' then s1.drop 1 else s1
  let ds := s2.takeWhile Char.isDigit
  if ds = [] then throw (Error.stoi_error s)
  else
    let v : Int := if negative then -(digits_value ds : Int) else (digits_value ds : Int)
    if v < -2147483648 ∨ 2147483647 < v then throw (Error.stoi_error s)
    else pure v

/-! ## Repository parts (`copr_repo.hpp`) -/

/-- `class CoprRepoPart`. -/
structure CoprRepoPart where
  id : Str := []
  enabled : Bool
  baseurl : Str := []
  name : Str := []
  gpgkey : Str := []
  priority : Int := 99
  cost : Int := 0
  module_hotfixes : Bool := false
  deriving DecidableEq, Repr

namespace CoprRepoPart

/-- `CoprRepoPart(id, name, enabled, baseurl, gpgkey)`. -/
def of_fields (id name : Str) (enabled : Bool) (baseurl gpgkey : Str) : CoprRepoPart :=
  { id := id, enabled := enabled, baseurl := baseurl, name := name, gpgkey := gpgkey }

/-- One round of the loop of `update_from_json_opts`: the option `key` with value `val`. -/
def update_from_json_opt (p : CoprRepoPart) (key : Str) (val : Json) :
    Except Error CoprRepoPart :=
  if key = "cost".toList then do
    let s ← val.string_value
    let n ← stoi s
    pure { p with cost := n }
  else if key = "priority".toList then do
    let s ← val.string_value
    let n ← stoi s
    pure { p with priority := n }
  else if key = "module_hotfixes".toList then pure { p with module_hotfixes := val.boolean_value }
  else if key = "id".toList then do
    let s ← val.string_value
    pure { p with id := s }
  else if key = "name".toList then do
    let s ← val.string_value
    pure { p with name := s }
  else pure p

/-- The `for` loop of `update_from_json_opts` over the keys of `opts`. -/
def update_from_json_opts_loop (opts : Json) : List Str → CoprRepoPart → Except Error CoprRepoPart
  | [], p => pure p
  | key :: rest, p => do
    let p ← update_from_json_opt p key (opts.get_dict_item key)
    update_from_json_opts_loop opts rest p

/-- `CoprRepoPart::update_from_json_opts`. -/
def update_from_json_opts (p : CoprRepoPart) (json : Json) : Except Error CoprRepoPart :=
  if !json.has_key "opts".toList then pure p
  else do
    let opts := json.get_dict_item "opts".toList
    let keys ← opts.keys
    update_from_json_opts_loop opts keys p

/-- `CoprRepoPart::set_copr_pub_key`. -/
def set_copr_pub_key (p : CoprRepoPart) (results_url owner projectname : Str) : CoprRepoPart :=
  { p with gpgkey := results_url ++ "/".toList ++ owner ++ "/".toList ++ projectname
      ++ "/pubkey.gpg".toList }

/-- `CoprRepoPart::set_copr_baseurl`. -/
def set_copr_baseurl (p : CoprRepoPart) (results_url owner dirname chroot : Str) : CoprRepoPart :=
  { p with baseurl := results_url ++ "/".toList ++ owner ++ "/".toList ++ dirname
      ++ "/".toList ++ chroot ++ "/".toList }

/-- `CoprRepoPart(json_dep, chroot)`, the part of an `external_baseurl` dependency.  The
member `enabled` has no initialiser and the constructor does not set it: `indeterminate`
is the value it happens to hold. -/
def of_external_baseurl (indeterminate : Bool) (json_dep : Json) (chroot : Str) :
    Except Error CoprRepoPart := do
  let p : CoprRepoPart := { enabled := indeterminate }
  let p ← p.update_from_json_opts json_dep
  let data := json_dep.get_dict_item "data".toList
  let pattern ← (data.get_dict_item "pattern".toList).string_value
  pure { p with baseurl := regex_replace pattern (re_literal "$chroot".toList) chroot }

/-- `CoprRepoPart(json_dep, results_url, chroot)`, the part of a `copr` dependency; for
`indeterminate` see `of_external_baseurl`. -/
def of_copr_dependency (indeterminate : Bool) (json_dep : Json) (results_url chroot : Str) :
    Except Error CoprRepoPart := do
  let p : CoprRepoPart := { enabled := indeterminate }
  let p ← p.update_from_json_opts json_dep
  let info := json_dep.get_dict_item "data".toList
  let owner ← (info.get_dict_item "owner".toList).string_value
  let project ← (info.get_dict_item "projectname".toList).string_value
  let p := p.set_copr_pub_key results_url owner project
  pure (p.set_copr_baseurl results_url owner project chroot)

end CoprRepoPart

/-! ## Repository sets (`copr_repo.hpp`, `copr_repo.cpp`) -/

/-- The settings the constructor of `CoprRepo` reads from `CoprConfig`: the values of
`get_value("main", "name_version")` and `get_value("main", "arch")`, which
`CoprSubCommand::configure` has set, and `get_hub_hostname`. -/
structure CoprConfig where
  name_version : Str
  arch : Str
  get_hub_hostname : Str → Str

/-- `class CoprRepo`. -/
structure CoprRepo where
  id : Str := []
  repo_file : Str := []
  repositories : List CoprRepoPart := []
  enabled : Bool
  has_external_deps : Bool
  multilib : Bool
  deriving DecidableEq, Repr

namespace CoprRepo

/-- `CoprRepo::CoprRepo()`. -/
def default_constructed : CoprRepo :=
  { enabled := false, has_external_deps := false, multilib := false }

/-- `CoprRepo::set_id_from_repo_id`. -/
def set_id_from_repo_id (r : CoprRepo) (dnfRepoID : Str) : CoprRepo :=
  if r.id ≠ [] then r
  else
    let copr_id := copr_id_from_repo_id dnfRepoID
    if copr_id ≠ [] then { r with id := copr_id } else r

/-- The inner loop of the constructor that fills `available_chroots`: the architectures of
one `name_version`. -/
def available_chroots_of_arches (name_version : Str) : List Str → StrSet → StrSet
  | [], acc => acc
  | arch_found :: rest, acc =>
    let chroot := name_version ++ "-".toList ++ arch_found
    available_chroots_of_arches name_version rest (set_insert acc chroot)

/-- The outer loop of the constructor that fills `available_chroots`. -/
def available_chroots_loop (json_repos : Json) : List Str → StrSet → Except Error StrSet
  | [], acc => pure acc
  | name_version :: rest, acc => do
    let arches := (json_repos.get_dict_item name_version).get_dict_item "arch".toList
    let arch_keys ← arches.keys
    available_chroots_loop json_repos rest (available_chroots_of_arches name_version arch_keys acc)

/-- "All available chroots in the selected repo": the set the constructor computes from the
`repos` member of the descriptor. -/
def available_chroots (json : Json) : Except Error StrSet := do
  let json_repos := json.get_dict_item "repos".toList
  let name_versions ← json_repos.keys
  available_chroots_loop json_repos name_versions []

/-- The "multilib repositories" loop of the constructor; `suffix` is the loop counter and
the result the parts pushed, in order. -/
def multilib_loop (main_repo_json mljson : Json) (repo_id name results_url project_owner
    project_dirname baseurl_chroot gpgkey : Str) : List Str → Nat → Except Error (List CoprRepoPart)
  | [], _ => pure []
  | key :: rest, suffix => do
    let ml_suffix := ":ml".toList
    let ml_suffix := if suffix ≠ 0 then ml_suffix ++ to_string suffix else ml_suffix
    let multilib_id := repo_id ++ ml_suffix
    let multilib_chroot := regex_replace baseurl_chroot (re_literal "$basearch".toList) key
    let baseurl := results_url ++ "/".toList ++ project_owner ++ "/".toList ++ project_dirname
      ++ "/".toList ++ multilib_chroot ++ "/".toList
    let ml_repo := CoprRepoPart.of_fields multilib_id (name ++ " (".toList ++ key ++ ")".toList)
      true baseurl gpgkey
    let ml_repo ← ml_repo.update_from_json_opts main_repo_json
    let ml_repo ← ml_repo.update_from_json_opts (mljson.get_dict_item key)
    let others ← multilib_loop main_repo_json mljson repo_id name results_url project_owner
      project_dirname baseurl_chroot gpgkey rest (suffix + 1)
    pure (ml_repo :: others)

/-- The "external dependencies" loop of the constructor over the indices `i`; the result
is the parts pushed, in order.  `indeterminate i` is the value the uninitialised member
`enabled` of the part of dependency `i` holds. -/
def dependencies_loop (deps : Json) (indeterminate : Nat → Bool) (results_url baseurl_chroot : Str) :
    List Nat → Except Error (List CoprRepoPart)
  | [] => pure []
  | i :: rest => do
    let dep := deps.get_array_item i
    let type ← (dep.get_dict_item "type".toList).string_value
    let pushed ←
      if type = "copr".toList then do
        let repo ← CoprRepoPart.of_copr_dependency (indeterminate i) dep results_url baseurl_chroot
        pure [repo]
      else if type = "external_baseurl".toList then do
        let repo ← CoprRepoPart.of_external_baseurl (indeterminate i) dep baseurl_chroot
        pure [repo]
      else pure []
    let others ← dependencies_loop deps indeterminate results_url baseurl_chroot rest
    pure (pushed ++ others)

/-- The chroot of the base URL, the selector of the chroot detail in `repos` and the
architecture, as the constructor determines them from the explicitly selected chroot or,
when there is none, with `get_repo_triplet`. -/
def resolve_chroot (available_chroots : StrSet) (config_name_version arch selected_chroot : Str) :
    Except Error (Str × Str × Str) :=
  if selected_chroot ≠ [] then
    let baseurl_chroot := selected_chroot
    if !set_contains available_chroots selected_chroot then
      throw (available_chroots_error available_chroots selected_chroot)
    else
      let json_selector := regex_replace selected_chroot re_dash_segment []
      let arch := regex_replace selected_chroot re_through_last_dash []
      pure (baseurl_chroot, json_selector, arch)
  else
    let (baseurl_chroot, json_selector) :=
      get_repo_triplet available_chroots config_name_version arch
    if baseurl_chroot = [] then
      let detected_chroot := config_name_version ++ "-".toList ++ arch
      throw (available_chroots_error available_chroots detected_chroot)
    else pure (baseurl_chroot, json_selector, arch)

/-- The chroot detail `json_repos[json_selector]["arch"][arch]` the constructor calls
`main_repo_json`. -/
def main_repo_json (json : Json) (json_selector arch : Str) : Json :=
  (((json.get_dict_item "repos".toList).get_dict_item json_selector).get_dict_item
    "arch".toList).get_dict_item arch

/-- The "multilib repositories" block of the constructor: the parts it pushes. -/
def multilib_repos (main_repo_json : Json) (repo_id name results_url project_owner
    project_dirname baseurl_chroot gpgkey selected_chroot : Str) :
    Except Error (List CoprRepoPart) :=
  if selected_chroot = [] ∧ main_repo_json.has_key "multilib".toList then do
    let mljson := main_repo_json.get_dict_item "multilib".toList
    let ml_keys ← mljson.keys
    multilib_loop main_repo_json mljson repo_id name results_url project_owner project_dirname
      baseurl_chroot gpgkey ml_keys 0
  else pure []

/-- The "external dependencies" block of the constructor: the parts it pushes. -/
def dependency_repos (json : Json) (indeterminate : Nat → Bool) (results_url baseurl_chroot : Str) :
    Except Error (List CoprRepoPart) := do
  let deps := json.get_dict_item "dependencies".toList
  let deps_length ← deps.array_length
  dependencies_loop deps indeterminate results_url baseurl_chroot (List.range deps_length)

/-- The id of the main part: `"copr:" + hub hostname + ":" + owner + ":" + project_dirname`
with the owner in its `group_` form. -/
def main_repo_id (copr_config : CoprConfig) (hubspec project_owner project_dirname : Str) : Str :=
  let owner := expand_at_in_groupname project_owner
  "copr:".toList ++ copr_config.get_hub_hostname hubspec ++ ":".toList ++ owner
    ++ ":".toList ++ project_dirname

/-- The constructor from `auto owner = expand_at_in_groupname(project_owner)` to its end:
the set is given its id, and the main part, the multilib parts and the dependency parts
are pushed, for the resolved `baseurl_chroot`, `json_selector` and `arch`. -/
def expand (copr_config : CoprConfig) (json : Json) (indeterminate : Nat → Bool)
    (hubspec project_owner project_dirname selected_chroot : Str)
    (baseurl_chroot json_selector arch : Str) : Except Error CoprRepo := do
  let r : CoprRepo := default_constructed
  let project_name := regex_replace project_dirname re_colon_rest []
  let repo_id := main_repo_id copr_config hubspec project_owner project_dirname
  let r := r.set_id_from_repo_id repo_id
  let results_url ← (json.get_dict_item "results_url".toList).string_value
  let baseurl := results_url ++ "/".toList ++ project_owner ++ "/".toList ++ project_dirname
    ++ "/".toList ++ baseurl_chroot ++ "/".toList
  let name := "Copr repo for ".toList ++ project_dirname ++ " owned by ".toList ++ project_owner
  let gpgkey := results_url ++ "/".toList ++ project_owner ++ "/".toList ++ project_name
    ++ "/".toList ++ "pubkey.gpg".toList
  let main_repo_json := main_repo_json json json_selector arch
  let main_repo := CoprRepoPart.of_fields repo_id name true baseurl gpgkey
  let main_repo ← main_repo.update_from_json_opts main_repo_json
  let ml_repos ← multilib_repos main_repo_json repo_id name results_url project_owner
    project_dirname baseurl_chroot gpgkey selected_chroot
  let dep_repos ← dependency_repos json indeterminate results_url baseurl_chroot
  pure { r with repositories := [main_repo] ++ ml_repos ++ dep_repos }

/-- `CoprRepo::CoprRepo(base, copr_config, hubspec, project_owner, project_dirname,
selected_chroot)`.  `json` is the descriptor that `Json(base, url)` has fetched, and
`indeterminate` gives the uninitialised `enabled` members of the dependency parts. -/
def network_constructed (copr_config : CoprConfig) (json : Json) (indeterminate : Nat → Bool)
    (hubspec project_owner project_dirname selected_chroot : Str) : Except Error CoprRepo := do
  let config_name_version := copr_config.name_version
  let arch := copr_config.arch
  let available_chroots ← available_chroots json
  let (baseurl_chroot, json_selector, arch) ←
    resolve_chroot available_chroots config_name_version arch selected_chroot
  expand copr_config json indeterminate hubspec project_owner project_dirname selected_chroot
    baseurl_chroot json_selector arch

end CoprRepo


/-! ## Writing parts and sets (`operator<<`) -/

/-- What `std::endl` writes: a newline. -/
def endl : Str := [Char.ofNat 10]

/-- `operator<<(std::ostream &, const CoprRepoPart &)`: the text written to the stream. -/
def CoprRepoPart.output (repo : CoprRepoPart) : Str :=
  let os : Str := []
  let os := os ++ "[".toList ++ repo.id ++ "]".toList ++ endl
  let os := os ++ "name=".toList ++ repo.name ++ endl
  let os := os ++ "baseurl=".toList ++ repo.baseurl ++ endl
  let os := os ++ "type=rpm-md".toList ++ endl
  let os := os ++ "skip_if_unavailable=True".toList ++ endl
  let os := os ++ "gpgcheck=".toList ++ to_string (if repo.gpgkey = [] then 0 else 1) ++ endl
  let os := if repo.gpgkey ≠ [] then os ++ "gpgkey=".toList ++ repo.gpgkey ++ endl else os
  let os := os ++ "repo_gpgcheck=0".toList ++ endl
  let os := if repo.cost ≠ 0 then os ++ "cost=".toList ++ int_to_string repo.cost ++ endl else os
  let os := os ++ "enabled=1".toList ++ endl
  let os := os ++ "enabled_metadata=1".toList ++ endl
  let os :=
    if repo.priority ≠ 99 then os ++ "priority=".toList ++ int_to_string repo.priority ++ endl
    else os
  let os := if repo.module_hotfixes then os ++ "module_hotfixes=1".toList ++ endl else os
  os

/-- The `for` loop of `operator<<(std::ostream &, const CoprRepo &)`; `first` is its flag. -/
def CoprRepo.output_loop : List CoprRepoPart → Bool → Str
  | [], _ => []
  | repo_part :: rest, first =>
    (if !first then endl else []) ++ repo_part.output ++ CoprRepo.output_loop rest false

/-- `operator<<(std::ostream &, const CoprRepo &)`: the text written to the stream. -/
def CoprRepo.output (copr_repo : CoprRepo) : Str :=
  CoprRepo.output_loop copr_repo.repositories true

/-! ## Local reconstruction (`add_dnf_repo`) -/

/-- What the plugin reads from a `libdnf::repo::Repo`: `get_id()` and `is_enabled()`. -/
structure DnfRepo where
  id : Str
  enabled : Bool
  deriving DecidableEq, Repr

/-- `CoprRepoPart(dnfRepo)`: the id and the enabled state are copied, the other members
keep their default initialisers. -/
def CoprRepoPart.of_dnf_repo (dnfRepo : DnfRepo) : CoprRepoPart :=
  { id := dnfRepo.id, enabled := dnfRepo.enabled }

/-- `std::string::c_str()` as a C function reads it: the characters before the first NUL. -/
def c_str (s : Str) : Str := s.takeWhile (fun c => c != Char.ofNat 0)

/-- The `*` of a `fnmatch` pattern: the rest of the pattern, `k`, matches the text or one
of its tails. -/
def fnmatch_star (k : Str → Bool) : Str → Bool
  | [] => k []
  | c :: cs => k (c :: cs) || fnmatch_star k cs

/-- `fnmatch(pattern, string, 0) == 0` for a pattern made of ordinary characters and `*`
(the pattern of the plugin, `copr:*:*:*:ml`, has no `?`, `[` or backslash): a `*` matches
any text, every other character matches itself. -/
def fnmatch : Str → Str → Bool
  | [], s => s.isEmpty
  | p :: ps, s =>
    if p = '*' then fnmatch_star (fnmatch ps) s
    else
      match s with
      | [] => false
      | c :: cs => p = c && fnmatch ps cs

/-- `CoprRepo::add_dnf_repo`. -/
def CoprRepo.add_dnf_repo (r : CoprRepo) (dnfRepo : DnfRepo) : CoprRepo :=
  let r := r.set_id_from_repo_id dnfRepo.id
  let cp := CoprRepoPart.of_dnf_repo dnfRepo
  let r := { r with enabled := r.enabled || cp.enabled }
  let r := { r with
    has_external_deps := r.has_external_deps || starts_with cp.id "coprdep:".toList }
  let r := if fnmatch "copr:*:*:*:ml".toList (c_str cp.id) then { r with multilib := true } else r
  { r with repositories := r.repositories ++ [cp] }

/-! ## The `enable` command (`copr_enable.cpp`) -/

/-- The exception `ArgumentParserPositionalArgumentFormatError(format, argument)` of the
argument parser. -/
inductive ArgumentParserError where
  | positional_argument_format (format argument : Str)
  deriving DecidableEq, Repr

/-- The members of `CoprEnableCommand` that the parse hooks set. -/
structure CoprEnableCommand where
  opt_hub : Str := []
  opt_owner : Str := []
  opt_dirname : Str := []
  opt_chroot : Str := []
  deriving DecidableEq, Repr

/-- The character class `[^/]`. -/
def not_slash (c : Char) : Bool := c != '/'

/-- The tail `([^/]+)/([^/]*)$` of the expression of the PROJECT_SPEC hook, matched against
the whole of `s`: the sub-matches of the two groups.  A run `[^/]+` or `[^/]*` is greedy, and
since the run is followed in the expression by a slash or by the end of the input, no
shorter run can lead to a match: the longest run is the only candidate. -/
def match_owner_dirname (s : Str) : Option (Str × Str) :=
  let owner := s.takeWhile not_slash
  let rest := s.dropWhile not_slash
  if owner = [] then none
  else
    match rest with
    | [] => none
    | _ :: rest =>
      let dirname := rest.takeWhile not_slash
      if rest.dropWhile not_slash = [] then some (owner, dirname) else none

/-- `std::regex_match(project_spec, match, std::regex("^(([^/]+)/)?([^/]+)/([^/]*)$"))`: the
sub-matches `match[2]`, `match[3]` and `match[4]` when the whole of `project_spec` matches.
The optional group is greedy: the match with it is tried first, and without it when that
fails; a group that took no part in the match gives the empty string. -/
def project_spec_match (project_spec : Str) : Option (Str × Str × Str) :=
  let hub := project_spec.takeWhile not_slash
  let rest := project_spec.dropWhile not_slash
  let with_group : Option (Str × Str × Str) :=
    if hub = [] then none
    else
      match rest with
      | [] => none
      | _ :: rest =>
        match match_owner_dirname rest with
        | some (owner, dirname) => some (hub, owner, dirname)
        | none => none
  match with_group with
  | some r => some r
  | none =>
    match match_owner_dirname project_spec with
    | some (owner, dirname) => some ([], owner, dirname)
    | none => none

/-- The parse hook of the positional argument PROJECT_SPEC, called with `argv[0]`. -/
def CoprEnableCommand.project_parse_hook (cmd : CoprEnableCommand) (argv0 : Str) :
    Except ArgumentParserError CoprEnableCommand :=
  let project_spec := argv0
  match project_spec_match project_spec with
  | none =>
    throw (ArgumentParserError.positional_argument_format
      "Invalid PROJECT_SPEC format '{}'".toList project_spec)
  | some (hub, owner, dirname) =>
    pure { cmd with opt_hub := hub, opt_owner := owner, opt_dirname := dirname }

/-- The parse hook of the positional argument CHROOT. -/
def CoprEnableCommand.chroot_parse_hook (cmd : CoprEnableCommand) (argv0 : Str) :
    CoprEnableCommand :=
  { cmd with opt_chroot := argv0 }

/-! ## Saving a set (`CoprRepo::save`) -/

/-- `std::filesystem::path::operator/=` for POSIX paths: an absolute right-hand side
replaces the path; otherwise a separator is added unless the path is empty or ends with
one, and the right-hand side is appended. -/
def path_append (path p : Str) : Str :=
  if starts_with p "/".toList then p
  else if path = [] ∨ ends_with path "/".toList then path ++ p
  else path ++ "/".toList ++ p

/-- The assignment `path = value` to a path that holds `_held`: the path is `value`. -/
def path_assign (_held value : Str) : Str := value

/-- The path of the file `CoprRepo::save` opens and writes the set to. -/
def CoprRepo.save_path (r : CoprRepo) : Str :=
  let path := "/etc/yum.repos.d".toList
  let path := path_assign path "/tmp".toList
  let path := path_append path (copr_id_to_copr_file r.id)
  path

/-! ## Notions used in the statements -/

/-- Replacing every occurrence of the plain text `pat` by `rep`. -/
def replace_all (pat rep s : Str) : Str := regex_replace s (re_literal pat) rep

/-- Removal of one trailing `pat`, when the text ends with it. -/
def remove_suffix (pat s : Str) : Str :=
  if pat <:+ s then s.take (s.length - pat.length) else s

/-- What `copr_id_to_copr_file` puts between `_copr:` and `.repo` once a trailing `:ml` is
gone: slashes become colons and `@` becomes `group_`. -/
def file_body (s : Str) : Str :=
  (s.flatMap (fun c => if c = '/' then [':'] else [c])).flatMap
    (fun c => if c = '@' then "group_".toList else [c])

/-- The id of the multilib part at position `i`: the suffix `:ml` for the first one,
`:ml` and the decimal position for the others. -/
def multilib_id (repo_id : Str) (i : Nat) : Str :=
  if i = 0 then repo_id ++ ":ml".toList else repo_id ++ ":ml".toList ++ to_string i

/-- The lines of the stanza of a part, in the words of the specification: header, name,
base URL, the fixed type and skip lines, the signature check with the key when there is
one, the fixed repo check, the cost unless zero, the two fixed enabled lines, the priority
unless 99, and the module hotfixes line when set. -/
def stanza_lines (p : CoprRepoPart) : List Str :=
  ["[".toList ++ p.id ++ "]".toList, "name=".toList ++ p.name, "baseurl=".toList ++ p.baseurl,
    "type=rpm-md".toList, "skip_if_unavailable=True".toList]
  ++ (if p.gpgkey ≠ [] then ["gpgcheck=1".toList, "gpgkey=".toList ++ p.gpgkey]
      else ["gpgcheck=0".toList])
  ++ ["repo_gpgcheck=0".toList]
  ++ (if p.cost ≠ 0 then ["cost=".toList ++ int_to_string p.cost] else [])
  ++ ["enabled=1".toList, "enabled_metadata=1".toList]
  ++ (if p.priority ≠ 99 then ["priority=".toList ++ int_to_string p.priority] else [])
  ++ (if p.module_hotfixes then ["module_hotfixes=1".toList] else [])

/-- A text made of lines, each closed by a newline. -/
def unlines (lines : List Str) : Str :=
  (lines.map (fun l => l ++ "\n".toList)).flatten

/-- The value of the option `key` in the `opts` of a fragment, when `opts` has the key. -/
def opts_value (json : Json) (key : Str) : Option Json :=
  if (json.get_dict_item "opts".toList).has_key key then
    some ((json.get_dict_item "opts".toList).get_dict_item key)
  else none

/-- An option value read as an integer: its text, parsed with `std::stoi`. -/
def opts_int (val : Json) : Except Error Int := do
  let s ← val.string_value
  stoi s

/-- The integer the `opts` of a fragment give for `key`, if they have the key. -/
def opts_int_value (json : Json) (key : Str) : Option Int :=
  match opts_value json key with
  | some val => (opts_int val).toOption
  | none => none

/-- The boolean the `opts` of a fragment give for `key`, if they have the key. -/
def opts_bool_value (json : Json) (key : Str) : Option Bool :=
  match opts_value json key with
  | some val => some val.boolean_value
  | none => none

/-- The text the `opts` of a fragment give for `key`, if they have the key. -/
def opts_string_value (json : Json) (key : Str) : Option Str :=
  match opts_value json key with
  | some val => val.string_value.toOption
  | none => none

/-- The later of two overrides wins: the value of the second fragment if it has one, else
the value of the first if it has one, else the old value. -/
def later_wins {α : Type} (second first : Option α) (old : α) : α :=
  match second with
  | some b => b
  | none =>
    match first with
    | some a => a
    | none => old

/-- A character that gives a `$` before it a meaning in a replacement format string. -/
def format_special (d : Char) : Bool :=
  d = dollar || d = Char.ofNat 38 || d = Char.ofNat 96 || d = Char.ofNat 39 || d.isDigit

/-- A text in which no `$` is followed by `$`, `&`, a backquote, a quote or a digit, such as
`fedora-$releasever-$basearch`. -/
def dollar_literal : Str → Bool
  | [] => true
  | c :: rest =>
    (match rest with
     | [] => true
     | d :: _ => !(c = dollar && format_special d)) && dollar_literal rest

/-- What one round of the "external dependencies" loop has pushed for the dependency `dep`:
the part of a `copr` dependency, the part of an `external_baseurl` dependency, and nothing
for a dependency of another type. -/
def dependency_pushed (indeterminate : Bool) (dep : Json) (results_url baseurl_chroot : Str)
    (pushed : List CoprRepoPart) : Prop :=
  ∃ type, (dep.get_dict_item "type".toList).string_value = Except.ok type ∧
    (type = "copr".toList →
      ∃ part, CoprRepoPart.of_copr_dependency indeterminate dep results_url baseurl_chroot
        = Except.ok part ∧ pushed = [part]) ∧
    (type = "external_baseurl".toList →
      ∃ part, CoprRepoPart.of_external_baseurl indeterminate dep baseurl_chroot
        = Except.ok part ∧ pushed = [part]) ∧
    (type ≠ "copr".toList → type ≠ "external_baseurl".toList → pushed = [])

/-- The lines of a text while it is read: `current` is the line being read. -/
def lines_of_from : Str → Str → List Str
  | [], current => if current = [] then [] else [current]
  | c :: rest, current =>
    if c = Char.ofNat 10 then current :: lines_of_from rest []
    else lines_of_from rest (current ++ [c])

/-- The lines of a text: the runs of characters between its newlines (a last run without
a newline counts when it is not empty). -/
def lines_of (text : Str) : List Str := lines_of_from text []

/-- A line that would spell out a default: `priority=99`, `cost=0` or
`module_hotfixes=0`. -/
def is_default_line (l : Str) : Prop :=
  l = "priority=99".toList ∨ l = "cost=0".toList ∨ l = "module_hotfixes=0".toList

/-- A template with `$releasever` and `$basearch` filled in: every `$releasever` is
replaced by the release version and every `$basearch` by the architecture (texts without a
dollar sign). -/
def instantiate (template releasever basearch : Str) : Str :=
  replace_all "$basearch".toList basearch (replace_all "$releasever".toList releasever template)

/-- How often the text `pat` occurs in a text: the number of positions it starts at. -/
def count_occurrences (pat : Str) : Str → Nat
  | [] => 0
  | c :: cs => (if pat.isPrefixOf (c :: cs) then 1 else 0) + count_occurrences pat cs

/-! ## A sample descriptor -/

/-- A configuration for a Fedora 39 host on x86_64 with no hub sections: the hub hostname
is the hub given. -/
def sample_config : CoprConfig :=
  { name_version := "fedora-39".toList, arch := "x86_64".toList, get_hub_hostname := fun h => h }

/-- A descriptor in the shape of the spec: two chroots, the first with options and two
multilib entries, a results URL and three dependencies. -/
def sample_descriptor : Json :=
  Json.object [
    ("repos".toList, Json.object [
      ("fedora-39".toList, Json.object [
        ("arch".toList, Json.object [
          ("x86_64".toList, Json.object [
            ("opts".toList, Json.object [("cost".toList, Json.integer 50)]),
            ("multilib".toList, Json.object [
              ("i686".toList, Json.object []),
              ("ppc".toList, Json.object [
                ("opts".toList, Json.object [("priority".toList, Json.string "10".toList)])])])])])]),
      ("epel-9".toList, Json.object [
        ("arch".toList, Json.object [("x86_64".toList, Json.object [])])])]),
    ("results_url".toList, Json.string "https://download.copr.example/results".toList),
    ("dependencies".toList, Json.array [
      Json.object [
        ("type".toList, Json.string "copr".toList),
        ("opts".toList, Json.object [("id".toList, Json.string "coprdep:dep".toList)]),
        ("data".toList, Json.object [
          ("owner".toList, Json.string "@copr".toList),
          ("projectname".toList, Json.string "dep".toList)])],
      Json.object [("type".toList, Json.string "unknown".toList)],
      Json.object [
        ("type".toList, Json.string "external_baseurl".toList),
        ("data".toList, Json.object [
          ("pattern".toList, Json.string "https://example/$chroot/".toList)])]])]

/-- The set the constructor builds from the sample descriptor on the sample host when no
chroot is selected explicitly (the empty set if it threw). -/
def sample_repo : CoprRepo :=
  match CoprRepo.network_constructed sample_config sample_descriptor (fun _ => false)
      "copr.fedorainfracloud.org".toList "@copr".toList "copr-dev".toList [] with
  | Except.ok r => r
  | Except.error _ => CoprRepo.default_constructed

/-- A descriptor with two `external_baseurl` dependencies that carry no options. -/
def two_dependencies_descriptor : Json :=
  Json.object [
    ("repos".toList, Json.object [
      ("fedora-39".toList, Json.object [
        ("arch".toList, Json.object [("x86_64".toList, Json.object [])])])]),
    ("results_url".toList, Json.string "https://download.copr.example/results".toList),
    ("dependencies".toList, Json.array [
      Json.object [
        ("type".toList, Json.string "external_baseurl".toList),
        ("data".toList, Json.object [
          ("pattern".toList, Json.string "https://one.example/$chroot/".toList)])],
      Json.object [
        ("type".toList, Json.string "external_baseurl".toList),
        ("data".toList, Json.object [
          ("pattern".toList, Json.string "https://two.example/$chroot/".toList)])]])]

/-- The set the constructor builds from `two_dependencies_descriptor` on the sample host
(the empty set if it threw). -/
def two_dependencies_repo : CoprRepo :=
  match CoprRepo.network_constructed sample_config two_dependencies_descriptor (fun _ => false)
      "copr.fedorainfracloud.org".toList "@copr".toList "copr-dev".toList [] with
  | Except.ok r => r
  | Except.error _ => CoprRepo.default_constructed

/-- A set of two parts that hold an id and the enabled state only. -/
def two_default_parts : CoprRepo :=
  { CoprRepo.default_constructed with
    repositories := [CoprRepoPart.of_dnf_repo { id := "a".toList, enabled := true },
      CoprRepoPart.of_dnf_repo { id := "b".toList, enabled := true }] }

/-- A fragment whose options set the cost, the id and the name. -/
def first_fragment : Json :=
  Json.object [("opts".toList, Json.object [
    ("cost".toList, Json.integer 50),
    ("id".toList, Json.string "first-id".toList),
    ("name".toList, Json.string "first name".toList)])]

/-- A fragment whose options set the cost again, the priority and a key the plugin does
not know. -/
def second_fragment : Json :=
  Json.object [("opts".toList, Json.object [
    ("cost".toList, Json.integer 7),
    ("priority".toList, Json.string "10".toList),
    ("delete_after_days".toList, Json.integer 30)])]

/-- The first dependency of the sample descriptor, of type `copr`. -/
def sample_copr_dependency : Json :=
  (sample_descriptor.get_dict_item "dependencies".toList).get_array_item 0

/-- A part before any override. -/
def override_start : CoprRepoPart :=
  CoprRepoPart.of_fields "id".toList "name".toList true "url".toList "key".toList

/-- The part after the options of `first_fragment` (unchanged if they could not be
read). -/
def override_middle : CoprRepoPart :=
  match override_start.update_from_json_opts first_fragment with
  | Except.ok q => q
  | Except.error _ => override_start

/-- The part after the options of `first_fragment` and then of `second_fragment`. -/
def override_final : CoprRepoPart :=
  match override_middle.update_from_json_opts second_fragment with
  | Except.ok q => q
  | Except.error _ => override_middle

/-- The third dependency of the sample descriptor, of type `external_baseurl`. -/
def sample_external_dependency : Json :=
  (sample_descriptor.get_dict_item "dependencies".toList).get_array_item 2

/-- A fragment whose options give a name of two lines. -/
def two_line_name_fragment : Json :=
  Json.object [("opts".toList, Json.object [
    ("name".toList, Json.string "Copr repo\npriority=99".toList)])]

/-- The part `override_start` after the options of `two_line_name_fragment`. -/
def two_line_name_part : CoprRepoPart :=
  match override_start.update_from_json_opts two_line_name_fragment with
  | Except.ok q => q
  | Except.error _ => override_start

/-- A descriptor whose chroot detail gives a name in its options and has one multilib
entry. -/
def named_descriptor : Json :=
  Json.object [
    ("repos".toList, Json.object [
      ("fedora-39".toList, Json.object [
        ("arch".toList, Json.object [
          ("x86_64".toList, Json.object [
            ("opts".toList, Json.object [("name".toList, Json.string "Nightly builds".toList)]),
            ("multilib".toList, Json.object [("i686".toList, Json.object [])])])])])]),
    ("results_url".toList, Json.string "https://download.copr.example/results".toList),
    ("dependencies".toList, Json.array [])]

/-- The set the constructor builds from `named_descriptor` on the sample host (the empty
set if it threw). -/
def named_repo : CoprRepo :=
  match CoprRepo.network_constructed sample_config named_descriptor (fun _ => false)
      "copr.fedorainfracloud.org".toList "@copr".toList "copr-dev".toList [] with
  | Except.ok r => r
  | Except.error _ => CoprRepo.default_constructed

/-- The set the constructor builds from the sample descriptor for a project directory of
two lines (the empty set if it threw). -/
def two_line_dirname_repo : CoprRepo :=
  match CoprRepo.network_constructed sample_config sample_descriptor (fun _ => false)
      "copr.fedorainfracloud.org".toList "@copr".toList "copr-dev:pr\n1".toList [] with
  | Except.ok r => r
  | Except.error _ => CoprRepo.default_constructed

/-- The set the constructor builds from the sample descriptor for the project directory
`copr-dev:pr:7` (the empty set if it threw). -/
def colon_dirname_repo : CoprRepo :=
  match CoprRepo.network_constructed sample_config sample_descriptor (fun _ => false)
      "copr.fedorainfracloud.org".toList "@copr".toList "copr-dev:pr:7".toList [] with
  | Except.ok r => r
  | Except.error _ => CoprRepo.default_constructed

/-- A descriptor whose only chroot detail gives a cost that is no number. -/
def unreadable_cost_descriptor : Json :=
  Json.object [
    ("repos".toList, Json.object [
      ("custom".toList, Json.object [
        ("arch".toList, Json.object [
          ("x86_64".toList, Json.object [
            ("opts".toList, Json.object [("cost".toList, Json.string "abc".toList)])])])])]),
    ("results_url".toList, Json.string "https://download.copr.example/results".toList),
    ("dependencies".toList, Json.array [])]

/-- A `copr` dependency whose options give all five members: the cost as a JSON number,
the priority as a JSON string. -/
def priced_copr_dependency : Json :=
  Json.object [
    ("type".toList, Json.string "copr".toList),
    ("opts".toList, Json.object [
      ("cost".toList, Json.integer 70),
      ("priority".toList, Json.string "5".toList),
      ("module_hotfixes".toList, Json.boolean true),
      ("id".toList, Json.string "coprdep:priced".toList),
      ("name".toList, Json.string "Priced dependency".toList)]),
    ("data".toList, Json.object [
      ("owner".toList, Json.string "@copr".toList),
      ("projectname".toList, Json.string "dep".toList)])]

/-! ## Lemmas: prefixes and suffixes -/

theorem prefix_of_prefix_append_cons {pat : Str} (c : Char) (hc : c ∉ pat) :
    ∀ (p x : Str), pat <+: p ++ c :: x → pat <+: p := by
  induction pat with
  | nil => intro p x _; exact List.nil_prefix
  | cons a as ih =>
    intro p x h
    cases p with
    | nil =>
      simp only [List.nil_append, List.cons_prefix_cons] at h
      exact absurd h.1 (by intro e; exact hc (by simp [e]))
    | cons b bs =>
      simp only [List.cons_append, List.cons_prefix_cons] at h ⊢
      exact ⟨h.1, ih (fun hm => hc (List.mem_cons_of_mem _ hm)) bs x h.2⟩

theorem suffix_of_suffix_append_cons {pat : Str} (c : Char) (hc : c ∉ pat) :
    ∀ (a r : Str), pat <:+ a ++ c :: r → pat <:+ r := by
  intro a r
  induction a with
  | nil =>
    intro h
    rcases List.suffix_cons_iff.mp h with h | h
    · exact absurd (by simp [h]) hc
    · exact h
  | cons x xs ih =>
    intro h
    rcases List.suffix_cons_iff.mp h with h | h
    · exact absurd (by simp [h]) hc
    · exact ih h

theorem suffix_cons_of_suffix_append_cons {t : Str} (c : Char) (hc : c ∉ t) :
    ∀ (a r : Str), c :: t <:+ a ++ c :: r → c :: t <:+ r ∨ r = t := by
  intro a r
  induction a with
  | nil =>
    intro h
    rcases List.suffix_cons_iff.mp h with h | h
    · right; simpa using h.symm
    · left; exact h
  | cons x xs ih =>
    intro h
    rcases List.suffix_cons_iff.mp h with h | h
    · have : t = xs ++ c :: r := by simpa using (List.cons.inj h).2
      exact absurd (by simp [this]) hc
    · exact ih h

/-! ## Lemmas: format strings -/

theorem format_expand_of_not_mem (m pre suf : Str) :
    ∀ fmt : Str, dollar ∉ fmt → format_expand m pre suf fmt = fmt := by
  intro fmt
  induction fmt with
  | nil => intro _; rfl
  | cons c rest ih =>
    intro h
    have hc : c ≠ dollar := fun e => h (by simp [e])
    have hr : dollar ∉ rest := fun hm => h (List.mem_cons_of_mem _ hm)
    have := ih hr
    unfold format_expand at this ⊢
    rw [format_scan, if_neg hc, this]

theorem format_expand_nil (m pre suf : Str) : format_expand m pre suf [] = [] := rfl

/-! ## Lemmas: the replace loop with a plain-text expression -/

theorem regex_replace_loop_nil (re : Matcher) (fmt : Str) (bol : Bool) (k : Nat) (pre : Str) :
    regex_replace_loop re fmt [] bol k pre = [] := by
  cases k <;> rfl

theorem regex_replace_loop_skip (re : Matcher) (fmt : Str) :
    ∀ (u t : Str) (bol : Bool) (pre : Str), u ≠ [] →
      regex_replace_loop re fmt (u ++ t) bol u.length pre
        = regex_replace_loop re fmt t false 0 pre := by
  intro u
  induction u with
  | nil => intro t bol pre h; exact absurd rfl h
  | cons x xs ih =>
    intro t bol pre _
    cases xs with
    | nil =>
      cases t with
      | nil => simp [regex_replace_loop]
      | cons y ys => simp [regex_replace_loop]
    | cons z zs =>
      have := ih t false pre (by simp)
      simpa [regex_replace_loop] using this

/-- With a plain-text expression and a format without `$`, the loop does not depend on the
beginning-of-input flag nor on the text before the match. -/
theorem regex_replace_loop_literal_indep (pat fmt : Str) (hf : dollar ∉ fmt) :
    ∀ (s : Str) (k : Nat) (b b2 : Bool) (pre pre2 : Str),
      regex_replace_loop (re_literal pat) fmt s b k pre
        = regex_replace_loop (re_literal pat) fmt s b2 k pre2 := by
  intro s
  induction s with
  | nil => intro k b b2 pre pre2; simp [regex_replace_loop_nil]
  | cons c cs ih =>
    intro k b b2 pre pre2
    cases k with
    | succ k => simp only [regex_replace_loop]; exact ih k false false pre pre2
    | zero =>
      simp only [regex_replace_loop, re_literal]
      split
      · simp only [format_expand_of_not_mem _ _ _ fmt hf]
      · rw [ih 0 false false (pre ++ [c]) (pre2 ++ [c])]

theorem replace_all_nil (pat rep : Str) : replace_all pat rep [] = [] := rfl

theorem regex_replace_loop_literal_match (pat fmt : Str) (c : Char) (cs : Str) (b : Bool)
    (pre : Str) (h : pat <+: c :: cs) :
    regex_replace_loop (re_literal pat) fmt (c :: cs) b 0 pre
      = format_expand ((c :: cs).take pat.length) pre ((c :: cs).drop pat.length) fmt
        ++ regex_replace_loop (re_literal pat) fmt cs false (pat.length - 1) [] := by
  have hpre : pat.isPrefixOf (c :: cs) = true := List.isPrefixOf_iff_prefix.mpr h
  simp only [regex_replace_loop, re_literal, hpre, if_true]

theorem regex_replace_loop_literal_no_match (pat fmt : Str) (c : Char) (cs : Str) (b : Bool)
    (pre : Str) (h : ¬ pat <+: c :: cs) :
    regex_replace_loop (re_literal pat) fmt (c :: cs) b 0 pre
      = c :: regex_replace_loop (re_literal pat) fmt cs false 0 (pre ++ [c]) := by
  have hpre : pat.isPrefixOf (c :: cs) = false := by
    rw [← Bool.not_eq_true, List.isPrefixOf_iff_prefix]; exact h
  simp only [regex_replace_loop, re_literal, hpre, Bool.false_eq_true, if_false]

theorem replace_all_match (pat rep : Str) (hp : pat ≠ []) (hf : dollar ∉ rep) (t : Str) :
    replace_all pat rep (pat ++ t) = rep ++ replace_all pat rep t := by
  cases pat with
  | nil => exact absurd rfl hp
  | cons a as =>
    show regex_replace_loop (re_literal (a :: as)) rep (a :: (as ++ t)) true 0 [] = _
    rw [regex_replace_loop_literal_match _ _ _ _ _ _ ⟨t, rfl⟩,
      format_expand_of_not_mem _ _ _ rep hf]
    congr 1
    cases as with
    | nil => exact regex_replace_loop_literal_indep _ _ hf _ _ _ _ _ _
    | cons z zs =>
      have := regex_replace_loop_skip (re_literal (a :: z :: zs)) rep (z :: zs) t false []
        (by simp)
      simp only [List.length_cons, Nat.add_sub_cancel] at this ⊢
      rw [this]
      exact regex_replace_loop_literal_indep _ _ hf _ _ _ _ _ _

theorem replace_all_no_match (pat rep : Str) (hf : dollar ∉ rep) (x : Char) (s : Str)
    (h : ¬ pat <+: x :: s) :
    replace_all pat rep (x :: s) = x :: replace_all pat rep s := by
  show regex_replace_loop (re_literal pat) rep (x :: s) true 0 [] = _
  rw [regex_replace_loop_literal_no_match _ _ _ _ _ _ h]
  congr 1
  exact regex_replace_loop_literal_indep _ _ hf _ _ _ _ _ _

/-- Induction along the way `replace_all` reads its input. -/
theorem replace_all_induction (pat : Str) (hp : pat ≠ []) (P : Str → Prop)
    (hnil : P [])
    (hmatch : ∀ t, P t → P (pat ++ t))
    (hstep : ∀ x s, ¬ pat <+: x :: s → P s → P (x :: s)) : ∀ s, P s := by
  intro s
  generalize hn : s.length = n
  induction n using Nat.strong_induction_on generalizing s with
  | _ n ih =>
    cases s with
    | nil => exact hnil
    | cons x xs =>
      by_cases h : pat <+: x :: xs
      · obtain ⟨t, ht⟩ := h
        rw [← ht]
        apply hmatch
        apply ih t.length _ t rfl
        have hl : (pat ++ t).length = (x :: xs).length := by rw [ht]
        have hpl : 0 < pat.length := List.length_pos.mpr hp
        rw [List.length_append] at hl
        omega
      · apply hstep x xs h
        apply ih xs.length _ xs rfl
        subst hn
        simp


/-! ## Lemmas: anchored expressions, first-only replacement, single characters -/

theorem regex_replace_loop_skip_all (re : Matcher) (fmt : Str) :
    ∀ (s : Str) (bol : Bool) (k : Nat) (pre : Str), s.length ≤ k →
      regex_replace_loop re fmt s bol k pre = [] := by
  intro s
  induction s with
  | nil => intro bol k pre _; exact regex_replace_loop_nil _ _ _ _ _
  | cons c cs ih =>
    intro bol k pre h
    cases k with
    | zero => simp at h
    | succ k =>
      simp only [regex_replace_loop]
      exact ih false k pre (by simpa using h)

theorem regex_replace_loop_bol_false (pat fmt : Str) :
    ∀ (s pre : Str), regex_replace_loop (re_bol_literal pat) fmt s false 0 pre = s := by
  intro s
  induction s with
  | nil => intro pre; rfl
  | cons c cs ih =>
    intro pre
    simp only [regex_replace_loop, re_bol_literal, Bool.false_and, Bool.false_eq_true, if_false]
    rw [ih]

/-- The expression `^pat` with an empty format removes the leading `pat`. -/
theorem regex_replace_bol_leading (pat t : Str) (hp : pat ≠ []) :
    regex_replace (pat ++ t) (re_bol_literal pat) [] = t := by
  cases pat with
  | nil => exact absurd rfl hp
  | cons a as =>
    have hpre : (a :: as).isPrefixOf (a :: (as ++ t)) = true :=
      List.isPrefixOf_iff_prefix.mpr ⟨t, rfl⟩
    show regex_replace_loop (re_bol_literal (a :: as)) [] (a :: (as ++ t)) true 0 [] = t
    simp only [regex_replace_loop, re_bol_literal, hpre, Bool.true_and, if_true, format_expand_nil,
      List.nil_append, List.length_cons, Nat.add_sub_cancel]
    cases as with
    | nil => exact regex_replace_loop_bol_false _ _ _ _
    | cons z zs =>
      rw [regex_replace_loop_skip (re_bol_literal (a :: z :: zs)) [] (z :: zs) t false []
        (by simp)]
      exact regex_replace_loop_bol_false _ _ _ _

theorem remove_suffix_append (pat s : Str) : remove_suffix pat (s ++ pat) = s := by
  have h : pat <:+ s ++ pat := List.suffix_append s pat
  simp [remove_suffix, h]

theorem remove_suffix_of_not_suffix (pat s : Str) (h : ¬ pat <:+ s) : remove_suffix pat s = s := by
  simp [remove_suffix, h]

theorem remove_suffix_cons (pat : Str) (c : Char) (cs : Str) (h : c :: cs ≠ pat) :
    remove_suffix pat (c :: cs) = c :: remove_suffix pat cs := by
  by_cases hs : pat <:+ cs
  · obtain ⟨u, hu⟩ := hs
    have h2 : pat <:+ c :: cs := ⟨c :: u, by simp [← hu]⟩
    rw [remove_suffix, if_pos h2, remove_suffix, if_pos ⟨u, hu⟩, ← hu]
    have e1 : (c :: (u ++ pat)).length - pat.length = (c :: u).length := by
      simp only [List.length_cons, List.length_append]; omega
    have e2 : (u ++ pat).length - pat.length = u.length := by
      simp only [List.length_append]; omega
    rw [e1, e2, ← List.cons_append, List.take_left, List.take_left]
  · have h2 : ¬ pat <:+ c :: cs := by
      intro h3
      rcases List.suffix_cons_iff.mp h3 with h4 | h4
      · exact h h4.symm
      · exact hs h4
    rw [remove_suffix, if_neg h2, remove_suffix, if_neg hs]

/-- The expression `pat$` with an empty format removes one trailing `pat`. -/
theorem regex_replace_loop_eol (pat : Str) (hp : pat ≠ []) :
    ∀ (s : Str) (b : Bool) (pre : Str),
      regex_replace_loop (re_literal_eol pat) [] s b 0 pre = remove_suffix pat s := by
  intro s
  induction s with
  | nil =>
    intro b pre
    have : ¬ pat <:+ [] := by simpa using hp
    rw [remove_suffix_of_not_suffix _ _ this]; rfl
  | cons c cs ih =>
    intro b pre
    by_cases h : c :: cs = pat
    · simp only [regex_replace_loop, re_literal_eol, h, if_true, format_expand_nil, List.nil_append]
      have h1 : regex_replace_loop (re_literal_eol pat) [] cs false (pat.length - 1) [] = [] :=
        regex_replace_loop_skip_all _ _ _ _ _ _ (by rw [← h]; simp)
      rw [h1]
      have := remove_suffix_append pat []
      simpa using this.symm
    · simp only [regex_replace_loop, re_literal_eol, h, if_false]
      rw [ih, remove_suffix_cons _ _ _ h]

theorem regex_replace_eol (pat s : Str) (hp : pat ≠ []) :
    regex_replace s (re_literal_eol pat) [] = remove_suffix pat s :=
  regex_replace_loop_eol pat hp s true []

theorem regex_replace_first_loop_cons (re : Matcher) (fmt : Str) (c : Char) (cs : Str)
    (b : Bool) (pre : Str) :
    regex_replace_first_loop re fmt (c :: cs) b pre =
      match re b (c :: cs) with
      | some n =>
        format_expand ((c :: cs).take n) pre ((c :: cs).drop n) fmt ++ (c :: cs).drop n
      | none => c :: regex_replace_first_loop re fmt cs false (pre ++ [c]) := by
  rw [regex_replace_first_loop]

/-- Replacing the first `c` by `rep` in a text whose first `c` is shown. -/
theorem regex_replace_first_loop_char (c : Char) (rep : Str) (hf : dollar ∉ rep) :
    ∀ (h t : Str) (b : Bool) (pre : Str), c ∉ h →
      regex_replace_first_loop (re_literal [c]) rep (h ++ c :: t) b pre = h ++ rep ++ t := by
  intro h
  induction h with
  | nil =>
    intro t b pre _
    have hpre : [c].isPrefixOf (c :: t) = true := List.isPrefixOf_iff_prefix.mpr ⟨t, rfl⟩
    rw [List.nil_append, regex_replace_first_loop_cons]
    simp only [re_literal, hpre, if_true, format_expand_of_not_mem _ _ _ rep hf]
    simp
  | cons x xs ih =>
    intro t b pre hc
    have hx : x ≠ c := fun e => hc (by simp [e])
    have hxs : c ∉ xs := fun hm => hc (List.mem_cons_of_mem _ hm)
    have hpre : [c].isPrefixOf (x :: (xs ++ c :: t)) = false := by
      rw [← Bool.not_eq_true, List.isPrefixOf_iff_prefix]
      intro hh
      simp only [List.cons_prefix_cons] at hh
      exact hx hh.1.symm
    rw [List.cons_append, regex_replace_first_loop_cons]
    simp only [re_literal, hpre, Bool.false_eq_true, if_false]
    rw [ih t false _ hxs]
    simp

theorem regex_replace_first_char (c : Char) (rep : Str) (hf : dollar ∉ rep) (h t : Str)
    (hc : c ∉ h) :
    regex_replace_first (h ++ c :: t) (re_literal [c]) rep = h ++ rep ++ t :=
  regex_replace_first_loop_char c rep hf h t true [] hc

/-- Replacing every `c` by `rep` is a character-wise substitution. -/
theorem replace_all_char (c : Char) (rep : Str) (hf : dollar ∉ rep) (s : Str) :
    replace_all [c] rep s = s.flatMap (fun x => if x = c then rep else [x]) := by
  induction s with
  | nil => rfl
  | cons x xs ih =>
    by_cases hx : x = c
    · subst hx
      have := replace_all_match [x] rep (by simp) hf xs
      simp only [List.singleton_append] at this
      rw [this, ih]
      simp
    · have hn : ¬ [c] <+: x :: xs := by
        intro hh
        simp only [List.cons_prefix_cons] at hh
        exact hx hh.1.symm
      rw [replace_all_no_match _ _ hf _ _ hn, ih]
      simp [hx]

/-! ## Lemmas: replacing every occurrence of a plain text -/

theorem not_prefix_cons_of_not_mem {pat : Str} (hp : pat ≠ []) (c : Char) (hc : c ∉ pat)
    (b : Str) : ¬ pat <+: c :: b := by
  cases pat with
  | nil => exact absurd rfl hp
  | cons a as =>
    intro h
    simp only [List.cons_prefix_cons] at h
    exact hc (by simp [h.1])

/-- A character that is not in the searched text separates the input into two parts that are
replaced independently. -/
theorem replace_all_split (pat rep : Str) (hp : pat ≠ []) (hf : dollar ∉ rep) (c : Char)
    (hc : c ∉ pat) (b : Str) :
    ∀ a, replace_all pat rep (a ++ c :: b)
      = replace_all pat rep a ++ c :: replace_all pat rep b := by
  apply replace_all_induction pat hp
  · rw [List.nil_append, replace_all_nil, List.nil_append]
    exact replace_all_no_match _ _ hf _ _ (not_prefix_cons_of_not_mem hp c hc b)
  · intro t ih
    rw [List.append_assoc, replace_all_match _ _ hp hf, ih, replace_all_match _ _ hp hf,
      List.append_assoc]
  · intro x s hn ih
    have hn2 : ¬ pat <+: x :: (s ++ c :: b) := fun h =>
      hn (prefix_of_prefix_append_cons c hc (x :: s) b h)
    rw [List.cons_append, replace_all_no_match _ _ hf _ _ hn2, ih,
      replace_all_no_match _ _ hf _ _ hn, List.cons_append]

theorem replace_all_not_mem (pat rep : Str) (hp : pat ≠ []) (hf : dollar ∉ rep) (c : Char)
    (hc : c ∉ rep) : ∀ s, c ∉ s → c ∉ replace_all pat rep s := by
  apply replace_all_induction pat hp
  · intro _; rw [replace_all_nil]; simp
  · intro t ih h
    rw [replace_all_match _ _ hp hf]
    simp only [List.mem_append, not_or] at h ⊢
    exact ⟨hc, ih h.2⟩
  · intro x s hn ih h
    rw [replace_all_no_match _ _ hf _ _ hn]
    simp only [List.mem_cons, not_or] at h ⊢
    exact ⟨h.1, ih h.2⟩

/-- A text without the first character of the searched text is left as it is. -/
theorem replace_all_of_head_not_mem (a : Char) (as rep : Str) (hf : dollar ∉ rep) :
    ∀ s, a ∉ s → replace_all (a :: as) rep s = s := by
  intro s
  induction s with
  | nil => intro _; rfl
  | cons x xs ih =>
    intro h
    simp only [List.mem_cons, not_or] at h
    have hn : ¬ (a :: as) <+: x :: xs := by
      intro hh
      simp only [List.cons_prefix_cons] at hh
      exact h.1 hh.1
    rw [replace_all_no_match _ _ hf _ _ hn, ih h.2]

theorem replace_all_append_of_head_not_mem (a : Char) (as rep : Str) (hf : dollar ∉ rep)
    (t : Str) : ∀ s, a ∉ s → replace_all (a :: as) rep (s ++ t) = s ++ replace_all (a :: as) rep t := by
  intro s
  induction s with
  | nil => intro _; rfl
  | cons x xs ih =>
    intro h
    simp only [List.mem_cons, not_or] at h
    have hn : ¬ (a :: as) <+: x :: (xs ++ t) := by
      intro hh
      simp only [List.cons_prefix_cons] at hh
      exact h.1 hh.1
    rw [List.cons_append, replace_all_no_match _ _ hf _ _ hn, ih h.2, List.cons_append]

/-! ## Lemmas: the identifier codec -/

theorem dollar_not_mem_slash : dollar ∉ "/".toList := by decide
theorem dollar_not_mem_colon : dollar ∉ ":".toList := by decide
theorem dollar_not_mem_at : dollar ∉ "/@".toList := by decide
theorem dollar_not_mem_group : dollar ∉ "group_".toList := by decide

/-- The steps of `copr_id_from_repo_id` on an id that starts with `copr:`. -/
theorem copr_id_from_repo_id_copr (t : Str) :
    copr_id_from_repo_id ("copr:".toList ++ t)
      = remove_suffix ":ml".toList
          (regex_replace_first
            (replace_all "/group_".toList "/@".toList
              (regex_replace_first t (re_literal ":".toList) "/".toList))
            (re_literal ":".toList) "/".toList) := by
  have hs : starts_with ("copr:".toList ++ t) "copr:".toList = true :=
    List.isPrefixOf_iff_prefix.mpr ⟨t, rfl⟩
  simp only [copr_id_from_repo_id, hs, Bool.not_true, Bool.false_eq_true, if_false]
  rw [regex_replace_bol_leading _ _ (by decide), regex_replace_eol _ _ (by decide)]
  rfl

/-- The id of `copr:<hub>:<owner>:<rest>`, hub and owner without a colon. -/
theorem copr_id_from_repo_id_parts (h o r : Str) (hh : ':' ∉ h) (ho : ':' ∉ o) :
    copr_id_from_repo_id ("copr:".toList ++ h ++ ":".toList ++ o ++ ":".toList ++ r)
      = remove_suffix ":ml".toList
          (replace_all "/group_".toList "/@".toList (h ++ '/' :: o) ++
            '/' :: replace_all "/group_".toList "/@".toList r) := by
  have e : "copr:".toList ++ h ++ ":".toList ++ o ++ ":".toList ++ r
      = "copr:".toList ++ (h ++ ':' :: (o ++ ':' :: r)) := by simp
  rw [e, copr_id_from_repo_id_copr]
  have e1 := regex_replace_first_char ':' "/".toList dollar_not_mem_slash h (o ++ ':' :: r) hh
  have e1b : regex_replace_first (h ++ ':' :: (o ++ ':' :: r)) (re_literal ":".toList) "/".toList
      = (h ++ '/' :: o) ++ ':' :: r := by
    rw [show ":".toList = [':'] from rfl, e1]; simp
  rw [e1b, replace_all_split _ _ (by decide) dollar_not_mem_at ':' (by decide)]
  have hm : ':' ∉ replace_all "/group_".toList "/@".toList (h ++ '/' :: o) := by
    apply replace_all_not_mem _ _ (by decide) dollar_not_mem_at ':' (by decide)
    simp only [List.mem_append, List.mem_cons, not_or]
    exact ⟨hh, by decide, ho⟩
  have e2 := regex_replace_first_char ':' "/".toList dollar_not_mem_slash _
    (replace_all "/group_".toList "/@".toList r) hm
  rw [show ":".toList = [':'] from rfl] at *
  rw [e2]
  simp

/-- The id of `copr:<hub>:<owner>:<rest>` when no part has a slash and the owner is not in
the `group_` form. -/
theorem copr_id_from_repo_id_user (h o p : Str) (hh1 : ':' ∉ h) (hh2 : '/' ∉ h)
    (ho1 : ':' ∉ o) (ho2 : '/' ∉ o) (hog : ¬ "group_".toList <+: o) (hp : '/' ∉ p) :
    copr_id_from_repo_id ("copr:".toList ++ h ++ ":".toList ++ o ++ ":".toList ++ p)
      = remove_suffix ":ml".toList (h ++ '/' :: o ++ '/' :: p) := by
  rw [copr_id_from_repo_id_parts h o p hh1 ho1]
  have e1 : replace_all "/group_".toList "/@".toList (h ++ '/' :: o) = h ++ '/' :: o := by
    rw [show "/group_".toList = '/' :: "group_".toList from rfl,
      replace_all_append_of_head_not_mem _ _ _ dollar_not_mem_at _ _ hh2]
    have hn : ¬ ('/' :: "group_".toList) <+: '/' :: o := by
      intro hc
      simp only [List.cons_prefix_cons, true_and] at hc
      exact hog hc
    rw [replace_all_no_match _ _ dollar_not_mem_at _ _ hn,
      replace_all_of_head_not_mem _ _ _ dollar_not_mem_at _ ho2]
  have e2 : replace_all "/group_".toList "/@".toList p = p := by
    rw [show "/group_".toList = '/' :: "group_".toList from rfl,
      replace_all_of_head_not_mem _ _ _ dollar_not_mem_at _ hp]
  rw [e1, e2]

/-- The id of `copr:<hub>:group_<g>:<rest>` when no part has a slash. -/
theorem copr_id_from_repo_id_group (h g p : Str) (hh1 : ':' ∉ h) (hh2 : '/' ∉ h)
    (hg1 : ':' ∉ g) (hg2 : '/' ∉ g) (hp : '/' ∉ p) :
    copr_id_from_repo_id
        ("copr:".toList ++ h ++ ":".toList ++ ("group_".toList ++ g) ++ ":".toList ++ p)
      = remove_suffix ":ml".toList (h ++ '/' :: '@' :: g ++ '/' :: p) := by
  have ho : ':' ∉ "group_".toList ++ g := by
    simp only [List.mem_append, not_or]; exact ⟨by decide, hg1⟩
  rw [copr_id_from_repo_id_parts h _ p hh1 ho]
  have e1 : replace_all "/group_".toList "/@".toList (h ++ '/' :: ("group_".toList ++ g))
      = h ++ '/' :: '@' :: g := by
    rw [show "/group_".toList = '/' :: "group_".toList from rfl,
      replace_all_append_of_head_not_mem _ _ _ dollar_not_mem_at _ _ hh2]
    have := replace_all_match ('/' :: "group_".toList) "/@".toList (by simp) dollar_not_mem_at g
    rw [show '/' :: ("group_".toList ++ g) = '/' :: "group_".toList ++ g from rfl, this,
      replace_all_of_head_not_mem _ _ _ dollar_not_mem_at _ hg2]
    rfl
  have e2 : replace_all "/group_".toList "/@".toList p = p := by
    rw [show "/group_".toList = '/' :: "group_".toList from rfl,
      replace_all_of_head_not_mem _ _ _ dollar_not_mem_at _ hp]
  rw [e1, e2]

/-- A text closed by a slash and a part that does not end with `:ml` does not end with
`:ml`. -/
theorem remove_suffix_ml_after_slash (a p : Str) (hp : ¬ ":ml".toList <:+ p) :
    remove_suffix ":ml".toList (a ++ '/' :: p) = a ++ '/' :: p := by
  apply remove_suffix_of_not_suffix
  intro h
  exact hp (suffix_of_suffix_append_cons '/' (by decide) a p h)

/-! ## Lemmas: the constructor of a repository set -/

theorem except_bind_eq_ok {α β : Type} (x : Except Error α) (f : α → Except Error β) (b : β) :
    (x >>= f) = Except.ok b ↔ ∃ a, x = Except.ok a ∧ f a = Except.ok b := by
  cases x with
  | error e => simp [bind, Except.bind]
  | ok a => simp [bind, Except.bind]

/-- An option leaves the base URL, the enabled flag and the key URL alone, and the id
too unless the option is `id`. -/
theorem update_from_json_opt_keeps (p q : CoprRepoPart) (key : Str) (val : Json)
    (h : p.update_from_json_opt key val = Except.ok q) :
    q.baseurl = p.baseurl ∧ q.enabled = p.enabled ∧ q.gpgkey = p.gpgkey ∧
      (key ≠ "id".toList → q.id = p.id) := by
  unfold CoprRepoPart.update_from_json_opt at h
  split at h
  · next hk =>
    obtain ⟨s, _, h⟩ := (except_bind_eq_ok _ _ _).mp h
    obtain ⟨n, _, h⟩ := (except_bind_eq_ok _ _ _).mp h
    cases h
    exact ⟨rfl, rfl, rfl, fun _ => rfl⟩
  · split at h
    · obtain ⟨s, _, h⟩ := (except_bind_eq_ok _ _ _).mp h
      obtain ⟨n, _, h⟩ := (except_bind_eq_ok _ _ _).mp h
      cases h
      exact ⟨rfl, rfl, rfl, fun _ => rfl⟩
    · split at h
      · cases h
        exact ⟨rfl, rfl, rfl, fun _ => rfl⟩
      · split at h
        · next hk =>
          obtain ⟨s, _, h⟩ := (except_bind_eq_ok _ _ _).mp h
          cases h
          exact ⟨rfl, rfl, rfl, fun hne => absurd hk hne⟩
        · split at h
          · obtain ⟨s, _, h⟩ := (except_bind_eq_ok _ _ _).mp h
            cases h
            exact ⟨rfl, rfl, rfl, fun _ => rfl⟩
          · cases h
            exact ⟨rfl, rfl, rfl, fun _ => rfl⟩

theorem update_from_json_opts_loop_keeps (opts : Json) :
    ∀ (keys : List Str) (p q : CoprRepoPart),
      CoprRepoPart.update_from_json_opts_loop opts keys p = Except.ok q →
      q.baseurl = p.baseurl ∧ q.enabled = p.enabled ∧ q.gpgkey = p.gpgkey ∧
        ("id".toList ∉ keys → q.id = p.id) := by
  intro keys
  induction keys with
  | nil =>
    intro p q h
    cases h
    exact ⟨rfl, rfl, rfl, fun _ => rfl⟩
  | cons key rest ih =>
    intro p q h
    unfold CoprRepoPart.update_from_json_opts_loop at h
    obtain ⟨p1, h1, h2⟩ := (except_bind_eq_ok _ _ _).mp h
    have k1 := update_from_json_opt_keeps p p1 key _ h1
    have k2 := ih p1 q h2
    refine ⟨k2.1.trans k1.1, k2.2.1.trans k1.2.1, k2.2.2.1.trans k1.2.2.1, ?_⟩
    intro hn
    simp only [List.mem_cons, not_or] at hn
    exact (k2.2.2.2 hn.2).trans (k1.2.2.2 (fun e => hn.1 e.symm))

theorem mem_keys_iff_has_key (j : Json) (keys : List Str) (key : Str)
    (h : j.keys = Except.ok keys) : key ∈ keys ↔ j.has_key key = true := by
  cases j with
  | object members =>
    simp only [Json.keys, pure, Except.pure] at h
    cases h
    simp only [Json.has_key]
    induction members with
    | nil => simp [List.lookup]
    | cons m ms ih =>
      obtain ⟨k, v⟩ := m
      by_cases hk : key = k
      · subst hk
        simp [List.lookup]
      · have hb : (key == k) = false := by simpa using hk
        simp only [List.map_cons, List.mem_cons, hk, false_or, List.lookup, hb]
        exact ih
  | null => cases h
  | boolean b => cases h
  | integer i => cases h
  | string s => cases h
  | array items => cases h

/-- `update_from_json_opts` leaves the base URL, the enabled flag and the key URL alone,
and the id too unless `opts` has the key `id`. -/
theorem update_from_json_opts_keeps (p q : CoprRepoPart) (json : Json)
    (h : p.update_from_json_opts json = Except.ok q) :
    q.baseurl = p.baseurl ∧ q.enabled = p.enabled ∧ q.gpgkey = p.gpgkey ∧
      ((json.get_dict_item "opts".toList).has_key "id".toList = false → q.id = p.id) := by
  unfold CoprRepoPart.update_from_json_opts at h
  split at h
  · cases h
    exact ⟨rfl, rfl, rfl, fun _ => rfl⟩
  · obtain ⟨keys, hk, h2⟩ := (except_bind_eq_ok _ _ _).mp h
    have k := update_from_json_opts_loop_keeps _ keys p q h2
    refine ⟨k.1, k.2.1, k.2.2.1, fun hid => k.2.2.2 ?_⟩
    rw [mem_keys_iff_has_key _ keys _ hk, hid]
    simp

/-- What a successful run of the constructor's expansion has done. -/
theorem expand_eq_ok (cfg : CoprConfig) (json : Json) (indet : Nat → Bool)
    (hub owner dir sel chroot selector arch : Str) (r : CoprRepo) :
    CoprRepo.expand cfg json indet hub owner dir sel chroot selector arch = Except.ok r ↔
    ∃ u main mls deps,
      (json.get_dict_item "results_url".toList).string_value = Except.ok u ∧
      (CoprRepoPart.of_fields (CoprRepo.main_repo_id cfg hub owner dir)
          ("Copr repo for ".toList ++ dir ++ " owned by ".toList ++ owner) true
          (u ++ "/".toList ++ owner ++ "/".toList ++ dir ++ "/".toList ++ chroot ++ "/".toList)
          (u ++ "/".toList ++ owner ++ "/".toList ++ regex_replace dir re_colon_rest []
            ++ "/".toList ++ "pubkey.gpg".toList)).update_from_json_opts
        (CoprRepo.main_repo_json json selector arch) = Except.ok main ∧
      CoprRepo.multilib_repos (CoprRepo.main_repo_json json selector arch)
        (CoprRepo.main_repo_id cfg hub owner dir)
        ("Copr repo for ".toList ++ dir ++ " owned by ".toList ++ owner) u owner dir chroot
        (u ++ "/".toList ++ owner ++ "/".toList ++ regex_replace dir re_colon_rest []
            ++ "/".toList ++ "pubkey.gpg".toList) sel = Except.ok mls ∧
      CoprRepo.dependency_repos json indet u chroot = Except.ok deps ∧
      r = { CoprRepo.default_constructed.set_id_from_repo_id
              (CoprRepo.main_repo_id cfg hub owner dir) with
            repositories := [main] ++ mls ++ deps } := by
  unfold CoprRepo.expand
  constructor
  · intro h
    obtain ⟨u, hu, h⟩ := (except_bind_eq_ok _ _ _).mp h
    obtain ⟨main, hm, h⟩ := (except_bind_eq_ok _ _ _).mp h
    obtain ⟨mls, hml, h⟩ := (except_bind_eq_ok _ _ _).mp h
    obtain ⟨deps, hd, h⟩ := (except_bind_eq_ok _ _ _).mp h
    cases h
    exact ⟨u, main, mls, deps, hu, hm, hml, hd, rfl⟩
  · rintro ⟨u, main, mls, deps, hu, hm, hml, hd, rfl⟩
    refine (except_bind_eq_ok _ _ _).mpr ⟨u, hu, ?_⟩
    refine (except_bind_eq_ok _ _ _).mpr ⟨main, hm, ?_⟩
    refine (except_bind_eq_ok _ _ _).mpr ⟨mls, hml, ?_⟩
    refine (except_bind_eq_ok _ _ _).mpr ⟨deps, hd, ?_⟩
    rfl

/-- The constructor runs the expansion on what the resolver returns. -/
theorem network_constructed_eq (cfg : CoprConfig) (json : Json) (indet : Nat → Bool)
    (hub owner dir sel : Str) (S : StrSet) (hS : CoprRepo.available_chroots json = Except.ok S) :
    CoprRepo.network_constructed cfg json indet hub owner dir sel =
      match CoprRepo.resolve_chroot S cfg.name_version cfg.arch sel with
      | Except.error e => Except.error e
      | Except.ok (chroot, selector, arch) =>
        CoprRepo.expand cfg json indet hub owner dir sel chroot selector arch := by
  unfold CoprRepo.network_constructed
  simp only [hS, bind, Except.bind]
  cases CoprRepo.resolve_chroot S cfg.name_version cfg.arch sel <;> rfl

/-- The resolver on an explicitly selected chroot. -/
theorem resolve_chroot_explicit (S : StrSet) (nv a c : Str) (hc : c ≠ []) :
    CoprRepo.resolve_chroot S nv a c =
      if c ∈ S then
        Except.ok (c, regex_replace c re_dash_segment [], regex_replace c re_through_last_dash [])
      else Except.error (available_chroots_error S c) := by
  unfold CoprRepo.resolve_chroot
  simp only [hc, ne_eq, not_false_eq_true, if_true]
  by_cases h : c ∈ S
  · have hs : set_contains S c = true := by simpa [set_contains] using h
    simp only [hs, Bool.not_true, Bool.false_eq_true, if_false, h, if_true]
    rfl
  · have hs : set_contains S c = false := by simpa [set_contains] using h
    simp only [hs, Bool.not_false, if_true, h, if_false]
    rfl

theorem repo_triplet_template_ne_nil (nv : Str) : repo_triplet_template nv ≠ [] := by
  unfold repo_triplet_template
  split
  · simp
  · split
    · decide
    · split
      · decide
      · split
        · simp
        · simp

/-! ## Lemmas: decimal digits -/

theorem digitChar_value (k : Nat) (hk : k < 10) : (Nat.digitChar k).toNat - 48 = k := by
  interval_cases k <;> rfl

theorem foldl_toDigitsCore (fuel : Nat) :
    ∀ (n : Nat) (ds : Str), n < fuel →
      (Nat.toDigitsCore 10 fuel n ds).foldl (fun acc c => 10 * acc + (c.toNat - 48)) 0
        = ds.foldl (fun acc c => 10 * acc + (c.toNat - 48)) n := by
  induction fuel with
  | zero => intro n ds h; omega
  | succ fuel ih =>
    intro n ds h
    unfold Nat.toDigitsCore
    simp only
    split
    · next h0 =>
      have hn : n < 10 := by
        rcases Nat.div_eq_zero_iff (by norm_num : 0 < 10) |>.mp h0 with h1
        exact h1
      simp only [List.foldl_cons, Nat.mul_zero, Nat.zero_add]
      rw [digitChar_value _ (Nat.mod_lt _ (by norm_num)), Nat.mod_eq_of_lt hn]
    · next h0 =>
      have hlt : n / 10 < fuel := by
        have : n / 10 < n := Nat.div_lt_self (by
          rcases Nat.eq_zero_or_pos n with h1 | h1
          · subst h1; simp at h0
          · exact h1) (by norm_num)
        omega
      rw [ih (n / 10) _ hlt]
      simp only [List.foldl_cons]
      rw [digitChar_value _ (Nat.mod_lt _ (by norm_num))]
      congr 1
      omega

/-- The digits `to_string` prints have the number as their value. -/
theorem digits_value_to_string (n : Nat) : digits_value (to_string n) = n := by
  unfold digits_value to_string Nat.toDigits
  rw [foldl_toDigitsCore (n + 1) n [] (by omega)]
  rfl

theorem to_string_injective (i j : Nat) (h : to_string i = to_string j) : i = j := by
  have := congrArg digits_value h
  rwa [digits_value_to_string, digits_value_to_string] at this

theorem to_string_ne_nil (i : Nat) (hi : i ≠ 0) : to_string i ≠ [] := by
  intro h
  have := digits_value_to_string i
  rw [h] at this
  exact hi this.symm

/-! ## Lemmas: multilib parts -/

theorem multilib_id_injective (repo_id : Str) (i j : Nat)
    (h : multilib_id repo_id i = multilib_id repo_id j) : i = j := by
  unfold multilib_id at h
  by_cases hi : i = 0 <;> by_cases hj : j = 0
  · rw [hi, hj]
  · simp only [hi, hj, if_true, if_false, List.append_assoc, List.append_cancel_left_eq] at h
    have : to_string j = [] := by
      have h2 := congrArg (List.drop 3) h
      simpa using h2.symm
    exact absurd this (to_string_ne_nil j hj)
  · simp only [hi, hj, if_true, if_false, List.append_assoc, List.append_cancel_left_eq] at h
    have : to_string i = [] := by
      have h2 := congrArg (List.drop 3) h
      simpa using h2
    exact absurd this (to_string_ne_nil i hi)
  · simp only [hi, hj, if_false, List.append_assoc, List.append_cancel_left_eq] at h
    exact to_string_injective i j h

theorem multilib_id_ne (repo_id : Str) (i : Nat) : multilib_id repo_id i ≠ repo_id := by
  intro h
  have hl := congrArg List.length h
  unfold multilib_id at hl
  split at hl
  · simp at hl
  · simp at hl

/-- The ids of the parts the multilib loop pushes when no options override an id. -/
theorem multilib_loop_ids (main mljson : Json) (repo_id name u owner dir chroot gpgkey : Str)
    (hid0 : (main.get_dict_item "opts".toList).has_key "id".toList = false) :
    ∀ (keys : List Str) (suffix : Nat) (parts : List CoprRepoPart),
      (∀ key ∈ keys,
        ((mljson.get_dict_item key).get_dict_item "opts".toList).has_key "id".toList = false) →
      CoprRepo.multilib_loop main mljson repo_id name u owner dir chroot gpgkey keys suffix
        = Except.ok parts →
      parts.map CoprRepoPart.id = (List.range' suffix keys.length).map (multilib_id repo_id) := by
  intro keys
  induction keys with
  | nil =>
    intro suffix parts _ h
    cases h
    rfl
  | cons key rest ih =>
    intro suffix parts hid h
    unfold CoprRepo.multilib_loop at h
    obtain ⟨p1, h1, h⟩ := (except_bind_eq_ok _ _ _).mp h
    obtain ⟨p2, h2, h⟩ := (except_bind_eq_ok _ _ _).mp h
    obtain ⟨others, h3, h⟩ := (except_bind_eq_ok _ _ _).mp h
    cases h
    have k1 := (update_from_json_opts_keeps _ _ _ h1).2.2.2 hid0
    have k2 := (update_from_json_opts_keeps _ _ _ h2).2.2.2 (hid key (by simp))
    have k3 := ih (suffix + 1) others (fun k hk => hid k (List.mem_cons_of_mem _ hk)) h3
    simp only [List.map_cons, List.length_cons, List.range'_succ, k3, k2, k1]
    congr 1
    simp only [CoprRepoPart.of_fields, multilib_id]
    by_cases hs : suffix = 0
    · simp [hs]
    · simp [hs]

/-- The resolver without an explicitly selected chroot. -/
theorem resolve_chroot_auto (S : StrSet) (nv a : Str) (v : Str × Str × Str)
    (h : CoprRepo.resolve_chroot S nv a [] = Except.ok v) :
    v = (repo_triplet_template nv, nv, a) := by
  unfold CoprRepo.resolve_chroot at h
  simp only [ne_eq, not_true_eq_false, if_false, get_repo_triplet, repo_fallbacks,
    List.nil_append, get_repo_triplet_loop] at h
  split at h
  · next hc =>
    simp only [repo_triplet_template_ne_nil, if_false] at h
    cases h
    rfl
  · simp only [if_true] at h
    cases h

/-- What a successful run of the constructor has done. -/
theorem network_constructed_eq_ok (cfg : CoprConfig) (json : Json) (indet : Nat → Bool)
    (hub owner dir sel : Str) (r : CoprRepo)
    (h : CoprRepo.network_constructed cfg json indet hub owner dir sel = Except.ok r) :
    ∃ S chroot selector arch,
      CoprRepo.available_chroots json = Except.ok S ∧
      CoprRepo.resolve_chroot S cfg.name_version cfg.arch sel
        = Except.ok (chroot, selector, arch) ∧
      CoprRepo.expand cfg json indet hub owner dir sel chroot selector arch = Except.ok r := by
  unfold CoprRepo.network_constructed at h
  obtain ⟨S, hS, h⟩ := (except_bind_eq_ok _ _ _).mp h
  obtain ⟨v, hv, h⟩ := (except_bind_eq_ok _ _ _).mp h
  obtain ⟨chroot, selector, arch⟩ := v
  exact ⟨S, chroot, selector, arch, hS, hv, h⟩

/-- The parts of a set the constructor has built, when no options of the chroot detail of
the host override an id: the main part with the repo id, the multilib parts with their
numbered ids, and the dependency parts. -/
theorem network_constructed_parts (cfg : CoprConfig) (json : Json) (indet : Nat → Bool)
    (hub owner dir sel : Str) (r : CoprRepo)
    (h : CoprRepo.network_constructed cfg json indet hub owner dir sel = Except.ok r)
    (hid : ∀ keys,
      ((CoprRepo.main_repo_json json cfg.name_version cfg.arch).get_dict_item
        "multilib".toList).keys = Except.ok keys →
      ∀ key ∈ keys,
        ((((CoprRepo.main_repo_json json cfg.name_version cfg.arch).get_dict_item
          "multilib".toList).get_dict_item key).get_dict_item "opts".toList).has_key
            "id".toList = false) :
    ∃ main mls deps u chroot,
      r.repositories = main :: (mls ++ deps) ∧
      CoprRepo.dependency_repos json indet u chroot = Except.ok deps ∧
      (sel = [] → chroot = repo_triplet_template cfg.name_version) ∧
      (sel ≠ [] → chroot = sel) ∧
      (sel = [] →
        ((CoprRepo.main_repo_json json cfg.name_version cfg.arch).get_dict_item
          "opts".toList).has_key "id".toList = false →
        main.id = CoprRepo.main_repo_id cfg hub owner dir) ∧
      ((sel ≠ [] ∨
          (CoprRepo.main_repo_json json cfg.name_version cfg.arch).has_key "multilib".toList
            = false) → mls = []) ∧
      (sel = [] →
        ((CoprRepo.main_repo_json json cfg.name_version cfg.arch).get_dict_item
          "opts".toList).has_key "id".toList = false →
        ∀ keys,
          (CoprRepo.main_repo_json json cfg.name_version cfg.arch).has_key "multilib".toList
            = true →
          ((CoprRepo.main_repo_json json cfg.name_version cfg.arch).get_dict_item
            "multilib".toList).keys = Except.ok keys →
          mls.map CoprRepoPart.id
            = (List.range keys.length).map
                (multilib_id (CoprRepo.main_repo_id cfg hub owner dir))) := by
  obtain ⟨S, chroot, selector, arch, _, hres, hexp⟩ :=
    network_constructed_eq_ok cfg json indet hub owner dir sel r h
  obtain ⟨u, main, mls, deps, _, hm, hml, hd, rfl⟩ := (expand_eq_ok _ _ _ _ _ _ _ _ _ _ _).mp hexp
  refine ⟨main, mls, deps, u, chroot, by simp, hd, ?_, ?_, ?_, ?_, ?_⟩
  · intro hs
    subst hs
    have := resolve_chroot_auto S _ _ _ hres
    exact (Prod.mk.inj this).1
  · intro hs
    rw [resolve_chroot_explicit S _ _ sel hs] at hres
    split at hres
    · exact ((Prod.mk.inj (Except.ok.inj hres)).1).symm
    · cases hres
  · intro hs hid0
    subst hs
    have hv := resolve_chroot_auto S _ _ _ hres
    obtain ⟨_, h2⟩ := Prod.mk.inj hv
    obtain ⟨h2, h3⟩ := Prod.mk.inj h2
    subst h2 h3
    exact (update_from_json_opts_keeps _ _ _ hm).2.2.2 hid0
  · intro hs
    unfold CoprRepo.multilib_repos at hml
    rcases hs with hs | hs
    · simp only [hs, false_and, if_false] at hml
      cases hml
      rfl
    · by_cases h0 : sel = []
      · subst h0
        have hv := resolve_chroot_auto S _ _ _ hres
        obtain ⟨_, h2⟩ := Prod.mk.inj hv
        obtain ⟨h2, h3⟩ := Prod.mk.inj h2
        subst h2 h3
        simp only [hs, Bool.false_eq_true, and_false, if_false] at hml
        cases hml
        rfl
      · simp only [h0, false_and, if_false] at hml
        cases hml
        rfl
  · intro hs hid0 keys hk1 hk2
    subst hs
    have hv := resolve_chroot_auto S _ _ _ hres
    obtain ⟨_, h2⟩ := Prod.mk.inj hv
    obtain ⟨h2, h3⟩ := Prod.mk.inj h2
    subst h2 h3
    unfold CoprRepo.multilib_repos at hml
    simp only [hk1, and_self, if_true] at hml
    obtain ⟨ks, hks, hloop⟩ := (except_bind_eq_ok _ _ _).mp hml
    rw [hk2] at hks
    cases hks
    rw [List.range_eq_range']
    exact multilib_loop_ids _ _ _ _ _ _ _ _ _ hid0 keys 0 mls (hid keys hk2) hloop

/-! ## Theorems: chroot resolver -/

/-- C1: when the chroot `nv-a` is available, `get_repo_triplet` returns the template of
the family of `nv` (fedora-eln, fedora-, opensuse-leap-, mageia with or without cauldron,
or `nv-$basearch` for everything else) and reports `nv` as the matched name_version. -/
theorem get_repo_triplet_rules (S : StrSet) (nv a : Str) (h : nv ++ "-".toList ++ a ∈ S) :
    get_repo_triplet S nv a =
      (if nv = "fedora-eln".toList then "fedora-eln-$basearch".toList
       else if "fedora-".toList <+: nv then "fedora-$releasever-$basearch".toList
       else if "opensuse-leap-".toList <+: nv then "opensuse-leap-$releasever-$basearch".toList
       else if "mageia".toList <+: nv then
         (if "cauldron".toList <:+ nv then "mageia-cauldron-$basearch".toList
          else "mageia-$releasever-$basearch".toList)
       else nv ++ "-$basearch".toList, nv) := by
  have hc : set_contains S (nv ++ "-".toList ++ a) = true := by
    simpa [set_contains] using h
  simp only [get_repo_triplet, repo_fallbacks, List.nil_append, get_repo_triplet_loop, hc,
    if_true, repo_triplet_template, starts_with, ends_with, List.isPrefixOf_iff_prefix,
    List.isSuffixOf_iff_suffix]
  congr 1
  by_cases h1 : nv = "fedora-eln".toList
  · simp only [h1, if_true]; rfl
  · simp only [h1, if_false]
    by_cases h2 : "fedora-".toList <+: nv
    · simp only [h2, if_true]
    · simp only [h2, if_false]
      by_cases h3 : "opensuse-leap-".toList <+: nv
      · simp only [h3, if_true]
      · simp only [h3, if_false]
        by_cases h4 : "mageia".toList <+: nv
        · simp only [h4, if_true]
          by_cases h5 : "cauldron".toList <:+ nv
          · simp only [h5, if_true]; rfl
          · simp only [h5, if_false]; rfl
        · simp only [h4, if_false]

/-- Witness of C1: with fedora-38-x86_64 and fedora-39-x86_64 available, fedora-39 on
x86_64 resolves to `fedora-$releasever-$basearch`. -/
theorem get_repo_triplet_rules_witness :
    get_repo_triplet ["fedora-38-x86_64".toList, "fedora-39-x86_64".toList] "fedora-39".toList
        "x86_64".toList
      = ("fedora-$releasever-$basearch".toList, "fedora-39".toList) :=
  (get_repo_triplet_rules ["fedora-38-x86_64".toList, "fedora-39-x86_64".toList]
    "fedora-39".toList "x86_64".toList (by decide)).trans (by decide)

/-- C2: `get_repo_triplet` fails, returning the empty template and an empty matched
name_version, exactly when `nv-a` is not an available chroot, and the fallback sequence is
the one-element list of `nv`; with only mageia-8-x86_64 available, mageia-cauldron fails. -/
theorem get_repo_triplet_fails_iff (S : StrSet) (nv a : Str) :
    ((get_repo_triplet S nv a).1 = [] ↔ nv ++ "-".toList ++ a ∉ S) ∧
    (nv ++ "-".toList ++ a ∉ S → get_repo_triplet S nv a = ([], [])) ∧
    repo_fallbacks nv = [nv] ∧
    get_repo_triplet ["mageia-8-x86_64".toList] "mageia-cauldron".toList "x86_64".toList
      = ([], []) := by
  refine ⟨?_, ?_, rfl, by decide⟩
  · by_cases h : nv ++ "-".toList ++ a ∈ S
    · have hc : set_contains S (nv ++ "-".toList ++ a) = true := by
        simpa [set_contains] using h
      simp only [get_repo_triplet, repo_fallbacks, List.nil_append, get_repo_triplet_loop, hc,
        if_true, h, not_true, iff_false]
      exact repo_triplet_template_ne_nil nv
    · have hc : set_contains S (nv ++ "-".toList ++ a) = false := by
        simpa [set_contains] using h
      simp only [get_repo_triplet, repo_fallbacks, List.nil_append, get_repo_triplet_loop, hc,
        Bool.false_eq_true, if_false, h, not_false_eq_true]
  · intro h
    have hc : set_contains S (nv ++ "-".toList ++ a) = false := by
      simpa [set_contains] using h
    simp only [get_repo_triplet, repo_fallbacks, List.nil_append, get_repo_triplet_loop, hc,
      Bool.false_eq_true, if_false]

/-! ## Theorems: identifier codec -/

/-- C4: for a hub and an owner without colon or slash (owner not starting with `group_`)
and a project directory without slash that does not end with `:ml`,
`copr_id_from_repo_id` of the repo id built with `expand_at_in_groupname` is
`hub/owner/project_dir`: a group owner comes back with its `@` and the colons of the
project directory are kept. -/
theorem copr_id_from_repo_id_round_trip (h o p : Str) (hh1 : ':' ∉ h) (hh2 : '/' ∉ h)
    (ho1 : ':' ∉ o) (ho2 : '/' ∉ o) (hog : ¬ "group_".toList <+: o) (hp1 : '/' ∉ p)
    (hp2 : ¬ ":ml".toList <:+ p) :
    copr_id_from_repo_id
        ("copr:".toList ++ h ++ ":".toList ++ expand_at_in_groupname o ++ ":".toList ++ p)
      = h ++ "/".toList ++ o ++ "/".toList ++ p := by
  cases o with
  | nil =>
    have e : expand_at_in_groupname [] = [] := rfl
    rw [e, copr_id_from_repo_id_user h [] p hh1 hh2 ho1 ho2 hog hp1,
      remove_suffix_ml_after_slash _ _ hp2]
    simp
  | cons x n =>
    by_cases hx : x = '@'
    · subst hx
      have e : expand_at_in_groupname ('@' :: n) = "group_".toList ++ n := by
        simp [expand_at_in_groupname, starts_with, substr]
      simp only [List.mem_cons, not_or] at ho1 ho2
      rw [e, copr_id_from_repo_id_group h n p hh1 hh2 ho1.2 ho2.2 hp1,
        remove_suffix_ml_after_slash _ _ hp2]
      simp
    · have e : expand_at_in_groupname (x :: n) = x :: n := by
        have hs : starts_with (x :: n) "@".toList = false := by
          rw [← Bool.not_eq_true]
          simp only [starts_with, List.isPrefixOf_iff_prefix]
          intro hc
          rw [show "@".toList = ['@'] from rfl, List.cons_prefix_cons] at hc
          exact hx hc.1.symm
        simp only [expand_at_in_groupname, hs, Bool.false_eq_true, if_false]
      rw [e, copr_id_from_repo_id_user h (x :: n) p hh1 hh2 ho1 ho2 hog hp1,
        remove_suffix_ml_after_slash _ _ hp2]
      simp

/-- Witness of C4: the group owner `@copr` and the project directory
`project:custom:123`. -/
theorem copr_id_from_repo_id_round_trip_witness :
    copr_id_from_repo_id
        ("copr:".toList ++ "copr.fedorainfracloud.org".toList ++ ":".toList
          ++ expand_at_in_groupname "@copr".toList ++ ":".toList ++ "project:custom:123".toList)
      = "copr.fedorainfracloud.org".toList ++ "/".toList ++ "@copr".toList ++ "/".toList
          ++ "project:custom:123".toList :=
  copr_id_from_repo_id_round_trip "copr.fedorainfracloud.org".toList "@copr".toList
    "project:custom:123".toList (by decide) (by decide) (by decide) (by decide) (by decide)
    (by decide) (by decide)

/-- C5: a repo id that does not start with `copr:` is converted to the empty string (the
function is total: it has no error result). -/
theorem copr_id_from_repo_id_not_applicable (x : Str) (h : ¬ "copr:".toList <+: x) :
    copr_id_from_repo_id x = [] := by
  have hs : starts_with x "copr:".toList = false := by
    rw [← Bool.not_eq_true]
    simpa only [starts_with, List.isPrefixOf_iff_prefix] using h
  simp only [copr_id_from_repo_id, hs, Bool.not_false, if_true]

/-- Witness of C5: the id `fedora` of a repository that is not a Copr one. -/
theorem copr_id_from_repo_id_not_applicable_witness :
    copr_id_from_repo_id "fedora".toList = [] :=
  copr_id_from_repo_id_not_applicable "fedora".toList (by decide)

/-- The character-wise form of `copr_id_to_copr_file`. -/
theorem copr_id_to_copr_file_flatMap (s : Str) :
    copr_id_to_copr_file s = "_copr:".toList
      ++ ((remove_suffix ":ml".toList s).flatMap (fun c => if c = '/' then [':'] else [c])).flatMap
          (fun c => if c = '@' then "group_".toList else [c])
      ++ ".repo".toList := by
  simp only [copr_id_to_copr_file]
  rw [regex_replace_eol _ _ (by decide)]
  have e1 := replace_all_char '/' ":".toList dollar_not_mem_colon (remove_suffix ":ml".toList s)
  have e2 := fun t => replace_all_char '@' "group_".toList dollar_not_mem_group t
  simp only [replace_all] at e1 e2
  rw [show "/".toList = ['/'] from rfl, show "@".toList = ['@'] from rfl, e1, e2]
  rfl

/-! ## Lemmas: the file name of an id -/

theorem copr_id_to_copr_file_body (s : Str) :
    copr_id_to_copr_file s
      = "_copr:".toList ++ file_body (remove_suffix ":ml".toList s) ++ ".repo".toList :=
  copr_id_to_copr_file_flatMap s

theorem file_body_append (a b : Str) : file_body (a ++ b) = file_body a ++ file_body b := by
  simp [file_body, List.flatMap_append]

theorem file_body_cons (x : Char) (s : Str) : file_body (x :: s) = file_body [x] ++ file_body s :=
  file_body_append [x] s

theorem file_body_slash : file_body ['/'] = file_body [':'] := by decide

/-- Turning `/group_` into `/@` does not change the file name. -/
theorem file_body_replace_all_group :
    ∀ s, file_body (replace_all "/group_".toList "/@".toList s) = file_body s := by
  apply replace_all_induction "/group_".toList (by decide)
  · rfl
  · intro t ih
    rw [replace_all_match _ _ (by decide) dollar_not_mem_at, file_body_append, ih,
      file_body_append]
    congr 1
  · intro x s hn ih
    rw [replace_all_no_match _ _ dollar_not_mem_at _ _ hn, file_body_cons, ih, ← file_body_cons]

theorem file_body_slash_sep (a b : Str) :
    file_body (a ++ '/' :: b) = file_body (a ++ ':' :: b) := by
  rw [file_body_append, file_body_cons, file_body_slash, ← file_body_cons, ← file_body_append]

/-- The file name does not tell the project id of `<hub>:<owner>:<rest>` from the text
itself. -/
theorem file_body_id_parts (h o r : Str) :
    file_body (replace_all "/group_".toList "/@".toList (h ++ '/' :: o)
        ++ '/' :: replace_all "/group_".toList "/@".toList r)
      = file_body (h ++ ':' :: o ++ ':' :: r) := by
  rw [file_body_slash_sep, file_body_append, file_body_replace_all_group, file_body_cons ':',
    file_body_replace_all_group, ← file_body_cons, file_body_slash_sep, ← file_body_append]

theorem replace_all_group_eq_nil (s : Str)
    (h : replace_all "/group_".toList "/@".toList s = []) : s = [] := by
  cases s with
  | nil => rfl
  | cons x xs =>
    by_cases hm : "/group_".toList <+: x :: xs
    · obtain ⟨t, ht⟩ := hm
      rw [← ht, replace_all_match _ _ (by decide) dollar_not_mem_at] at h
      exact absurd h (by simp)
    · rw [replace_all_no_match _ _ dollar_not_mem_at _ _ hm] at h
      exact absurd h (by simp)

theorem replace_all_group_eq_cons (s t : Str) (y : Char) (hy : y ≠ '/')
    (h : replace_all "/group_".toList "/@".toList s = y :: t) :
    ∃ s2, s = y :: s2 ∧ replace_all "/group_".toList "/@".toList s2 = t := by
  cases s with
  | nil => rw [replace_all_nil] at h; exact absurd h (by simp)
  | cons x xs =>
    by_cases hm : "/group_".toList <+: x :: xs
    · obtain ⟨u, hu⟩ := hm
      rw [← hu, replace_all_match _ _ (by decide) dollar_not_mem_at] at h
      have : '/' = y := (List.cons.inj h).1
      exact absurd this.symm hy
    · rw [replace_all_no_match _ _ dollar_not_mem_at _ _ hm] at h
      have h2 := List.cons.inj h
      exact ⟨xs, by rw [h2.1], h2.2⟩

theorem replace_all_group_eq_ml (s : Str)
    (h : replace_all "/group_".toList "/@".toList s = "ml".toList) : s = "ml".toList := by
  obtain ⟨s1, e1, h1⟩ := replace_all_group_eq_cons s _ 'm' (by decide) h
  obtain ⟨s2, e2, h2⟩ := replace_all_group_eq_cons s1 _ 'l' (by decide) h1
  have e3 := replace_all_group_eq_nil s2 h2
  rw [e1, e2, e3]
  rfl

/-- Turning `/group_` into `/@` does not create a trailing `:ml`. -/
theorem suffix_ml_of_replace_all_group :
    ∀ s, ":ml".toList <:+ replace_all "/group_".toList "/@".toList s → ":ml".toList <:+ s := by
  apply replace_all_induction "/group_".toList (by decide)
  · intro h; rw [replace_all_nil] at h; exact h
  · intro t ih h
    rw [replace_all_match _ _ (by decide) dollar_not_mem_at] at h
    rcases List.suffix_cons_iff.mp h with h1 | h1
    · exact absurd (List.cons.inj h1).1 (by decide)
    · rcases List.suffix_cons_iff.mp h1 with h2 | h2
      · exact absurd (List.cons.inj h2).1 (by decide)
      · exact (ih h2).trans (List.suffix_append _ _)
  · intro x s hn ih h
    rw [replace_all_no_match _ _ dollar_not_mem_at _ _ hn] at h
    rcases List.suffix_cons_iff.mp h with h1 | h1
    · have h2 := List.cons.inj h1
      have h3 := replace_all_group_eq_ml s h2.2.symm
      rw [← h2.1, h3]
      exact List.suffix_refl _
    · exact (ih h1).trans (List.suffix_cons _ _)

theorem flatMap_singleton_eq_map (f : Char → Char) (s : Str) :
    s.flatMap (fun c => [f c]) = s.map f := by
  induction s with
  | nil => rfl
  | cons x xs ih => simp [List.flatMap_cons, ih]

/-- C7: `copr_id_to_copr_file s` is `_copr:` followed by `s` without one trailing `:ml`,
with every slash turned into a colon and then every `@` into `group_`, followed by
`.repo`; the documented example gives the documented file name. -/
theorem copr_id_to_copr_file_eq (s : Str) :
    copr_id_to_copr_file s = "_copr:".toList
      ++ ((remove_suffix ":ml".toList s).map (fun c => if c = '/' then ':' else c)).flatMap
          (fun c => if c = '@' then "group_".toList else [c])
      ++ ".repo".toList ∧
    copr_id_to_copr_file "copr.fedorainfracloud.org/@copr/copr-pull-requests:pr:2545".toList
      = "_copr:copr.fedorainfracloud.org:group_copr:copr-pull-requests:pr:2545.repo".toList := by
  refine ⟨?_, by decide⟩
  have e : (fun c : Char => if c = '/' then [':'] else [c])
      = (fun c : Char => [if c = '/' then ':' else c]) := by
    funext c
    split <;> rfl
  rw [copr_id_to_copr_file_flatMap, e, flatMap_singleton_eq_map]

/-- C8, the code as it is: a repo id `copr:<hub>:group_<g>:<project>:<suffix>` (hub and
group name without colon or slash, project and suffix without slash, `<project>:<suffix>`
not ending with `:ml`) is converted to `<hub>/@<g>/<project>:<suffix>`: the suffix is kept,
so that the result is not the `<hub>/@<g>/<project>` that the example in the comment at the
head of the function gives. -/
theorem copr_id_from_repo_id_group_suffix (h g p s : Str) (hh1 : ':' ∉ h) (hh2 : '/' ∉ h)
    (hg1 : ':' ∉ g) (hg2 : '/' ∉ g) (hp : '/' ∉ p) (hs : '/' ∉ s)
    (hml : ¬ ":ml".toList <:+ p ++ ":".toList ++ s) :
    copr_id_from_repo_id
        ("copr:".toList ++ h ++ ":group_".toList ++ g ++ ":".toList ++ p ++ ":".toList ++ s)
      = h ++ "/@".toList ++ g ++ "/".toList ++ p ++ ":".toList ++ s ∧
    copr_id_from_repo_id
        ("copr:".toList ++ h ++ ":group_".toList ++ g ++ ":".toList ++ p ++ ":".toList ++ s)
      ≠ h ++ "/@".toList ++ g ++ "/".toList ++ p := by
  have hps : '/' ∉ p ++ ":".toList ++ s := by
    simp only [List.mem_append, not_or]
    exact ⟨⟨hp, by decide⟩, hs⟩
  have e : "copr:".toList ++ h ++ ":group_".toList ++ g ++ ":".toList ++ p ++ ":".toList ++ s
      = "copr:".toList ++ h ++ ":".toList ++ ("group_".toList ++ g) ++ ":".toList
          ++ (p ++ ":".toList ++ s) := by
    simp
  have k : copr_id_from_repo_id
        ("copr:".toList ++ h ++ ":group_".toList ++ g ++ ":".toList ++ p ++ ":".toList ++ s)
      = h ++ "/@".toList ++ g ++ "/".toList ++ p ++ ":".toList ++ s := by
    rw [e, copr_id_from_repo_id_group h g _ hh1 hh2 hg1 hg2 hps,
      remove_suffix_ml_after_slash _ _ hml]
    simp
  refine ⟨k, ?_⟩
  rw [k]
  intro hc
  have := congrArg List.length hc
  simp at this

/-- Witness of C8: the repo id of the example in the comment of the function gives
`copr.fedorainfracloud.org/@copr/copr:suffix`, not the `copr.fedorainfracloud.org/@copr/copr`
of that comment. -/
theorem copr_id_from_repo_id_group_suffix_witness :
    copr_id_from_repo_id "copr:copr.fedorainfracloud.org:group_copr:copr:suffix".toList
      = "copr.fedorainfracloud.org/@copr/copr:suffix".toList ∧
    copr_id_from_repo_id "copr:copr.fedorainfracloud.org:group_copr:copr:suffix".toList
      ≠ "copr.fedorainfracloud.org/@copr/copr".toList :=
  copr_id_from_repo_id_group_suffix "copr.fedorainfracloud.org".toList "copr".toList
    "copr".toList "suffix".toList (by decide) (by decide) (by decide) (by decide) (by decide)
    (by decide) (by decide)

/-- C6 as stated fails: for the repo id of a project named `ml`, the file name obtained
through the project id differs from the file name of the normalized repo id. -/
theorem copr_file_round_trip_fails :
    copr_id_to_copr_file
        (copr_id_from_repo_id "copr:copr.fedorainfracloud.org:owner:ml".toList)
      ≠ copr_id_to_copr_file "copr.fedorainfracloud.org:owner:ml".toList := by decide

/-- C6, amended: for a repo id `copr:` + y with y = `<hub>:<owner>:<rest>` (hub and owner
without colon), where the rest is not `ml` and does not end with `:ml:ml`, the file name of
the project id of the repo id is the file name of y. -/
theorem copr_file_round_trip (h o r : Str) (hh : ':' ∉ h) (ho : ':' ∉ o)
    (hr1 : r ≠ "ml".toList) (hr2 : ¬ ":ml:ml".toList <:+ r) :
    copr_id_to_copr_file
        (copr_id_from_repo_id ("copr:".toList ++ h ++ ":".toList ++ o ++ ":".toList ++ r))
      = copr_id_to_copr_file (h ++ ":".toList ++ o ++ ":".toList ++ r) := by
  rw [copr_id_from_repo_id_parts h o r hh ho, copr_id_to_copr_file_body,
    copr_id_to_copr_file_body]
  congr 2
  by_cases hs : ":ml".toList <:+ r
  · obtain ⟨r0, hr0⟩ := hs
    subst hr0
    have hr0 : ¬ ":ml".toList <:+ r0 := by
      rintro ⟨u, hu⟩
      apply hr2
      exact ⟨u, by rw [← hu]; simp⟩
    have hg : ¬ ":ml".toList <:+ replace_all "/group_".toList "/@".toList r0 :=
      fun hc => hr0 (suffix_ml_of_replace_all_group r0 hc)
    have e1 : replace_all "/group_".toList "/@".toList (r0 ++ ":ml".toList)
        = replace_all "/group_".toList "/@".toList r0 ++ ":ml".toList := by
      rw [show r0 ++ ":ml".toList = r0 ++ ':' :: "ml".toList from rfl,
        replace_all_split _ _ (by decide) dollar_not_mem_at ':' (by decide)]
      rfl
    have e2 : replace_all "/group_".toList "/@".toList (h ++ '/' :: o)
          ++ '/' :: (replace_all "/group_".toList "/@".toList r0 ++ ":ml".toList)
        = (replace_all "/group_".toList "/@".toList (h ++ '/' :: o)
          ++ '/' :: replace_all "/group_".toList "/@".toList r0) ++ ":ml".toList := by
      simp
    have e3 : h ++ ":".toList ++ o ++ ":".toList ++ (r0 ++ ":ml".toList)
        = (h ++ ':' :: o ++ ':' :: r0) ++ ":ml".toList := by
      simp
    rw [e1, e2, remove_suffix_append, remove_suffix_ml_after_slash _ _ hg, e3,
      remove_suffix_append]
    exact file_body_id_parts h o r0
  · have hg : ¬ ":ml".toList <:+ replace_all "/group_".toList "/@".toList r :=
      fun hc => hs (suffix_ml_of_replace_all_group r hc)
    have hy : ¬ ":ml".toList <:+ h ++ ":".toList ++ o ++ ":".toList ++ r := by
      intro hc
      have e : h ++ ":".toList ++ o ++ ":".toList ++ r = (h ++ ':' :: o) ++ ':' :: r := by
        simp
      rw [e] at hc
      rcases suffix_cons_of_suffix_append_cons ':' (by decide) _ _ hc with h1 | h1
      · exact hs h1
      · exact hr1 h1
    rw [remove_suffix_ml_after_slash _ _ hg, remove_suffix_ml_after_slash _ _ hg,
      remove_suffix_of_not_suffix _ _ hy, file_body_id_parts h o r]
    congr 1
    simp

/-- Witness of C6, amended: a multilib part id of a group project. -/
theorem copr_file_round_trip_witness :
    copr_id_to_copr_file
        (copr_id_from_repo_id ("copr:".toList ++ "copr.fedorainfracloud.org".toList
          ++ ":".toList ++ "group_copr".toList ++ ":".toList ++ "copr-dev:ml".toList))
      = copr_id_to_copr_file ("copr.fedorainfracloud.org".toList ++ ":".toList
          ++ "group_copr".toList ++ ":".toList ++ "copr-dev:ml".toList) :=
  copr_file_round_trip "copr.fedorainfracloud.org".toList "group_copr".toList
    "copr-dev:ml".toList (by decide) (by decide) (by decide) (by decide)

/-! ## Theorems: the constructor of a repository set -/

/-- C3 as stated fails: the chroot `custom-x86_64` is an available chroot of a descriptor
whose chroot detail gives the cost `abc`, and the constructor, called with that chroot,
throws the exception of `std::stoi` instead of building a set. -/
theorem explicit_chroot_assembly_throws :
    CoprRepo.available_chroots unreadable_cost_descriptor
      = Except.ok ["custom-x86_64".toList] ∧
    CoprRepo.network_constructed sample_config unreadable_cost_descriptor (fun _ => false)
        "copr.fedorainfracloud.org".toList "@copr".toList "copr-dev".toList
        "custom-x86_64".toList
      = Except.error (Error.stoi_error "abc".toList) := by
  exact ⟨rfl, rfl⟩

/-- C3, amended: with an explicitly selected chroot `c`, the constructor fails with the
available-chroots error that names `c` when `c` is not an available chroot; when it is,
every set the constructor builds has a main part with base URL
`results_url/owner/project_dir/c/`, `c` verbatim, whatever the configured name_version
and arch are, and the constructor does build a set whenever the results URL of the
descriptor can be read as a text, `update_from_json_opts` can read the options of the
chroot detail the constructor selects for `c`, and the dependency block builds its
parts. -/
theorem explicit_chroot_override (cfg : CoprConfig) (json : Json) (indet : Nat → Bool)
    (hub owner dir c : Str) (S : StrSet) (hc : c ≠ [])
    (hS : CoprRepo.available_chroots json = Except.ok S) :
    (c ∉ S →
      CoprRepo.network_constructed cfg json indet hub owner dir c
        = Except.error (available_chroots_error S c) ∧
      available_chroots_error S c = Error.runtime_error
        ("Chroot not found in the given Copr project (".toList ++ c
          ++ "). You can choose one of the avaiable chroots explicitly:\n".toList
          ++ available_chroots_lines S true)) ∧
    (c ∈ S →
      (∀ r, CoprRepo.network_constructed cfg json indet hub owner dir c = Except.ok r →
        ∃ u main rest,
          (json.get_dict_item "results_url".toList).string_value = Except.ok u ∧
          r.repositories = main :: rest ∧
          main.baseurl = u ++ "/".toList ++ owner ++ "/".toList ++ dir ++ "/".toList ++ c
            ++ "/".toList) ∧
      (∀ u, (json.get_dict_item "results_url".toList).string_value = Except.ok u →
        (∀ p : CoprRepoPart, ∃ q, p.update_from_json_opts
          (CoprRepo.main_repo_json json (regex_replace c re_dash_segment [])
            (regex_replace c re_through_last_dash [])) = Except.ok q) →
        (∃ deps, CoprRepo.dependency_repos json indet u c = Except.ok deps) →
        ∃ r, CoprRepo.network_constructed cfg json indet hub owner dir c = Except.ok r)) := by
  have hn := network_constructed_eq cfg json indet hub owner dir c S hS
  rw [resolve_chroot_explicit S _ _ c hc] at hn
  refine ⟨fun hmem => ?_, fun hmem => ⟨fun r hr => ?_, fun u hu hm hd => ?_⟩⟩
  · rw [hn, if_neg hmem]
    refine ⟨rfl, ?_⟩
    simp only [available_chroots_error, available_chroots_message, gettext, hc, ne_eq,
      not_false_eq_true, if_true]
    simp
  · rw [hn, if_pos hmem] at hr
    obtain ⟨u, main, mls, deps, hu, hm, _, _, rfl⟩ := (expand_eq_ok _ _ _ _ _ _ _ _ _ _ _).mp hr
    exact ⟨u, main, mls ++ deps, hu, by simp, (update_from_json_opts_keeps _ _ _ hm).1⟩
  · obtain ⟨main, hmain⟩ := hm (CoprRepoPart.of_fields (CoprRepo.main_repo_id cfg hub owner dir)
      ("Copr repo for ".toList ++ dir ++ " owned by ".toList ++ owner) true
      (u ++ "/".toList ++ owner ++ "/".toList ++ dir ++ "/".toList ++ c ++ "/".toList)
      (u ++ "/".toList ++ owner ++ "/".toList ++ regex_replace dir re_colon_rest []
        ++ "/".toList ++ "pubkey.gpg".toList))
    obtain ⟨deps, hdeps⟩ := hd
    rw [hn, if_pos hmem]
    refine ⟨_, (expand_eq_ok _ _ _ _ _ _ _ _ _ _ _).mpr ⟨u, main, [], deps, hu, hmain, ?_, hdeps, rfl⟩⟩
    simp [CoprRepo.multilib_repos, hc]
    rfl

/-- Witness of C3, amended: on the sample descriptor, on a Fedora host, the chroot
epel-8-x86_64 is refused, and the chroot epel-9-x86_64 is taken and gives a main part with
the base URL `https://download.copr.example/results/@copr/copr-dev/epel-9-x86_64/`. -/
theorem explicit_chroot_override_witness :
    CoprRepo.network_constructed sample_config sample_descriptor (fun _ => false)
        "copr.fedorainfracloud.org".toList "@copr".toList "copr-dev".toList
        "epel-8-x86_64".toList
      = Except.error (available_chroots_error
          ["epel-9-x86_64".toList, "fedora-39-x86_64".toList] "epel-8-x86_64".toList) ∧
    ∃ r main rest,
      CoprRepo.network_constructed sample_config sample_descriptor (fun _ => false)
        "copr.fedorainfracloud.org".toList "@copr".toList "copr-dev".toList
        "epel-9-x86_64".toList = Except.ok r ∧
      r.repositories = main :: rest ∧
      main.baseurl
        = "https://download.copr.example/results/@copr/copr-dev/epel-9-x86_64/".toList := by
  have h8 := explicit_chroot_override sample_config sample_descriptor (fun _ => false)
    "copr.fedorainfracloud.org".toList "@copr".toList "copr-dev".toList
    "epel-8-x86_64".toList ["epel-9-x86_64".toList, "fedora-39-x86_64".toList]
    (by decide) rfl
  have h9 := explicit_chroot_override sample_config sample_descriptor (fun _ => false)
    "copr.fedorainfracloud.org".toList "@copr".toList "copr-dev".toList
    "epel-9-x86_64".toList ["epel-9-x86_64".toList, "fedora-39-x86_64".toList]
    (by decide) rfl
  refine ⟨(h8.1 (by decide)).1, ?_⟩
  obtain ⟨r, hr⟩ := (h9.2 (by decide)).2 "https://download.copr.example/results".toList rfl
    (fun p => ⟨p, rfl⟩) ⟨_, rfl⟩
  obtain ⟨u, main, rest, hu, hrep, hb⟩ := (h9.2 (by decide)).1 r hr
  have eu : u = "https://download.copr.example/results".toList :=
    (Except.ok.inj (show Except.ok "https://download.copr.example/results".toList
      = (Except.ok u : Except Error Str) from hu)).symm
  subst eu
  exact ⟨r, main, rest, hr, hrep, hb.trans (by decide)⟩

/-- C9: without an explicitly selected chroot, when the chroot detail of the host has a
multilib map with the keys `keys` and neither its options nor those of a multilib entry
have an `id`, a set the constructor builds consists of the main part, then exactly one
multilib part per key, in the order of the keys, with the ids `repo_id:ml` for the first
and `repo_id:ml<i>` for the one at position i ≥ 1, then the dependency parts. -/
theorem multilib_part_ids (cfg : CoprConfig) (json : Json) (indet : Nat → Bool)
    (hub owner dir : Str) (r : CoprRepo) (keys : List Str)
    (h : CoprRepo.network_constructed cfg json indet hub owner dir [] = Except.ok r)
    (hml : (CoprRepo.main_repo_json json cfg.name_version cfg.arch).has_key "multilib".toList
      = true)
    (hk : ((CoprRepo.main_repo_json json cfg.name_version cfg.arch).get_dict_item
      "multilib".toList).keys = Except.ok keys)
    (hid0 : ((CoprRepo.main_repo_json json cfg.name_version cfg.arch).get_dict_item
      "opts".toList).has_key "id".toList = false)
    (hid : ∀ key ∈ keys,
      ((((CoprRepo.main_repo_json json cfg.name_version cfg.arch).get_dict_item
        "multilib".toList).get_dict_item key).get_dict_item "opts".toList).has_key
          "id".toList = false) :
    ∃ main mls deps u,
      r.repositories = main :: (mls ++ deps) ∧
      main.id = CoprRepo.main_repo_id cfg hub owner dir ∧
      mls.length = keys.length ∧
      mls.map CoprRepoPart.id
        = (List.range keys.length).map (fun i =>
            if i = 0 then CoprRepo.main_repo_id cfg hub owner dir ++ ":ml".toList
            else CoprRepo.main_repo_id cfg hub owner dir ++ ":ml".toList ++ to_string i) ∧
      CoprRepo.dependency_repos json indet u (repo_triplet_template cfg.name_version)
        = Except.ok deps := by
  obtain ⟨main, mls, deps, u, chroot, hrep, hd, hc, _, hmain, _, hids⟩ :=
    network_constructed_parts cfg json indet hub owner dir [] r h
      (fun ks hks => by rw [hk] at hks; cases hks; exact hid)
  have hids2 := hids rfl hid0 keys hml hk
  refine ⟨main, mls, deps, u, hrep, hmain rfl hid0, ?_, hids2, ?_⟩
  · have := congrArg List.length hids2
    simpa using this
  · rw [← hc rfl]; exact hd

/-- Witness of C9: the sample descriptor has the multilib keys i686 and ppc. -/
theorem multilib_part_ids_witness :
    ∃ main mls deps u,
      sample_repo.repositories = main :: (mls ++ deps) ∧
      main.id = CoprRepo.main_repo_id sample_config "copr.fedorainfracloud.org".toList
        "@copr".toList "copr-dev".toList ∧
      mls.length = ["i686".toList, "ppc".toList].length ∧
      mls.map CoprRepoPart.id
        = (List.range ["i686".toList, "ppc".toList].length).map (fun i =>
            if i = 0 then
              CoprRepo.main_repo_id sample_config "copr.fedorainfracloud.org".toList
                "@copr".toList "copr-dev".toList ++ ":ml".toList
            else
              CoprRepo.main_repo_id sample_config "copr.fedorainfracloud.org".toList
                "@copr".toList "copr-dev".toList ++ ":ml".toList ++ to_string i) ∧
      CoprRepo.dependency_repos sample_descriptor (fun _ => false) u
        (repo_triplet_template sample_config.name_version) = Except.ok deps :=
  multilib_part_ids sample_config sample_descriptor (fun _ => false)
    "copr.fedorainfracloud.org".toList "@copr".toList "copr-dev".toList sample_repo
    ["i686".toList, "ppc".toList] rfl rfl rfl rfl (by decide)

/-! ## Theorems: writing parts and sets -/

theorem unlines_nil : unlines [] = [] := rfl

theorem unlines_cons (l : Str) (ls : List Str) :
    unlines (l :: ls) = l ++ "\n".toList ++ unlines ls := by
  simp [unlines]

theorem unlines_append (a b : List Str) : unlines (a ++ b) = unlines a ++ unlines b := by
  simp [unlines]

/-- C15: the stanza written for a part is exactly the newline-terminated lines `[id]`,
`name=`, `baseurl=`, `type=rpm-md`, `skip_if_unavailable=True`, `gpgcheck=1` and `gpgkey=`
when there is a key and `gpgcheck=0` alone when there is none, `repo_gpgcheck=0`, `cost=`
unless the cost is zero, `enabled=1` whatever the enabled member is, `enabled_metadata=1`,
`priority=` unless the priority is 99, `module_hotfixes=1` when set, in this order; a part
with priority 99 gets no priority line and a part with priority 10 gets `priority=10`. -/
theorem output_stanza_format (p : CoprRepoPart) :
    p.output = unlines (stanza_lines p) ∧
    ({ enabled := false, priority := 99 } : CoprRepoPart).output
      = ("[]\nname=\nbaseurl=\ntype=rpm-md\nskip_if_unavailable=True\ngpgcheck=0\n"
        ++ "repo_gpgcheck=0\nenabled=1\nenabled_metadata=1\n").toList ∧
    ({ enabled := false, priority := 10 } : CoprRepoPart).output
      = ("[]\nname=\nbaseurl=\ntype=rpm-md\nskip_if_unavailable=True\ngpgcheck=0\n"
        ++ "repo_gpgcheck=0\nenabled=1\nenabled_metadata=1\npriority=10\n").toList := by
  refine ⟨?_, by decide, by decide⟩
  unfold CoprRepoPart.output stanza_lines
  by_cases hg : p.gpgkey = [] <;> by_cases hc : p.cost = 0 <;> by_cases hp : p.priority = 99
    <;> cases hm : p.module_hotfixes
    <;> simp only [hg, hc, hp, ne_eq, not_true_eq_false, not_false_eq_true, if_true,
      if_false, Bool.false_eq_true, unlines_cons, unlines_nil, unlines_append,
      List.append_assoc, List.cons_append, List.nil_append, List.append_nil]
    <;> rfl

theorem output_loop_false (parts : List CoprRepoPart) :
    CoprRepo.output_loop parts false = (parts.map (fun p => endl ++ p.output)).flatten := by
  induction parts with
  | nil => rfl
  | cons p rest ih => simp [CoprRepo.output_loop, ih]

theorem intercalate_cons (sep x : Str) (xs : List Str) :
    List.intercalate sep (x :: xs) = x ++ (xs.map (fun y => sep ++ y)).flatten := by
  induction xs generalizing x with
  | nil => simp [List.intercalate]
  | cons y ys ih =>
    have := ih y
    simp only [List.intercalate, List.intersperse, List.flatten_cons, List.map_cons] at this ⊢
    rw [this]
    simp

/-- C17 as stated fails: between the stanzas of two parts a newline is written, so the
text of the set is not the concatenation of the stanzas. -/
theorem output_not_concatenation :
    two_default_parts.output
      ≠ (two_default_parts.repositories.map CoprRepoPart.output).flatten := by
  decide

/-- C17, amended: the text written for a set is the stanzas of its parts, in part order,
with one newline, that is an empty line, between consecutive stanzas; the empty set is
written as the empty text. -/
theorem output_stanzas_separated (r : CoprRepo) :
    r.output = List.intercalate "\n".toList (r.repositories.map CoprRepoPart.output) ∧
    ({ r with repositories := [] } : CoprRepo).output = [] := by
  constructor
  · unfold CoprRepo.output
    cases hr : r.repositories with
    | nil => rfl
    | cons p rest =>
      rw [List.map_cons, intercalate_cons]
      simp only [CoprRepo.output_loop, Bool.not_true, Bool.false_eq_true, if_false,
        List.nil_append, output_loop_false, List.map_map]
      rfl
  · rfl

/-- C18, the constructor at the sample descriptor: the set it builds has an enabled main
part, two multilib parts and a part whose id starts with `coprdep:`, and its flags
`enabled`, `has_external_deps` and `multilib` are all false. -/
theorem network_constructed_flags_sample :
    CoprRepo.network_constructed sample_config sample_descriptor (fun _ => false)
        "copr.fedorainfracloud.org".toList "@copr".toList "copr-dev".toList []
      = Except.ok sample_repo ∧
    sample_repo.enabled = false ∧
    sample_repo.repositories.any (fun p => p.enabled) = true ∧
    sample_repo.has_external_deps = false ∧
    sample_repo.repositories.any (fun p => starts_with p.id "coprdep:".toList) = true ∧
    sample_repo.multilib = false ∧
    sample_repo.repositories.any (fun p => fnmatch "copr:*:*:*:ml".toList (c_str p.id)) = true := by
  refine ⟨rfl, ?_, ?_, ?_, ?_, ?_, ?_⟩ <;> decide

/-! ## Lemmas: `fnmatch` -/

theorem fnmatch_star_iff (k : Str → Bool) (s : Str) :
    fnmatch_star k s = true ↔ ∃ x t, s = x ++ t ∧ k t = true := by
  induction s with
  | nil =>
    simp only [fnmatch_star]
    constructor
    · intro h; exact ⟨[], [], rfl, h⟩
    · rintro ⟨x, t, h, hk⟩
      have : t = [] := by
        have := congrArg List.length h
        simp only [List.length_nil, List.length_append] at this
        exact List.length_eq_zero.mp (by omega)
      rw [this] at hk; exact hk
  | cons c cs ih =>
    simp only [fnmatch_star, Bool.or_eq_true, ih]
    constructor
    · rintro (h | ⟨x, t, h, hk⟩)
      · exact ⟨[], c :: cs, rfl, h⟩
      · exact ⟨c :: x, t, by rw [h]; rfl, hk⟩
    · rintro ⟨x, t, h, hk⟩
      cases x with
      | nil => left; rw [List.nil_append] at h; rw [h]; exact hk
      | cons y ys =>
        right
        rw [List.cons_append] at h
        exact ⟨ys, t, (List.cons.inj h).2, hk⟩

theorem fnmatch_nil_iff (s : Str) : fnmatch [] s = true ↔ s = [] := by
  cases s <;> simp [fnmatch]

theorem fnmatch_char_iff (p : Char) (ps s : Str) (hp : p ≠ '*') :
    fnmatch (p :: ps) s = true ↔ ∃ t, s = p :: t ∧ fnmatch ps t = true := by
  cases s with
  | nil => simp [fnmatch, hp]
  | cons c cs =>
    simp only [fnmatch, hp, if_false, Bool.and_eq_true, decide_eq_true_eq]
    constructor
    · rintro ⟨h1, h2⟩; exact ⟨cs, by rw [h1], h2⟩
    · rintro ⟨t, h1, h2⟩
      obtain ⟨e1, e2⟩ := List.cons.inj h1
      exact ⟨e1.symm, by rw [e2]; exact h2⟩

theorem fnmatch_star_cons_iff (ps s : Str) :
    fnmatch ('*' :: ps) s = true ↔ ∃ x t, s = x ++ t ∧ fnmatch ps t = true := by
  rw [← fnmatch_star_iff]
  cases s <;> simp [fnmatch]

/-- The texts the pattern `copr:*:*:*:ml` matches. -/
theorem fnmatch_multilib_iff (s : Str) :
    fnmatch "copr:*:*:*:ml".toList s = true ↔
      ∃ a b c, s = "copr:".toList ++ a ++ ":".toList ++ b ++ ":".toList ++ c ++ ":ml".toList := by
  have hp : "copr:*:*:*:ml".toList
      = 'c' :: 'o' :: 'p' :: 'r' :: ':' :: '*' :: ':' :: '*' :: ':' :: '*' :: ':' :: 'm' :: 'l' :: [] :=
    rfl
  rw [hp]
  simp only [fnmatch_char_iff _ _ _ (by decide : 'c' ≠ '*'),
    fnmatch_char_iff _ _ _ (by decide : 'o' ≠ '*'), fnmatch_char_iff _ _ _ (by decide : 'p' ≠ '*'),
    fnmatch_char_iff _ _ _ (by decide : 'r' ≠ '*'), fnmatch_char_iff _ _ _ (by decide : ':' ≠ '*'),
    fnmatch_char_iff _ _ _ (by decide : 'm' ≠ '*'), fnmatch_char_iff _ _ _ (by decide : 'l' ≠ '*'),
    fnmatch_star_cons_iff, fnmatch_nil_iff]
  constructor
  · rintro ⟨t1, rfl, t2, rfl, t3, rfl, t4, rfl, t5, rfl, a, t6, rfl, t7, rfl, b, t8, rfl, t9, rfl,
      c, t10, rfl, t11, rfl, t12, rfl, t13, rfl, rfl⟩
    exact ⟨a, b, c, by simp⟩
  · rintro ⟨a, b, c, rfl⟩
    exact ⟨_, rfl, _, rfl, _, rfl, _, rfl, _, by simp, a, _, rfl, _, rfl, b, _, rfl, _, rfl,
      c, _, rfl, _, rfl, _, rfl, _, rfl, rfl⟩

/-! ## Lemmas: local reconstruction -/

theorem set_id_from_repo_id_fields (r : CoprRepo) (x : Str) :
    (r.set_id_from_repo_id x).repositories = r.repositories ∧
    (r.set_id_from_repo_id x).enabled = r.enabled ∧
    (r.set_id_from_repo_id x).has_external_deps = r.has_external_deps ∧
    (r.set_id_from_repo_id x).multilib = r.multilib := by
  unfold CoprRepo.set_id_from_repo_id
  by_cases h : r.id = []
  · by_cases h2 : copr_id_from_repo_id x = []
    · simp [h, h2]
    · simp [h, h2]
  · simp [h]

theorem set_id_from_repo_id_id (r : CoprRepo) (x : Str) :
    (r.set_id_from_repo_id x).id = if r.id ≠ [] then r.id else copr_id_from_repo_id x := by
  unfold CoprRepo.set_id_from_repo_id
  by_cases h : r.id = []
  · by_cases h2 : copr_id_from_repo_id x = []
    · simp [h, h2]
    · simp [h, h2]
  · simp [h]

theorem add_dnf_repo_fields (r : CoprRepo) (d : DnfRepo) :
    (r.add_dnf_repo d).repositories = r.repositories ++ [CoprRepoPart.of_dnf_repo d] ∧
    (r.add_dnf_repo d).enabled = (r.enabled || d.enabled) ∧
    (r.add_dnf_repo d).has_external_deps
      = (r.has_external_deps || starts_with d.id "coprdep:".toList) ∧
    (r.add_dnf_repo d).multilib
      = (r.multilib || fnmatch "copr:*:*:*:ml".toList (c_str d.id)) ∧
    (r.add_dnf_repo d).id = (r.set_id_from_repo_id d.id).id := by
  obtain ⟨h1, h2, h3, h4⟩ := set_id_from_repo_id_fields r d.id
  unfold CoprRepo.add_dnf_repo
  generalize "copr:*:*:*:ml".toList = pat
  generalize "coprdep:".toList = dep
  cases hm : fnmatch pat (c_str d.id)
  · simp [CoprRepoPart.of_dnf_repo, hm, h1, h2, h3, h4]
  · simp [CoprRepoPart.of_dnf_repo, hm, h1, h2, h3]

theorem add_dnf_repo_foldl (ds : List DnfRepo) :
    ∀ r0 : CoprRepo,
      (ds.foldl CoprRepo.add_dnf_repo r0).repositories
        = r0.repositories ++ ds.map CoprRepoPart.of_dnf_repo ∧
      (ds.foldl CoprRepo.add_dnf_repo r0).enabled
        = (r0.enabled || ds.any (fun d => d.enabled)) ∧
      (ds.foldl CoprRepo.add_dnf_repo r0).has_external_deps
        = (r0.has_external_deps || ds.any (fun d => starts_with d.id "coprdep:".toList)) ∧
      (ds.foldl CoprRepo.add_dnf_repo r0).multilib
        = (r0.multilib || ds.any (fun d => fnmatch "copr:*:*:*:ml".toList (c_str d.id))) ∧
      (ds.foldl CoprRepo.add_dnf_repo r0).id
        = if r0.id ≠ [] then r0.id
          else ((ds.map (fun d => copr_id_from_repo_id d.id)).find? (fun x => x ≠ [])).getD [] := by
  induction ds with
  | nil =>
    intro r0
    by_cases h : r0.id = [] <;> simp [h]
  | cons d rest ih =>
    intro r0
    obtain ⟨h1, h2, h3, h4, h5⟩ := add_dnf_repo_fields r0 d
    obtain ⟨i1, i2, i3, i4, i5⟩ := ih (r0.add_dnf_repo d)
    simp only [List.foldl_cons, i1, i2, i3, i4, i5, h1, h2, h3, h4, h5, List.map_cons,
      List.any_cons, Bool.or_assoc, set_id_from_repo_id_id]
    refine ⟨by simp, trivial, trivial, trivial, ?_⟩
    by_cases hr : r0.id = []
    · by_cases hc : copr_id_from_repo_id d.id = []
      · simp [hr, hc, List.find?]
      · simp [hr, hc, List.find?]
    · simp [hr]

theorem any_map_of_dnf_repo (q : CoprRepoPart → Bool) (ds : List DnfRepo) :
    (ds.map CoprRepoPart.of_dnf_repo).any q = ds.any (fun d => q (CoprRepoPart.of_dnf_repo d)) := by
  induction ds with
  | nil => rfl
  | cons d rest ih => simp only [List.map_cons, List.any_cons, ih]

/-! ## Theorems: local reconstruction -/

/-- C19: after any sequence of `add_dnf_repo` calls on a default-constructed set, the
parts are one per call, in call order, holding the id and the enabled state of the repo
and nothing else, `enabled` is the disjunction of the enabled members of the parts,
`has_external_deps` tells whether some part id starts with `coprdep:` and `multilib`
whether some part id matches `copr:*:*:*:ml`; without calls the three flags are false. -/
theorem add_dnf_repo_flags (ds : List DnfRepo) :
    (ds.foldl CoprRepo.add_dnf_repo CoprRepo.default_constructed).repositories
      = ds.map (fun d =>
          ({ id := d.id, enabled := d.enabled, baseurl := [], name := [], gpgkey := [],
             priority := 99, cost := 0, module_hotfixes := false } : CoprRepoPart)) ∧
    (ds.foldl CoprRepo.add_dnf_repo CoprRepo.default_constructed).enabled
      = (ds.foldl CoprRepo.add_dnf_repo CoprRepo.default_constructed).repositories.any
          (fun p => p.enabled) ∧
    (ds.foldl CoprRepo.add_dnf_repo CoprRepo.default_constructed).has_external_deps
      = (ds.foldl CoprRepo.add_dnf_repo CoprRepo.default_constructed).repositories.any
          (fun p => decide ("coprdep:".toList <+: p.id)) ∧
    (ds.foldl CoprRepo.add_dnf_repo CoprRepo.default_constructed).multilib
      = (ds.foldl CoprRepo.add_dnf_repo CoprRepo.default_constructed).repositories.any
          (fun p => fnmatch "copr:*:*:*:ml".toList (c_str p.id)) ∧
    (∀ s : Str, fnmatch "copr:*:*:*:ml".toList s = true ↔
      ∃ a b c,
        s = "copr:".toList ++ a ++ ":".toList ++ b ++ ":".toList ++ c ++ ":ml".toList) ∧
    CoprRepo.default_constructed.enabled = false ∧
    CoprRepo.default_constructed.has_external_deps = false ∧
    CoprRepo.default_constructed.multilib = false := by
  obtain ⟨h1, h2, h3, h4, _⟩ := add_dnf_repo_foldl ds CoprRepo.default_constructed
  refine ⟨?_, ?_, ?_, ?_, fnmatch_multilib_iff, rfl, rfl, rfl⟩
  · rw [h1]; rfl
  · rw [h2, h1, show CoprRepo.default_constructed.repositories ++ List.map CoprRepoPart.of_dnf_repo ds = List.map CoprRepoPart.of_dnf_repo ds from rfl, any_map_of_dnf_repo]
    rfl
  · rw [h3, h1, show CoprRepo.default_constructed.repositories ++ List.map CoprRepoPart.of_dnf_repo ds = List.map CoprRepoPart.of_dnf_repo ds from rfl, any_map_of_dnf_repo]
    have e : ∀ d : DnfRepo, starts_with d.id "coprdep:".toList
        = decide ("coprdep:".toList <+: (CoprRepoPart.of_dnf_repo d).id) := by
      intro d
      rw [Bool.eq_iff_iff]
      simp only [starts_with, List.isPrefixOf_iff_prefix, decide_eq_true_eq]
      rfl
    simp only [e]
    rfl
  · rw [h4, h1, show CoprRepo.default_constructed.repositories ++ List.map CoprRepoPart.of_dnf_repo ds = List.map CoprRepoPart.of_dnf_repo ds from rfl, any_map_of_dnf_repo]
    rfl

theorem copr_id_from_repo_id_foreign (x : Str) (h : ¬ "copr:".toList <+: x) :
    copr_id_from_repo_id x = [] := by
  have hs : starts_with x "copr:".toList = false := by
    rw [← Bool.not_eq_true]
    simpa only [starts_with, List.isPrefixOf_iff_prefix] using h
  simp only [copr_id_from_repo_id, hs, Bool.not_false, if_true]

/-- C20: a set id that is not empty is changed neither by `set_id_from_repo_id` nor by
`add_dnf_repo`; after any sequence of `add_dnf_repo` calls on a default-constructed set the
id is `copr_id_from_repo_id` of the first added repo id whose conversion is not empty, and
it is empty when none of the added repo ids starts with `copr:`. -/
theorem set_id_first_assignment_wins :
    (∀ (r : CoprRepo) (x : Str), r.id ≠ [] → r.set_id_from_repo_id x = r) ∧
    (∀ (r : CoprRepo) (d : DnfRepo), r.id ≠ [] → (r.add_dnf_repo d).id = r.id) ∧
    (∀ ds : List DnfRepo,
      (ds.foldl CoprRepo.add_dnf_repo CoprRepo.default_constructed).id
        = ((ds.map (fun d => copr_id_from_repo_id d.id)).find? (fun x => x ≠ [])).getD []) ∧
    (∀ ds : List DnfRepo, (∀ d ∈ ds, ¬ "copr:".toList <+: d.id) →
      (ds.foldl CoprRepo.add_dnf_repo CoprRepo.default_constructed).id = []) := by
  have h3 : ∀ ds : List DnfRepo,
      (ds.foldl CoprRepo.add_dnf_repo CoprRepo.default_constructed).id
        = ((ds.map (fun d => copr_id_from_repo_id d.id)).find? (fun x => x ≠ [])).getD [] := by
    intro ds
    have := (add_dnf_repo_foldl ds CoprRepo.default_constructed).2.2.2.2
    rw [this]
    simp [CoprRepo.default_constructed]
  refine ⟨?_, ?_, h3, ?_⟩
  · intro r x h
    simp [CoprRepo.set_id_from_repo_id, h]
  · intro r d h
    rw [(add_dnf_repo_fields r d).2.2.2.2, set_id_from_repo_id_id, if_pos h]
  · intro ds h
    rw [h3]
    have : (ds.map (fun d => copr_id_from_repo_id d.id)).find? (fun x => x ≠ []) = none := by
      rw [List.find?_eq_none]
      intro x hx
      obtain ⟨d, hd, rfl⟩ := List.mem_map.mp hx
      simp [copr_id_from_repo_id_foreign d.id (h d hd)]
    rw [this]
    rfl

/-- Witness of C20: a foreign repo, then a multilib part, then a part of another project:
the id of the set is the project of the second. -/
theorem set_id_first_assignment_wins_witness :
    ([{ id := "fedora".toList, enabled := true },
      { id := "copr:copr.fedorainfracloud.org:group_copr:copr-dev:ml".toList, enabled := true },
      { id := "copr:copr.fedorainfracloud.org:user:other".toList, enabled := false }].foldl
        CoprRepo.add_dnf_repo CoprRepo.default_constructed).id
      = "copr.fedorainfracloud.org/@copr/copr-dev".toList ∧
    ([({ id := "fedora".toList, enabled := true } : DnfRepo),
      { id := "updates".toList, enabled := true }].foldl
        CoprRepo.add_dnf_repo CoprRepo.default_constructed).id = [] :=
  ⟨(set_id_first_assignment_wins.2.2.1 _).trans (by decide),
   set_id_first_assignment_wins.2.2.2 _ (by decide)⟩

/-! ## Lemmas: option overrides -/

/-- One option: which member it sets. -/
theorem update_from_json_opt_cases (p q : CoprRepoPart) (key : Str) (val : Json)
    (h : p.update_from_json_opt key val = Except.ok q) :
    (key = "cost".toList ∧ ∃ n, opts_int val = Except.ok n ∧ q = { p with cost := n }) ∨
    (key = "priority".toList ∧ ∃ n, opts_int val = Except.ok n ∧ q = { p with priority := n }) ∨
    (key = "module_hotfixes".toList ∧ q = { p with module_hotfixes := val.boolean_value }) ∨
    (key = "id".toList ∧ ∃ s, val.string_value = Except.ok s ∧ q = { p with id := s }) ∨
    (key = "name".toList ∧ ∃ s, val.string_value = Except.ok s ∧ q = { p with name := s }) ∨
    (key ≠ "cost".toList ∧ key ≠ "priority".toList ∧ key ≠ "module_hotfixes".toList ∧
      key ≠ "id".toList ∧ key ≠ "name".toList ∧ q = p) := by
  unfold CoprRepoPart.update_from_json_opt at h
  by_cases h1 : key = "cost".toList
  · rw [if_pos h1] at h
    obtain ⟨s, hs, h⟩ := (except_bind_eq_ok _ _ _).mp h
    obtain ⟨n, hn, h⟩ := (except_bind_eq_ok _ _ _).mp h
    cases h
    exact Or.inl ⟨h1, n, (except_bind_eq_ok _ _ _).mpr ⟨s, hs, hn⟩, rfl⟩
  rw [if_neg h1] at h
  by_cases h2 : key = "priority".toList
  · rw [if_pos h2] at h
    obtain ⟨s, hs, h⟩ := (except_bind_eq_ok _ _ _).mp h
    obtain ⟨n, hn, h⟩ := (except_bind_eq_ok _ _ _).mp h
    cases h
    exact Or.inr (Or.inl ⟨h2, n, (except_bind_eq_ok _ _ _).mpr ⟨s, hs, hn⟩, rfl⟩)
  rw [if_neg h2] at h
  by_cases h3 : key = "module_hotfixes".toList
  · rw [if_pos h3] at h
    cases h
    exact Or.inr (Or.inr (Or.inl ⟨h3, rfl⟩))
  rw [if_neg h3] at h
  by_cases h4 : key = "id".toList
  · rw [if_pos h4] at h
    obtain ⟨s, hs, h⟩ := (except_bind_eq_ok _ _ _).mp h
    cases h
    exact Or.inr (Or.inr (Or.inr (Or.inl ⟨h4, s, hs, rfl⟩)))
  rw [if_neg h4] at h
  by_cases h5 : key = "name".toList
  · rw [if_pos h5] at h
    obtain ⟨s, hs, h⟩ := (except_bind_eq_ok _ _ _).mp h
    cases h
    exact Or.inr (Or.inr (Or.inr (Or.inr (Or.inl ⟨h5, s, hs, rfl⟩))))
  rw [if_neg h5] at h
  cases h
  exact Or.inr (Or.inr (Or.inr (Or.inr (Or.inr ⟨h1, h2, h3, h4, h5, rfl⟩))))

/-- A member `g` that only the option `k` sets, from the value read by `rd`: after the
loop over the keys it holds what `rd` reads for `k` if `k` is among the keys, and its old
value if not. -/
theorem update_from_json_opts_loop_member {α : Type} (g : CoprRepoPart → α) (k : Str)
    (rd : Json → Except Error α)
    (hstep : ∀ (p q : CoprRepoPart) (key : Str) (val : Json),
      p.update_from_json_opt key val = Except.ok q →
        (key = k → rd val = Except.ok (g q)) ∧ (key ≠ k → g q = g p))
    (opts : Json) :
    ∀ (keys : List Str) (p q : CoprRepoPart),
      CoprRepoPart.update_from_json_opts_loop opts keys p = Except.ok q →
        (k ∈ keys → rd (opts.get_dict_item k) = Except.ok (g q)) ∧ (k ∉ keys → g q = g p) := by
  intro keys
  induction keys with
  | nil =>
    intro p q h
    cases h
    exact ⟨fun hm => absurd hm (by simp), fun _ => rfl⟩
  | cons key rest ih =>
    intro p q h
    unfold CoprRepoPart.update_from_json_opts_loop at h
    obtain ⟨p1, h1, h2⟩ := (except_bind_eq_ok _ _ _).mp h
    have s1 := hstep p p1 key _ h1
    have s2 := ih p1 q h2
    constructor
    · intro hm
      by_cases hr : k ∈ rest
      · exact s2.1 hr
      · have hk : key = k := by
          rcases List.mem_cons.mp hm with e | e
          · exact e.symm
          · exact absurd e hr
        rw [s2.2 hr]
        rw [← hk]
        exact hk ▸ s1.1 hk
    · intro hm
      simp only [List.mem_cons, not_or] at hm
      rw [s2.2 hm.2]
      exact s1.2 (fun e => hm.1 e.symm)

/-- The member `g` after `update_from_json_opts`: what the `opts` give for `k`, read by
`rd`, when they have the key, and the old value when they do not. -/
theorem update_from_json_opts_member {α : Type} (g : CoprRepoPart → α) (k : Str)
    (rd : Json → Except Error α)
    (hstep : ∀ (p q : CoprRepoPart) (key : Str) (val : Json),
      p.update_from_json_opt key val = Except.ok q →
        (key = k → rd val = Except.ok (g q)) ∧ (key ≠ k → g q = g p))
    (p q : CoprRepoPart) (json : Json) (h : p.update_from_json_opts json = Except.ok q) :
    (∀ val, opts_value json k = some val → rd val = Except.ok (g q)) ∧
    (opts_value json k = none → g q = g p) := by
  unfold CoprRepoPart.update_from_json_opts at h
  by_cases ho : json.has_key "opts".toList = true
  · simp only [ho, Bool.not_true, Bool.false_eq_true, if_false] at h
    obtain ⟨keys, hk, h2⟩ := (except_bind_eq_ok _ _ _).mp h
    have hl := update_from_json_opts_loop_member g k rd hstep _ keys p q h2
    have hmem := mem_keys_iff_has_key _ keys k hk
    unfold opts_value
    constructor
    · intro val hv
      split at hv
      · next hh =>
        cases hv
        exact hl.1 (hmem.mpr hh)
      · cases hv
    · intro hv
      split at hv
      · cases hv
      · next hh => exact hl.2 (fun hm => hh (hmem.mp hm))
  · have ho2 : json.has_key "opts".toList = false := by simpa using ho
    simp only [ho2, Bool.not_false, if_true] at h
    cases h
    have hnull : json.get_dict_item "opts".toList = Json.null := by
      cases json with
      | object members =>
        simp only [Json.has_key] at ho2
        simp only [Json.get_dict_item]
        cases hl : members.lookup "opts".toList with
        | none => rfl
        | some v => rw [hl] at ho2; simp at ho2
      | null => rfl
      | boolean b => rfl
      | integer i => rfl
      | string s => rfl
      | array items => rfl
    unfold opts_value
    rw [hnull]
    exact ⟨fun val hv => by simp [Json.has_key] at hv, fun _ => rfl⟩

/-! ## Lemmas: `std::stoi` of a printed integer -/

theorem digitChar_isDigit (k : Nat) (hk : k < 10) : (Nat.digitChar k).isDigit = true := by
  interval_cases k <;> rfl

theorem toDigitsCore_all_digits (fuel : Nat) :
    ∀ (n : Nat) (ds : Str), (∀ c ∈ ds, c.isDigit = true) →
      ∀ c ∈ Nat.toDigitsCore 10 fuel n ds, c.isDigit = true := by
  induction fuel with
  | zero => intro n ds h; simpa [Nat.toDigitsCore] using h
  | succ fuel ih =>
    intro n ds h
    unfold Nat.toDigitsCore
    simp only
    have hd : ∀ c ∈ Nat.digitChar (n % 10) :: ds, c.isDigit = true := by
      intro c hc
      rcases List.mem_cons.mp hc with e | e
      · rw [e]; exact digitChar_isDigit _ (Nat.mod_lt _ (by norm_num))
      · exact h c e
    split
    · exact hd
    · exact ih _ _ hd

theorem toDigitsCore_ne_nil (fuel : Nat) :
    ∀ (n : Nat) (ds : Str), ds ≠ [] → Nat.toDigitsCore 10 fuel n ds ≠ [] := by
  induction fuel with
  | zero => intro n ds h; simpa [Nat.toDigitsCore] using h
  | succ fuel ih =>
    intro n ds _
    unfold Nat.toDigitsCore
    simp only
    split
    · simp
    · exact ih _ _ (by simp)

theorem to_string_all_digits (n : Nat) : ∀ c ∈ to_string n, c.isDigit = true :=
  toDigitsCore_all_digits (n + 1) n [] (by simp)

theorem to_string_ne_nil_all (n : Nat) : to_string n ≠ [] := by
  unfold to_string Nat.toDigits Nat.toDigitsCore
  simp only
  split
  · simp
  · exact toDigitsCore_ne_nil _ _ _ (by simp)

theorem isDigit_toNat (c : Char) (h : c.isDigit = true) : 48 ≤ c.toNat ∧ c.toNat ≤ 57 := by
  simp only [Char.isDigit, Bool.and_eq_true, decide_eq_true_eq] at h
  exact ⟨h.1, h.2⟩

theorem isDigit_not_space (c : Char) (h : c.isDigit = true) : isspace c = false := by
  have ht := isDigit_toNat c h
  have h1 : c ≠ ' ' := by
    intro e
    rw [e] at ht
    exact absurd ht.1 (by decide)
  simp only [isspace, h1, decide_False, Bool.false_or, Bool.and_eq_false_imp, decide_eq_true_eq,
    decide_eq_false_iff_not]
  intro _
  omega

theorem isDigit_not_sign (c : Char) (h : c.isDigit = true) : c ≠ '-' ∧ c ≠ '+' := by
  have ht := isDigit_toNat c h
  constructor <;> intro e <;> rw [e] at ht <;> exact absurd ht.1 (by decide)

/-- `std::stoi` of a non-empty run of digits whose value fits an `int`. -/
theorem stoi_digits (ds : Str) (hne : ds ≠ []) (hd : ∀ c ∈ ds, c.isDigit = true)
    (hv : digits_value ds ≤ 2147483647) : stoi ds = Except.ok (digits_value ds : Int) := by
  cases ds with
  | nil => exact absurd rfl hne
  | cons c cs =>
    have hc := hd c (by simp)
    have hsp := isDigit_not_space c hc
    have hsg := isDigit_not_sign c hc
    have h1 : (c :: cs).dropWhile isspace = c :: cs := by
      simp [List.dropWhile, hsp]
    have h2 : (c :: cs).takeWhile Char.isDigit = c :: cs :=
      List.takeWhile_eq_self_iff.mpr hd
    unfold stoi
    simp only [h1, List.head?_cons, Option.some.injEq, hsg.1, hsg.2, or_self, if_false, h2]
    split
    · next hbad => simp at hbad
    · split
      · next hbad => exfalso; omega
      · rfl

/-- `std::stoi` of a minus sign and a non-empty run of digits whose negated value fits an
`int`. -/
theorem stoi_minus_digits (ds : Str) (hne : ds ≠ []) (hd : ∀ c ∈ ds, c.isDigit = true)
    (hv : digits_value ds ≤ 2147483648) :
    stoi ('-' :: ds) = Except.ok (-(digits_value ds : Int)) := by
  have h1 : ('-' :: ds).dropWhile isspace = '-' :: ds := by
    simp [List.dropWhile, isspace]
  have h2 : ds.takeWhile Char.isDigit = ds := List.takeWhile_eq_self_iff.mpr hd
  unfold stoi
  simp only [h1, List.head?_cons, true_or, if_true, List.drop_succ_cons, List.drop_zero, h2, hne,
    if_false]
  split
  · next hbad => exfalso; omega
  · rfl

/-- An `int` that json-c prints and `std::stoi` reads back is itself. -/
theorem opts_int_integer (i : Int) (h1 : -2147483648 ≤ i) (h2 : i ≤ 2147483647) :
    opts_int (Json.integer i) = Except.ok i := by
  unfold opts_int
  simp only [Json.string_value, bind, Except.bind, pure, Except.pure, int_to_string]
  by_cases hneg : i < 0
  · simp only [hneg, if_true]
    rw [stoi_minus_digits _ (to_string_ne_nil_all _) (to_string_all_digits _)
      (by rw [digits_value_to_string]; omega), digits_value_to_string]
    congr 1
    omega
  · simp only [hneg, if_false]
    rw [stoi_digits _ (to_string_ne_nil_all _) (to_string_all_digits _)
      (by rw [digits_value_to_string]; omega), digits_value_to_string]
    congr 1
    omega

theorem update_from_json_opt_cost (p q : CoprRepoPart) (key : Str) (val : Json)
    (h : p.update_from_json_opt key val = Except.ok q) :
    (key = "cost".toList → opts_int val = Except.ok q.cost) ∧
    (key ≠ "cost".toList → q.cost = p.cost) := by
  rcases update_from_json_opt_cases p q key val h with ⟨hk, n, hn, rfl⟩ | ⟨hk, n, hn, rfl⟩ |
    ⟨hk, rfl⟩ | ⟨hk, s, hs, rfl⟩ | ⟨hk, s, hs, rfl⟩ | ⟨h1, h2, h3, h4, h5, rfl⟩
  · exact ⟨fun _ => hn, fun hne => absurd hk hne⟩
  · exact ⟨fun e => absurd (hk.symm.trans e) (by decide), fun _ => rfl⟩
  · exact ⟨fun e => absurd (hk.symm.trans e) (by decide), fun _ => rfl⟩
  · exact ⟨fun e => absurd (hk.symm.trans e) (by decide), fun _ => rfl⟩
  · exact ⟨fun e => absurd (hk.symm.trans e) (by decide), fun _ => rfl⟩
  · exact ⟨fun e => absurd e h1, fun _ => rfl⟩

theorem update_from_json_opt_priority (p q : CoprRepoPart) (key : Str) (val : Json)
    (h : p.update_from_json_opt key val = Except.ok q) :
    (key = "priority".toList → opts_int val = Except.ok q.priority) ∧
    (key ≠ "priority".toList → q.priority = p.priority) := by
  rcases update_from_json_opt_cases p q key val h with ⟨hk, n, hn, rfl⟩ | ⟨hk, n, hn, rfl⟩ |
    ⟨hk, rfl⟩ | ⟨hk, s, hs, rfl⟩ | ⟨hk, s, hs, rfl⟩ | ⟨h1, h2, h3, h4, h5, rfl⟩
  · exact ⟨fun e => absurd (hk.symm.trans e) (by decide), fun _ => rfl⟩
  · exact ⟨fun _ => hn, fun hne => absurd hk hne⟩
  · exact ⟨fun e => absurd (hk.symm.trans e) (by decide), fun _ => rfl⟩
  · exact ⟨fun e => absurd (hk.symm.trans e) (by decide), fun _ => rfl⟩
  · exact ⟨fun e => absurd (hk.symm.trans e) (by decide), fun _ => rfl⟩
  · exact ⟨fun e => absurd e h2, fun _ => rfl⟩

theorem update_from_json_opt_module_hotfixes (p q : CoprRepoPart) (key : Str) (val : Json)
    (h : p.update_from_json_opt key val = Except.ok q) :
    (key = "module_hotfixes".toList →
      (Except.ok val.boolean_value : Except Error Bool) = Except.ok q.module_hotfixes) ∧
    (key ≠ "module_hotfixes".toList → q.module_hotfixes = p.module_hotfixes) := by
  rcases update_from_json_opt_cases p q key val h with ⟨hk, n, hn, rfl⟩ | ⟨hk, n, hn, rfl⟩ |
    ⟨hk, rfl⟩ | ⟨hk, s, hs, rfl⟩ | ⟨hk, s, hs, rfl⟩ | ⟨h1, h2, h3, h4, h5, rfl⟩
  · exact ⟨fun e => absurd (hk.symm.trans e) (by decide), fun _ => rfl⟩
  · exact ⟨fun e => absurd (hk.symm.trans e) (by decide), fun _ => rfl⟩
  · exact ⟨fun _ => rfl, fun hne => absurd hk hne⟩
  · exact ⟨fun e => absurd (hk.symm.trans e) (by decide), fun _ => rfl⟩
  · exact ⟨fun e => absurd (hk.symm.trans e) (by decide), fun _ => rfl⟩
  · exact ⟨fun e => absurd e h3, fun _ => rfl⟩

theorem update_from_json_opt_id (p q : CoprRepoPart) (key : Str) (val : Json)
    (h : p.update_from_json_opt key val = Except.ok q) :
    (key = "id".toList → val.string_value = Except.ok q.id) ∧
    (key ≠ "id".toList → q.id = p.id) := by
  rcases update_from_json_opt_cases p q key val h with ⟨hk, n, hn, rfl⟩ | ⟨hk, n, hn, rfl⟩ |
    ⟨hk, rfl⟩ | ⟨hk, s, hs, rfl⟩ | ⟨hk, s, hs, rfl⟩ | ⟨h1, h2, h3, h4, h5, rfl⟩
  · exact ⟨fun e => absurd (hk.symm.trans e) (by decide), fun _ => rfl⟩
  · exact ⟨fun e => absurd (hk.symm.trans e) (by decide), fun _ => rfl⟩
  · exact ⟨fun e => absurd (hk.symm.trans e) (by decide), fun _ => rfl⟩
  · exact ⟨fun _ => hs, fun hne => absurd hk hne⟩
  · exact ⟨fun e => absurd (hk.symm.trans e) (by decide), fun _ => rfl⟩
  · exact ⟨fun e => absurd e h4, fun _ => rfl⟩

theorem update_from_json_opt_name (p q : CoprRepoPart) (key : Str) (val : Json)
    (h : p.update_from_json_opt key val = Except.ok q) :
    (key = "name".toList → val.string_value = Except.ok q.name) ∧
    (key ≠ "name".toList → q.name = p.name) := by
  rcases update_from_json_opt_cases p q key val h with ⟨hk, n, hn, rfl⟩ | ⟨hk, n, hn, rfl⟩ |
    ⟨hk, rfl⟩ | ⟨hk, s, hs, rfl⟩ | ⟨hk, s, hs, rfl⟩ | ⟨h1, h2, h3, h4, h5, rfl⟩
  · exact ⟨fun e => absurd (hk.symm.trans e) (by decide), fun _ => rfl⟩
  · exact ⟨fun e => absurd (hk.symm.trans e) (by decide), fun _ => rfl⟩
  · exact ⟨fun e => absurd (hk.symm.trans e) (by decide), fun _ => rfl⟩
  · exact ⟨fun e => absurd (hk.symm.trans e) (by decide), fun _ => rfl⟩
  · exact ⟨fun _ => hs, fun hne => absurd hk hne⟩
  · exact ⟨fun e => absurd e h5, fun _ => rfl⟩

/-- A member after one fragment: the value its `opts` give, or the old one. -/
theorem member_after_opts {α : Type} (g : CoprRepoPart → α) (k : Str)
    (rd : Json → Except Error α)
    (hstep : ∀ (p q : CoprRepoPart) (key : Str) (val : Json),
      p.update_from_json_opt key val = Except.ok q →
        (key = k → rd val = Except.ok (g q)) ∧ (key ≠ k → g q = g p))
    (p q : CoprRepoPart) (json : Json) (h : p.update_from_json_opts json = Except.ok q) :
    g q = ((match opts_value json k with
            | some val => (rd val).toOption
            | none => none).getD (g p)) ∧
    ((opts_value json k).isSome →
      (match opts_value json k with
       | some val => (rd val).toOption
       | none => none).isSome) := by
  have hm := update_from_json_opts_member g k rd hstep p q json h
  cases hv : opts_value json k with
  | none => exact ⟨hm.2 hv, fun hs => by simp at hs⟩
  | some val =>
    have := hm.1 val hv
    simp only [this, Except.toOption, Option.getD_some, Option.isSome_some, implies_true,
      and_self]

/-- A member after two fragments: the later override wins. -/
theorem member_later_wins {α : Type} (g : CoprRepoPart → α) (k : Str)
    (rd : Json → Except Error α)
    (hstep : ∀ (p q : CoprRepoPart) (key : Str) (val : Json),
      p.update_from_json_opt key val = Except.ok q →
        (key = k → rd val = Except.ok (g q)) ∧ (key ≠ k → g q = g p))
    (p p1 p2 : CoprRepoPart) (A B : Json)
    (hA : p.update_from_json_opts A = Except.ok p1)
    (hB : p1.update_from_json_opts B = Except.ok p2) :
    g p2 = later_wins
      (match opts_value B k with
       | some val => (rd val).toOption
       | none => none)
      (match opts_value A k with
       | some val => (rd val).toOption
       | none => none) (g p) := by
  have a := (member_after_opts g k rd hstep p p1 A hA).1
  have b := (member_after_opts g k rd hstep p1 p2 B hB).1
  rw [b, a]
  cases (match opts_value B k with
       | some val => (rd val).toOption
       | none => none) with
  | some x => rfl
  | none =>
    cases (match opts_value A k with
       | some val => (rd val).toOption
       | none => none) with
    | some y => rfl
    | none => rfl

/-! ## Theorems: option overrides and dependency parts -/

/-- C14: after `update_from_json_opts` with a fragment A and then with a fragment B, each
of cost, priority, module_hotfixes, id and name holds the value of the `opts` of B if they
have the key, else the value of the `opts` of A if they have it, else what the part held
before (a key the `opts` have is one whose value could be read); the other members are
unchanged; an option with another key changes nothing, a fragment without `opts` changes
nothing, and an integer value that fits an `int` is read as itself. -/
theorem later_application_wins (p p1 p2 : CoprRepoPart) (A B : Json)
    (hA : p.update_from_json_opts A = Except.ok p1)
    (hB : p1.update_from_json_opts B = Except.ok p2) :
    p2.cost = later_wins (opts_int_value B "cost".toList) (opts_int_value A "cost".toList)
      p.cost ∧
    p2.priority = later_wins (opts_int_value B "priority".toList)
      (opts_int_value A "priority".toList) p.priority ∧
    p2.module_hotfixes = later_wins (opts_bool_value B "module_hotfixes".toList)
      (opts_bool_value A "module_hotfixes".toList) p.module_hotfixes ∧
    p2.id = later_wins (opts_string_value B "id".toList) (opts_string_value A "id".toList)
      p.id ∧
    p2.name = later_wins (opts_string_value B "name".toList)
      (opts_string_value A "name".toList) p.name ∧
    p2.baseurl = p.baseurl ∧ p2.enabled = p.enabled ∧ p2.gpgkey = p.gpgkey ∧
    (∀ j ∈ [A, B],
      ((opts_value j "cost".toList).isSome → (opts_int_value j "cost".toList).isSome) ∧
      ((opts_value j "priority".toList).isSome →
        (opts_int_value j "priority".toList).isSome) ∧
      ((opts_value j "module_hotfixes".toList).isSome →
        (opts_bool_value j "module_hotfixes".toList).isSome) ∧
      ((opts_value j "id".toList).isSome → (opts_string_value j "id".toList).isSome) ∧
      ((opts_value j "name".toList).isSome → (opts_string_value j "name".toList).isSome)) ∧
    (∀ (q : CoprRepoPart) (key : Str) (val : Json),
      key ∉ ["cost".toList, "priority".toList, "module_hotfixes".toList, "id".toList,
        "name".toList] → q.update_from_json_opt key val = Except.ok q) ∧
    (∀ (q : CoprRepoPart) (j : Json), j.has_key "opts".toList = false →
      q.update_from_json_opts j = Except.ok q) ∧
    (∀ i : Int, -2147483648 ≤ i → i ≤ 2147483647 → opts_int (Json.integer i) = Except.ok i) := by
  have kA := update_from_json_opts_keeps p p1 A hA
  have kB := update_from_json_opts_keeps p1 p2 B hB
  refine ⟨member_later_wins _ _ _ update_from_json_opt_cost p p1 p2 A B hA hB,
    member_later_wins _ _ _ update_from_json_opt_priority p p1 p2 A B hA hB,
    member_later_wins _ _ _ update_from_json_opt_module_hotfixes p p1 p2 A B hA hB,
    member_later_wins _ _ _ update_from_json_opt_id p p1 p2 A B hA hB,
    member_later_wins _ _ _ update_from_json_opt_name p p1 p2 A B hA hB,
    kB.1.trans kA.1, kB.2.1.trans kA.2.1, kB.2.2.1.trans kA.2.2.1, ?_, ?_, ?_,
    opts_int_integer⟩
  · intro j hj
    have hj2 : ∃ a b : CoprRepoPart, a.update_from_json_opts j = Except.ok b := by
      rcases List.mem_cons.mp hj with e | e
      · exact ⟨p, p1, e ▸ hA⟩
      · rcases List.mem_cons.mp e with e2 | e2
        · exact ⟨p1, p2, e2 ▸ hB⟩
        · simp at e2
    obtain ⟨a, b, hab⟩ := hj2
    exact ⟨(member_after_opts _ _ _ update_from_json_opt_cost a b j hab).2,
      (member_after_opts _ _ _ update_from_json_opt_priority a b j hab).2,
      (member_after_opts _ _ _ update_from_json_opt_module_hotfixes a b j hab).2,
      (member_after_opts _ _ _ update_from_json_opt_id a b j hab).2,
      (member_after_opts _ _ _ update_from_json_opt_name a b j hab).2⟩
  · intro q key val hk
    simp only [List.mem_cons, List.mem_singleton, not_or, List.not_mem_nil, or_false] at hk
    simp only [CoprRepoPart.update_from_json_opt, hk.1, hk.2.1, hk.2.2.1, hk.2.2.2.1,
      hk.2.2.2.2, if_false]
    rfl
  · intro q j hj
    simp only [CoprRepoPart.update_from_json_opts, hj, Bool.not_false, if_true]
    rfl

/-- Witness of C14: a part, a fragment that sets cost, id and name, and a fragment that
sets cost, priority and an unknown key: the second cost wins, the id and the name of the
first stay, the base URL is untouched. -/
theorem later_application_wins_witness :
    override_final.cost = 7 ∧ override_final.priority = 10 ∧
    override_final.id = "first-id".toList ∧ override_final.name = "first name".toList ∧
    override_final.baseurl = "url".toList :=
  have h := later_application_wins override_start override_middle override_final
    first_fragment second_fragment rfl rfl
  ⟨h.1.trans (by decide), h.2.1.trans (by decide), h.2.2.2.1.trans (by decide),
    h.2.2.2.2.1.trans (by decide), h.2.2.2.2.2.1.trans (by decide)⟩

/-- C13: the part of a `copr` dependency with owner `o` and project name `pn`, for the
results URL `r` and the chroot `c`, has the key URL `r/o/pn/pubkey.gpg` and the base URL
`r/o/pn/c/`, and its cost, priority, module_hotfixes, id and name are what the `opts` of
the dependency give, with 0, 99, false, the empty id and the empty name for a key they
do not have: a cost or priority given as the JSON number `i` that fits an `int` is `i`,
one given as the string of the decimal digits of `n` is `n`, module_hotfixes given as the
JSON boolean `b` is `b`, an id or a name given as the JSON string `s` is `s`. -/
theorem copr_dependency_part (indet : Bool) (dep : Json) (r c o pn : Str) (q : CoprRepoPart)
    (ho : (dep.get_dict_item "data".toList).get_dict_item "owner".toList = Json.string o)
    (hp : (dep.get_dict_item "data".toList).get_dict_item "projectname".toList = Json.string pn)
    (hq : ({ enabled := indet } : CoprRepoPart).update_from_json_opts dep = Except.ok q) :
    ∃ part, CoprRepoPart.of_copr_dependency indet dep r c = Except.ok part ∧
      part.gpgkey = r ++ "/".toList ++ o ++ "/".toList ++ pn ++ "/pubkey.gpg".toList ∧
      part.baseurl = r ++ "/".toList ++ o ++ "/".toList ++ pn ++ "/".toList ++ c ++ "/".toList ∧
      part.cost = (opts_int_value dep "cost".toList).getD 0 ∧
      part.priority = (opts_int_value dep "priority".toList).getD 99 ∧
      part.module_hotfixes = (opts_bool_value dep "module_hotfixes".toList).getD false ∧
      part.id = (opts_string_value dep "id".toList).getD [] ∧
      part.name = (opts_string_value dep "name".toList).getD [] ∧
      (opts_value dep "cost".toList = none → part.cost = 0) ∧
      (opts_value dep "priority".toList = none → part.priority = 99) ∧
      (opts_value dep "module_hotfixes".toList = none → part.module_hotfixes = false) ∧
      (opts_value dep "id".toList = none → part.id = []) ∧
      (opts_value dep "name".toList = none → part.name = []) ∧
      (∀ i : Int, -2147483648 ≤ i → i ≤ 2147483647 →
        (opts_value dep "cost".toList = some (Json.integer i) → part.cost = i) ∧
        (opts_value dep "priority".toList = some (Json.integer i) → part.priority = i)) ∧
      (∀ n : Nat, n ≤ 2147483647 →
        (opts_value dep "cost".toList = some (Json.string (to_string n)) → part.cost = n) ∧
        (opts_value dep "priority".toList = some (Json.string (to_string n)) →
          part.priority = n)) ∧
      (∀ b : Bool, opts_value dep "module_hotfixes".toList = some (Json.boolean b) →
        part.module_hotfixes = b) ∧
      (∀ s : Str,
        (opts_value dep "id".toList = some (Json.string s) → part.id = s) ∧
        (opts_value dep "name".toList = some (Json.string s) → part.name = s)) := by
  have hcost : q.cost = (opts_int_value dep "cost".toList).getD 0 :=
    (member_after_opts _ _ _ update_from_json_opt_cost _ q dep hq).1
  have hprio : q.priority = (opts_int_value dep "priority".toList).getD 99 :=
    (member_after_opts _ _ _ update_from_json_opt_priority _ q dep hq).1
  have hmh : q.module_hotfixes = (opts_bool_value dep "module_hotfixes".toList).getD false :=
    (member_after_opts _ _ _ update_from_json_opt_module_hotfixes _ q dep hq).1
  have hid : q.id = (opts_string_value dep "id".toList).getD [] :=
    (member_after_opts _ _ _ update_from_json_opt_id _ q dep hq).1
  have hname : q.name = (opts_string_value dep "name".toList).getD [] :=
    (member_after_opts _ _ _ update_from_json_opt_name _ q dep hq).1
  have hstr : ∀ n : Nat, n ≤ 2147483647 →
      opts_int (Json.string (to_string n)) = Except.ok (n : Int) := by
    intro n hn
    have := stoi_digits (to_string n) (to_string_ne_nil_all n) (to_string_all_digits n)
      (by rw [digits_value_to_string]; exact hn)
    rw [digits_value_to_string] at this
    exact this
  refine ⟨(q.set_copr_pub_key r o pn).set_copr_baseurl r o pn c, ?_, rfl, rfl,
    hcost, hprio, hmh, hid, hname, ?_, ?_, ?_, ?_, ?_, ?_, ?_, ?_, ?_⟩
  · unfold CoprRepoPart.of_copr_dependency
    refine (except_bind_eq_ok _ _ _).mpr ⟨q, hq, ?_⟩
    refine (except_bind_eq_ok _ _ _).mpr ⟨o, by rw [ho]; rfl, ?_⟩
    refine (except_bind_eq_ok _ _ _).mpr ⟨pn, by rw [hp]; rfl, ?_⟩
    rfl
  · intro hv
    show q.cost = 0
    rw [hcost, opts_int_value, hv]
    rfl
  · intro hv
    show q.priority = 99
    rw [hprio, opts_int_value, hv]
    rfl
  · intro hv
    show q.module_hotfixes = false
    rw [hmh, opts_bool_value, hv]
    rfl
  · intro hv
    show q.id = []
    rw [hid, opts_string_value, hv]
    rfl
  · intro hv
    show q.name = []
    rw [hname, opts_string_value, hv]
    rfl
  · intro i h1 h2
    constructor
    · intro hv
      show q.cost = i
      rw [hcost, opts_int_value, hv]
      simp only [opts_int_integer i h1 h2, Except.toOption, Option.getD_some]
    · intro hv
      show q.priority = i
      rw [hprio, opts_int_value, hv]
      simp only [opts_int_integer i h1 h2, Except.toOption, Option.getD_some]
  · intro n hn
    constructor
    · intro hv
      show q.cost = n
      rw [hcost, opts_int_value, hv]
      simp only [hstr n hn, Except.toOption, Option.getD_some]
    · intro hv
      show q.priority = n
      rw [hprio, opts_int_value, hv]
      simp only [hstr n hn, Except.toOption, Option.getD_some]
  · intro b hv
    show q.module_hotfixes = b
    rw [hmh, opts_bool_value, hv]
    rfl
  · intro s
    constructor
    · intro hv
      show q.id = s
      rw [hid, opts_string_value, hv]
      rfl
    · intro hv
      show q.name = s
      rw [hname, opts_string_value, hv]
      rfl

/-- Witness of C13: a `copr` dependency whose options give the cost as the number 70, the
priority as the string `5`, module_hotfixes, an id and a name has a part with these five
values; the `copr` dependency of the sample descriptor, whose options give an id only, has
a part with that id and the defaults. -/
theorem copr_dependency_part_witness :
    (∃ part, CoprRepoPart.of_copr_dependency false priced_copr_dependency
          "https://download.copr.example/results".toList "fedora-39-x86_64".toList
        = Except.ok part ∧
      part.gpgkey = "https://download.copr.example/results/@copr/dep/pubkey.gpg".toList ∧
      part.baseurl = "https://download.copr.example/results/@copr/dep/fedora-39-x86_64/".toList ∧
      part.cost = 70 ∧ part.priority = 5 ∧ part.module_hotfixes = true ∧
      part.id = "coprdep:priced".toList ∧ part.name = "Priced dependency".toList) ∧
    (∃ part, CoprRepoPart.of_copr_dependency false sample_copr_dependency
          "https://download.copr.example/results".toList "fedora-$releasever-$basearch".toList
        = Except.ok part ∧
      part.cost = 0 ∧ part.priority = 99 ∧ part.module_hotfixes = false ∧
      part.id = "coprdep:dep".toList ∧ part.name = []) := by
  constructor
  · obtain ⟨part, h0, h1, h2, _, _, _, _, _, _, _, _, _, _, hi, hn, hb, hs⟩ :=
      copr_dependency_part false priced_copr_dependency
        "https://download.copr.example/results".toList "fedora-39-x86_64".toList
        "@copr".toList "dep".toList
        { id := "coprdep:priced".toList, enabled := false, name := "Priced dependency".toList,
          priority := 5, cost := 70, module_hotfixes := true } rfl rfl rfl
    exact ⟨part, h0, h1.trans (by decide), h2.trans (by decide),
      (hi 70 (by decide) (by decide)).1 rfl, (hn 5 (by decide)).2 rfl, hb true rfl,
      (hs "coprdep:priced".toList).1 rfl, (hs "Priced dependency".toList).2 rfl⟩
  · obtain ⟨part, h0, _, _, _, _, _, _, _, hc, hp, hm, _, hn, _, _, _, hs⟩ :=
      copr_dependency_part false sample_copr_dependency
        "https://download.copr.example/results".toList "fedora-$releasever-$basearch".toList
        "@copr".toList "dep".toList { id := "coprdep:dep".toList, enabled := false } rfl rfl rfl
    exact ⟨part, h0, hc rfl, hp rfl, hm rfl, (hs "coprdep:dep".toList).1 rfl, hn rfl⟩

/-! ## Lemmas: replacement text that is a format string -/

theorem format_scan_of_dollar_literal (m pre suf : Str) :
    ∀ fmt : Str, dollar_literal fmt = true →
      format_scan m pre suf FormatState.text fmt = fmt ∧
      ((∀ d rest, fmt = d :: rest → format_special d = false) →
        format_scan m pre suf FormatState.after_dollar fmt = dollar :: fmt) := by
  intro fmt
  induction fmt with
  | nil => intro _; exact ⟨rfl, fun _ => rfl⟩
  | cons c rest ih =>
    intro h
    simp only [dollar_literal, Bool.and_eq_true] at h
    obtain ⟨ih1, ih2⟩ := ih h.2
    constructor
    · by_cases hc : c = dollar
      · rw [format_scan, if_pos hc, hc]
        apply ih2
        intro d r hr
        have h1 := h.1
        rw [hr] at h1
        simpa [hc] using h1
      · rw [format_scan, if_neg hc, ih1]
    · intro hs
      have hsp := hs c rest rfl
      simp only [format_special, Bool.or_eq_false_iff, decide_eq_false_iff_not] at hsp
      obtain ⟨⟨⟨⟨h1, h2⟩, h3⟩, h4⟩, h5⟩ := hsp
      rw [format_scan, if_neg h1, if_neg h2, if_neg h3, if_neg h4, ih1]
      simp [h5]

/-- A replacement text without meaningful `$` sequences is inserted as it is. -/
theorem format_expand_of_dollar_literal (m pre suf fmt : Str) (h : dollar_literal fmt = true) :
    format_expand m pre suf fmt = fmt :=
  (format_scan_of_dollar_literal m pre suf fmt h).1

theorem regex_replace_loop_literal_bol (pat fmt : Str) :
    ∀ (s : Str) (k : Nat) (b b2 : Bool) (pre : Str),
      regex_replace_loop (re_literal pat) fmt s b k pre
        = regex_replace_loop (re_literal pat) fmt s b2 k pre := by
  intro s k b b2 pre
  cases s with
  | nil => simp [regex_replace_loop_nil]
  | cons c cs =>
    cases k with
    | succ k => simp only [regex_replace_loop]
    | zero => simp only [regex_replace_loop, re_literal]

/-- A text without an occurrence of the searched text is left as it is. -/
theorem regex_replace_loop_literal_no_occurrence (pat fmt : Str) :
    ∀ (s : Str) (b : Bool) (pre : Str), ¬ pat <:+: s →
      regex_replace_loop (re_literal pat) fmt s b 0 pre = s := by
  intro s
  induction s with
  | nil => intro b pre _; rfl
  | cons c cs ih =>
    intro b pre h
    have h1 : ¬ pat <+: c :: cs := fun hp => h hp.isInfix
    have h2 : ¬ pat <:+: cs := fun hi => h (hi.trans (List.suffix_cons c cs).isInfix)
    rw [regex_replace_loop_literal_no_match _ _ _ _ _ _ h1, ih false _ h2]

/-- The text before the placeholder is copied, when the searched text cannot start in
it. -/
theorem regex_replace_loop_literal_copy (pat fmt rest : Str) :
    ∀ (s : Str) (b : Bool) (pre : Str),
      (∀ u v, s = u ++ v → v ≠ [] → ¬ pat <+: v ++ rest) →
      regex_replace_loop (re_literal pat) fmt (s ++ rest) b 0 pre
        = s ++ regex_replace_loop (re_literal pat) fmt rest false 0 (pre ++ s) := by
  intro s
  induction s with
  | nil =>
    intro b pre _
    rw [List.nil_append, List.nil_append, List.append_nil]
    exact regex_replace_loop_literal_bol _ _ _ _ _ _ _
  | cons c cs ih =>
    intro b pre h
    have h1 : ¬ pat <+: c :: (cs ++ rest) := h [] (c :: cs) rfl (by simp)
    have h2 : ∀ u v, cs = u ++ v → v ≠ [] → ¬ pat <+: v ++ rest :=
      fun u v e hv => h (c :: u) v (by rw [e]; rfl) hv
    rw [List.cons_append, regex_replace_loop_literal_no_match _ _ _ _ _ _ h1, ih false _ h2]
    simp

/-- The searched text `a :: as`, with `a` not in `as`, cannot start inside a text that
does not contain it and is followed by it. -/
theorem not_prefix_before_placeholder (a : Char) (as : Str) (ha : a ∉ as) (s post : Str)
    (hs : ¬ (a :: as) <:+: s) :
    ∀ u v, s = u ++ v → v ≠ [] → ¬ (a :: as) <+: v ++ ((a :: as) ++ post) := by
  intro u v e hv hp
  by_cases hl : (a :: as).length ≤ v.length
  · have h1 : (a :: as) <+: v :=
      List.prefix_of_prefix_length_le hp (List.prefix_append v _) hl
    exact hs (e ▸ (h1.isInfix.trans (List.suffix_append u v).isInfix))
  · have hl2 : v.length ≤ (a :: as).length := by omega
    have h1 : v <+: a :: as :=
      List.prefix_of_prefix_length_le (List.prefix_append v _) hp hl2
    obtain ⟨w, hw⟩ := h1
    have hwne : w ≠ [] := by
      intro e2
      rw [e2, List.append_nil] at hw
      rw [hw] at hl
      exact hl (le_refl _)
    rw [← hw, List.append_assoc] at hp
    have h2 : w <+: (v ++ w) ++ post := by
      rw [List.append_assoc]
      exact (List.prefix_append_right_inj v).mp hp
    cases v with
    | nil => exact hv rfl
    | cons x xs =>
      cases w with
      | nil => exact hwne rfl
      | cons y ys =>
        have e3 : x = a ∧ xs ++ y :: ys = as := by
          simpa using hw
        have e4 : y = x := by
          rw [List.cons_append, List.cons_append, List.cons_prefix_cons] at h2
          exact h2.1
        apply ha
        rw [← e3.2, e4, e3.1]
        simp

/-- Replacing the placeholder `$chroot` of a pattern by a chroot without meaningful `$`
sequences. -/
theorem regex_replace_chroot (pre post c : Str) (hpre : ¬ "$chroot".toList <:+: pre)
    (hpost : ¬ "$chroot".toList <:+: post) (hc : dollar_literal c = true) :
    regex_replace (pre ++ "$chroot".toList ++ post) (re_literal "$chroot".toList) c
      = pre ++ c ++ post := by
  have hp : "$chroot".toList = '$' :: "chroot".toList := rfl
  rw [hp] at hpre hpost ⊢
  unfold regex_replace
  rw [List.append_assoc, regex_replace_loop_literal_copy _ _ _ pre true []
    (not_prefix_before_placeholder '$' "chroot".toList (by decide) pre post hpre)]
  rw [List.cons_append, regex_replace_loop_literal_match _ _ _ _ _ _ ⟨post, rfl⟩,
    format_expand_of_dollar_literal _ _ _ _ hc]
  have hskip := regex_replace_loop_skip (re_literal ('$' :: "chroot".toList)) c
    "chroot".toList post false [] (by decide)
  have hlen : ('$' :: "chroot".toList).length - 1 = "chroot".toList.length := rfl
  rw [hlen, hskip, regex_replace_loop_literal_no_occurrence _ _ _ _ _ hpost]
  simp

/-- C12 as stated fails: in the chroot `custom-$$-x86_64` the two dollar signs are
written as one. -/
theorem external_baseurl_not_literal :
    CoprRepoPart.of_external_baseurl false sample_external_dependency
        "custom-$$-x86_64".toList
      = Except.ok { enabled := false, baseurl := "https://example/custom-$-x86_64/".toList } ∧
    (sample_external_dependency.get_dict_item "data".toList).get_dict_item "pattern".toList
      = Json.string ("https://example/".toList ++ "$chroot".toList ++ "/".toList) ∧
    "https://example/custom-$-x86_64/".toList
      ≠ "https://example/".toList ++ "custom-$$-x86_64".toList ++ "/".toList := by
  refine ⟨rfl, rfl, by decide⟩

/-- C12, amended: for a pattern `pre + "$chroot" + post`, with no `$chroot` in `pre` and
`post`, and a resolved chroot `c` in which no `$` is followed by `$`, `&`, a backquote, a
quote or a digit, the base URL of the part of an `external_baseurl` dependency is
`pre + c + post`; the placeholders `$releasever` and `$basearch` of `c` stay as they
are. -/
theorem external_baseurl_part (indet : Bool) (dep : Json) (pre post c : Str) (q : CoprRepoPart)
    (hpat : (dep.get_dict_item "data".toList).get_dict_item "pattern".toList
      = Json.string (pre ++ "$chroot".toList ++ post))
    (hpre : ¬ "$chroot".toList <:+: pre) (hpost : ¬ "$chroot".toList <:+: post)
    (hc : dollar_literal c = true)
    (hq : ({ enabled := indet } : CoprRepoPart).update_from_json_opts dep = Except.ok q) :
    ∃ part, CoprRepoPart.of_external_baseurl indet dep c = Except.ok part ∧
      part.baseurl = pre ++ c ++ post := by
  refine ⟨{ q with baseurl := pre ++ c ++ post }, ?_, rfl⟩
  unfold CoprRepoPart.of_external_baseurl
  refine (except_bind_eq_ok _ _ _).mpr ⟨q, hq, ?_⟩
  refine (except_bind_eq_ok _ _ _).mpr ⟨pre ++ "$chroot".toList ++ post, by rw [hpat]; rfl, ?_⟩
  simp only [pure, Except.pure]
  rw [regex_replace_chroot pre post c hpre hpost hc]

/-- Witness of C12, amended: the pattern `https://example/$chroot/` and the chroot
`fedora-$releasever-$basearch` give `https://example/fedora-$releasever-$basearch/`. -/
theorem external_baseurl_part_witness :
    ∃ part, CoprRepoPart.of_external_baseurl false sample_external_dependency
        "fedora-$releasever-$basearch".toList = Except.ok part ∧
      part.baseurl = "https://example/fedora-$releasever-$basearch/".toList :=
  external_baseurl_part false sample_external_dependency "https://example/".toList "/".toList
    "fedora-$releasever-$basearch".toList { enabled := false } rfl (by decide) (by decide)
    (by decide) rfl

/-! ## Lemmas: the order of the parts -/

theorem dependencies_loop_cons_ok (deps : Json) (indet : Nat → Bool) (u c : Str) (i : Nat)
    (rest : List Nat) (parts : List CoprRepoPart)
    (h : CoprRepo.dependencies_loop deps indet u c (i :: rest) = Except.ok parts) :
    ∃ pushed others, parts = pushed ++ others ∧
      dependency_pushed (indet i) (deps.get_array_item i) u c pushed ∧
      CoprRepo.dependencies_loop deps indet u c rest = Except.ok others := by
  unfold CoprRepo.dependencies_loop at h
  obtain ⟨type, ht, h⟩ := (except_bind_eq_ok _ _ _).mp h
  dsimp only at h
  by_cases e1 : type = "copr".toList
  · rw [if_pos e1] at h
    obtain ⟨part, hp, h⟩ := (except_bind_eq_ok _ _ _).mp h
    obtain ⟨y, hy, h⟩ := (except_bind_eq_ok _ _ _).mp h
    obtain ⟨others, ho, h⟩ := (except_bind_eq_ok _ _ _).mp h
    cases hy
    cases h
    refine ⟨[part], others, rfl, ⟨type, ht, fun _ => ⟨part, hp, rfl⟩, ?_, ?_⟩, ho⟩
    · intro e
      rw [e] at e1
      exact absurd e1 (by decide)
    · intro hne
      exact absurd e1 hne
  · rw [if_neg e1] at h
    by_cases e2 : type = "external_baseurl".toList
    · rw [if_pos e2] at h
      obtain ⟨part, hp, h⟩ := (except_bind_eq_ok _ _ _).mp h
      obtain ⟨y, hy, h⟩ := (except_bind_eq_ok _ _ _).mp h
      obtain ⟨others, ho, h⟩ := (except_bind_eq_ok _ _ _).mp h
      cases hy
      cases h
      exact ⟨[part], others, rfl, ⟨type, ht, fun e => absurd e e1, fun _ => ⟨part, hp, rfl⟩,
        fun _ hne => absurd e2 hne⟩, ho⟩
    · rw [if_neg e2] at h
      obtain ⟨y, hy, h⟩ := (except_bind_eq_ok _ _ _).mp h
      obtain ⟨others, ho, h⟩ := (except_bind_eq_ok _ _ _).mp h
      cases hy
      cases h
      exact ⟨[], others, rfl, ⟨type, ht, fun e => absurd e e1, fun e => absurd e e2,
        fun _ _ => rfl⟩, ho⟩

/-- A dependency of another type is passed over. -/
theorem dependencies_loop_other_type (deps : Json) (indet : Nat → Bool) (u c : Str) (i : Nat)
    (rest : List Nat) (type : Str)
    (ht : ((deps.get_array_item i).get_dict_item "type".toList).string_value = Except.ok type)
    (h1 : type ≠ "copr".toList) (h2 : type ≠ "external_baseurl".toList) :
    CoprRepo.dependencies_loop deps indet u c (i :: rest)
      = CoprRepo.dependencies_loop deps indet u c rest := by
  rw [CoprRepo.dependencies_loop]
  simp only [ht, bind, Except.bind, h1, h2, if_false, pure, Except.pure]
  cases CoprRepo.dependencies_loop deps indet u c rest <;> rfl

theorem dependencies_loop_range (deps : Json) (indet : Nat → Bool) (u c : Str) :
    ∀ (n s : Nat) (parts : List CoprRepoPart),
      CoprRepo.dependencies_loop deps indet u c (List.range' s n) = Except.ok parts →
      ∃ per : List (List CoprRepoPart), per.length = n ∧ parts = per.flatten ∧
        ∀ j, j < n →
          dependency_pushed (indet (s + j)) (deps.get_array_item (s + j)) u c (per.getD j []) := by
  intro n
  induction n with
  | zero =>
    intro s parts h
    simp only [List.range'_zero, CoprRepo.dependencies_loop, pure, Except.pure] at h
    cases h
    exact ⟨[], rfl, rfl, fun j hj => absurd hj (by omega)⟩
  | succ n ih =>
    intro s parts h
    rw [List.range'_succ] at h
    obtain ⟨pushed, others, rfl, hp, ho⟩ := dependencies_loop_cons_ok _ _ _ _ _ _ _ h
    obtain ⟨per, hl, rfl, hper⟩ := ih (s + 1) others ho
    refine ⟨pushed :: per, by simp [hl], by simp, ?_⟩
    intro j hj
    cases j with
    | zero => simpa using hp
    | succ j =>
      have := hper j (by omega)
      simpa [Nat.add_assoc, Nat.add_comm 1 j] using this

/-- The base URLs of the parts the multilib loop pushes, one per key in the order of the
keys. -/
theorem multilib_loop_baseurls (main mljson : Json) (repo_id name u owner dir chroot gpgkey : Str) :
    ∀ (keys : List Str) (suffix : Nat) (parts : List CoprRepoPart),
      CoprRepo.multilib_loop main mljson repo_id name u owner dir chroot gpgkey keys suffix
        = Except.ok parts →
      parts.map CoprRepoPart.baseurl
        = keys.map (fun key => u ++ "/".toList ++ owner ++ "/".toList ++ dir ++ "/".toList
            ++ regex_replace chroot (re_literal "$basearch".toList) key ++ "/".toList) := by
  intro keys
  induction keys with
  | nil =>
    intro suffix parts h
    cases h
    rfl
  | cons key rest ih =>
    intro suffix parts h
    unfold CoprRepo.multilib_loop at h
    obtain ⟨p1, h1, h⟩ := (except_bind_eq_ok _ _ _).mp h
    obtain ⟨p2, h2, h⟩ := (except_bind_eq_ok _ _ _).mp h
    obtain ⟨others, h3, h⟩ := (except_bind_eq_ok _ _ _).mp h
    cases h
    have k1 := (update_from_json_opts_keeps _ _ _ h1).1
    have k2 := (update_from_json_opts_keeps _ _ _ h2).1
    simp only [List.map_cons, ih (suffix + 1) others h3, k2, k1]
    rfl

/-- C11: the parts of a set the constructor builds are the main part, then the multilib
parts (none with an explicitly selected chroot, none without a multilib map, and else one
per multilib key in the order of the keys), then what each entry of `dependencies` has
pushed, in list order: one part for a `copr` entry, one for an `external_baseurl` entry,
nothing for an entry of another type, which the loop passes over without an error. -/
theorem part_order (cfg : CoprConfig) (json : Json) (indet : Nat → Bool)
    (hub owner dir sel : Str) (r : CoprRepo)
    (h : CoprRepo.network_constructed cfg json indet hub owner dir sel = Except.ok r) :
    (∃ (main : CoprRepoPart) (mls : List CoprRepoPart) (per : List (List CoprRepoPart))
        (u chroot : Str) (items : List Json),
      r.repositories = main :: (mls ++ per.flatten) ∧
      main.baseurl = u ++ "/".toList ++ owner ++ "/".toList ++ dir ++ "/".toList ++ chroot
        ++ "/".toList ∧
      (sel ≠ [] → mls = []) ∧
      (sel = [] →
        (CoprRepo.main_repo_json json cfg.name_version cfg.arch).has_key "multilib".toList
          = false → mls = []) ∧
      (sel = [] →
        (CoprRepo.main_repo_json json cfg.name_version cfg.arch).has_key "multilib".toList
          = true →
        ∃ keys,
          ((CoprRepo.main_repo_json json cfg.name_version cfg.arch).get_dict_item
            "multilib".toList).keys = Except.ok keys ∧
          mls.map CoprRepoPart.baseurl
            = keys.map (fun key => u ++ "/".toList ++ owner ++ "/".toList ++ dir ++ "/".toList
                ++ regex_replace chroot (re_literal "$basearch".toList) key ++ "/".toList)) ∧
      json.get_dict_item "dependencies".toList = Json.array items ∧
      per.length = items.length ∧
      ∀ i, i < items.length →
        dependency_pushed (indet i) (items.getD i Json.null) u chroot (per.getD i [])) ∧
    (∀ (deps : Json) (u c : Str) (i : Nat) (rest : List Nat) (type : Str),
      ((deps.get_array_item i).get_dict_item "type".toList).string_value = Except.ok type →
      type ≠ "copr".toList → type ≠ "external_baseurl".toList →
      CoprRepo.dependencies_loop deps indet u c (i :: rest)
        = CoprRepo.dependencies_loop deps indet u c rest) := by
  refine ⟨?_, fun deps u c i rest type => dependencies_loop_other_type deps indet u c i rest type⟩
  obtain ⟨S, chroot, selector, arch, _, hres, hexp⟩ :=
    network_constructed_eq_ok cfg json indet hub owner dir sel r h
  obtain ⟨u, main, mls, deps, _, hm, hml, hd, rfl⟩ := (expand_eq_ok _ _ _ _ _ _ _ _ _ _ _).mp hexp
  unfold CoprRepo.dependency_repos at hd
  obtain ⟨n, hn, hloop⟩ := (except_bind_eq_ok _ _ _).mp hd
  cases hdj : json.get_dict_item "dependencies".toList with
  | array items =>
    rw [hdj] at hn hloop
    simp only [Json.array_length, pure, Except.pure] at hn
    cases hn
    rw [List.range_eq_range'] at hloop
    obtain ⟨per, hl, rfl, hper⟩ := dependencies_loop_range _ _ _ _ _ _ _ hloop
    refine ⟨main, mls, per, u, chroot, items, by simp, (update_from_json_opts_keeps _ _ _ hm).1,
      ?_, ?_, ?_, rfl, hl, ?_⟩
    · intro hs
      simp only [CoprRepo.multilib_repos, hs, false_and, if_false] at hml
      cases hml
      rfl
    · intro hs hk
      subst hs
      have hv := resolve_chroot_auto S _ _ _ hres
      obtain ⟨_, h2⟩ := Prod.mk.inj hv
      obtain ⟨h2, h3⟩ := Prod.mk.inj h2
      subst h2 h3
      simp only [CoprRepo.multilib_repos, hk, Bool.false_eq_true, and_false, if_false] at hml
      cases hml
      rfl
    · intro hs hk
      subst hs
      have hv := resolve_chroot_auto S _ _ _ hres
      obtain ⟨_, h2⟩ := Prod.mk.inj hv
      obtain ⟨h2, h3⟩ := Prod.mk.inj h2
      subst h2 h3
      simp only [CoprRepo.multilib_repos, hk, and_self, if_true] at hml
      obtain ⟨keys, hkeys, hl2⟩ := (except_bind_eq_ok _ _ _).mp hml
      exact ⟨keys, hkeys, multilib_loop_baseurls _ _ _ _ _ _ _ _ _ keys 0 mls hl2⟩
    · intro i hi
      have := hper i hi
      simpa [Json.get_array_item] using this
  | null => rw [hdj] at hn; cases hn
  | boolean b => rw [hdj] at hn; cases hn
  | integer i => rw [hdj] at hn; cases hn
  | string s => rw [hdj] at hn; cases hn
  | object members => rw [hdj] at hn; cases hn

/-- Witness of C11: the set built from the sample descriptor, whose second dependency has
the type `unknown`. -/
theorem part_order_witness :
    ∃ (main : CoprRepoPart) (mls : List CoprRepoPart) (per : List (List CoprRepoPart))
        (u chroot : Str) (items : List Json),
      sample_repo.repositories = main :: (mls ++ per.flatten) ∧
      main.baseurl = u ++ "/".toList ++ "@copr".toList ++ "/".toList ++ "copr-dev".toList
        ++ "/".toList ++ chroot ++ "/".toList ∧
      sample_descriptor.get_dict_item "dependencies".toList = Json.array items ∧
      per.length = items.length := by
  obtain ⟨main, mls, per, u, chroot, items, h1, h2, _, _, _, h6, h7, _⟩ :=
    (part_order sample_config sample_descriptor (fun _ => false)
      "copr.fedorainfracloud.org".toList "@copr".toList "copr-dev".toList [] sample_repo rfl).1
  exact ⟨main, mls, per, u, chroot, items, h1, h2, h6, h7⟩

/-! ## Lemmas: the ids of the dependency parts -/

/-- The id of the part of a `copr` dependency: what the `opts` of the dependency give. -/
theorem of_copr_dependency_id (indet : Bool) (dep : Json) (u c : Str) (part : CoprRepoPart)
    (h : CoprRepoPart.of_copr_dependency indet dep u c = Except.ok part) :
    part.id = (opts_string_value dep "id".toList).getD [] := by
  unfold CoprRepoPart.of_copr_dependency at h
  obtain ⟨q, hq, h⟩ := (except_bind_eq_ok _ _ _).mp h
  obtain ⟨o, _, h⟩ := (except_bind_eq_ok _ _ _).mp h
  obtain ⟨pn, _, h⟩ := (except_bind_eq_ok _ _ _).mp h
  cases h
  exact (member_after_opts _ _ _ update_from_json_opt_id _ q dep hq).1

/-- The id of the part of an `external_baseurl` dependency: what the `opts` of the
dependency give. -/
theorem of_external_baseurl_id (indet : Bool) (dep : Json) (c : Str) (part : CoprRepoPart)
    (h : CoprRepoPart.of_external_baseurl indet dep c = Except.ok part) :
    part.id = (opts_string_value dep "id".toList).getD [] := by
  unfold CoprRepoPart.of_external_baseurl at h
  obtain ⟨q, hq, h⟩ := (except_bind_eq_ok _ _ _).mp h
  obtain ⟨pattern, _, h⟩ := (except_bind_eq_ok _ _ _).mp h
  cases h
  exact (member_after_opts _ _ _ update_from_json_opt_id _ q dep hq).1

/-- The ids of what one round of the "external dependencies" loop has pushed. -/
theorem dependency_pushed_ids (indet : Bool) (dep : Json) (u c : Str)
    (pushed : List CoprRepoPart) (h : dependency_pushed indet dep u c pushed) :
    ∀ part ∈ pushed, part.id = (opts_string_value dep "id".toList).getD [] := by
  obtain ⟨type, _, h1, h2, h3⟩ := h
  intro part hm
  by_cases e1 : type = "copr".toList
  · obtain ⟨p, hp, rfl⟩ := h1 e1
    rw [List.mem_singleton] at hm
    subst hm
    exact of_copr_dependency_id _ _ _ _ _ hp
  · by_cases e2 : type = "external_baseurl".toList
    · obtain ⟨p, hp, rfl⟩ := h2 e2
      rw [List.mem_singleton] at hm
      subst hm
      exact of_external_baseurl_id _ _ _ _ hp
    · rw [h3 e1 e2] at hm
      simp at hm

/-- The text the `opts` give for a key whose value is a JSON string, and for a key they do
not have. -/
theorem opts_string_value_cases (json : Json) (key : Str) :
    (∀ s, opts_value json key = some (Json.string s) →
      (opts_string_value json key).getD [] = s) ∧
    (opts_value json key = none → (opts_string_value json key).getD [] = []) := by
  constructor
  · intro s hv
    rw [opts_string_value, hv]
    rfl
  · intro hv
    rw [opts_string_value, hv]
    rfl

/-! ## Theorems: the ids of the parts -/

/-- C10 as stated fails: the set built from a descriptor with two dependencies that carry
no options has two parts with the empty id. -/
theorem part_ids_not_distinct :
    CoprRepo.network_constructed sample_config two_dependencies_descriptor (fun _ => false)
        "copr.fedorainfracloud.org".toList "@copr".toList "copr-dev".toList []
      = Except.ok two_dependencies_repo ∧
    two_dependencies_repo.repositories.map CoprRepoPart.id
      = ["copr:copr.fedorainfracloud.org:group_copr:copr-dev".toList, [], []] ∧
    ¬ (two_dependencies_repo.repositories.map CoprRepoPart.id).Nodup := by
  refine ⟨rfl, by decide, by decide⟩

/-- C10, amended: in a set the constructor builds, the ids of the main part and of the
multilib parts are pairwise distinct when no options of the multilib map of the chroot
detail of the host, and with a multilib map no options of that chroot detail, override an
id; the dependency parts that follow them are what the entries of `dependencies` have
pushed, entry by entry, and each has the id the options of its own entry give: the text
`s` when they give the string `s` for `id`, and the empty id when they have no `id`. -/
theorem generated_part_ids_distinct (cfg : CoprConfig) (json : Json) (indet : Nat → Bool)
    (hub owner dir sel : Str) (r : CoprRepo)
    (h : CoprRepo.network_constructed cfg json indet hub owner dir sel = Except.ok r)
    (hid0 : (CoprRepo.main_repo_json json cfg.name_version cfg.arch).has_key "multilib".toList
        = true →
      ((CoprRepo.main_repo_json json cfg.name_version cfg.arch).get_dict_item
        "opts".toList).has_key "id".toList = false)
    (hid : ∀ keys,
      ((CoprRepo.main_repo_json json cfg.name_version cfg.arch).get_dict_item
        "multilib".toList).keys = Except.ok keys →
      ∀ key ∈ keys,
        ((((CoprRepo.main_repo_json json cfg.name_version cfg.arch).get_dict_item
          "multilib".toList).get_dict_item key).get_dict_item "opts".toList).has_key
            "id".toList = false) :
    ∃ (main : CoprRepoPart) (mls deps : List CoprRepoPart) (u chroot : Str)
        (items : List Json) (per : List (List CoprRepoPart)),
      r.repositories = main :: (mls ++ deps) ∧
      CoprRepo.dependency_repos json indet u chroot = Except.ok deps ∧
      ((main :: mls).map CoprRepoPart.id).Nodup ∧
      json.get_dict_item "dependencies".toList = Json.array items ∧
      per.length = items.length ∧
      deps = per.flatten ∧
      ∀ i, i < items.length →
        dependency_pushed (indet i) (items.getD i Json.null) u chroot (per.getD i []) ∧
        ∀ part ∈ per.getD i [],
          part.id = (opts_string_value (items.getD i Json.null) "id".toList).getD [] ∧
          (∀ s, opts_value (items.getD i Json.null) "id".toList = some (Json.string s) →
            part.id = s) ∧
          (opts_value (items.getD i Json.null) "id".toList = none → part.id = []) := by
  obtain ⟨main, mls, deps, u, chroot, hrep, hd, _, _, hmain, hnil, hids⟩ :=
    network_constructed_parts cfg json indet hub owner dir sel r h hid
  have hdeps : ∃ (items : List Json) (per : List (List CoprRepoPart)),
      json.get_dict_item "dependencies".toList = Json.array items ∧
      per.length = items.length ∧ deps = per.flatten ∧
      ∀ i, i < items.length →
        dependency_pushed (indet i) (items.getD i Json.null) u chroot (per.getD i []) := by
    have hd2 := hd
    unfold CoprRepo.dependency_repos at hd2
    obtain ⟨n, hn, hloop⟩ := (except_bind_eq_ok _ _ _).mp hd2
    cases hdj : json.get_dict_item "dependencies".toList with
    | array items =>
      rw [hdj] at hn hloop
      simp only [Json.array_length, pure, Except.pure] at hn
      cases hn
      rw [List.range_eq_range'] at hloop
      obtain ⟨per, hl, hfl, hper⟩ := dependencies_loop_range _ _ _ _ _ _ _ hloop
      refine ⟨items, per, rfl, hl, hfl, ?_⟩
      intro i hi
      have := hper i hi
      simpa [Json.get_array_item] using this
    | null => rw [hdj] at hn; cases hn
    | boolean b => rw [hdj] at hn; cases hn
    | integer i => rw [hdj] at hn; cases hn
    | string s => rw [hdj] at hn; cases hn
    | object members => rw [hdj] at hn; cases hn
  obtain ⟨items, per, hitems, hlen, hfl, hper⟩ := hdeps
  refine ⟨main, mls, deps, u, chroot, items, per, hrep, hd, ?_, hitems, hlen, hfl, ?_⟩
  · by_cases hs : sel = []
    · by_cases hml : (CoprRepo.main_repo_json json cfg.name_version cfg.arch).has_key
          "multilib".toList = true
      · have hmid := hmain hs (hid0 hml)
        cases hkeys : ((CoprRepo.main_repo_json json cfg.name_version cfg.arch).get_dict_item
            "multilib".toList).keys with
        | error e =>
          exfalso
          obtain ⟨S, c2, s2, a2, _, hres, hexp⟩ :=
            network_constructed_eq_ok cfg json indet hub owner dir sel r h
          subst hs
          have hv := resolve_chroot_auto S _ _ _ hres
          obtain ⟨_, h2⟩ := Prod.mk.inj hv
          obtain ⟨h2, h3⟩ := Prod.mk.inj h2
          subst h2 h3
          obtain ⟨_, _, _, _, _, _, hmr, _, _⟩ := (expand_eq_ok _ _ _ _ _ _ _ _ _ _ _).mp hexp
          unfold CoprRepo.multilib_repos at hmr
          simp only [hml, and_self, if_true] at hmr
          obtain ⟨ks, hks, _⟩ := (except_bind_eq_ok _ _ _).mp hmr
          rw [hkeys] at hks
          cases hks
        | ok keys =>
          have hi := hids hs (hid0 hml) keys hml hkeys
          rw [List.map_cons, hi, hmid, List.nodup_cons]
          refine ⟨?_, ?_⟩
          · intro hm
            obtain ⟨i, _, hi2⟩ := List.mem_map.mp hm
            exact multilib_id_ne _ i hi2
          · exact (List.nodup_range keys.length).map
              (fun i j hij => multilib_id_injective _ i j hij)
      · have hml2 : (CoprRepo.main_repo_json json cfg.name_version cfg.arch).has_key
            "multilib".toList = false := by simpa using hml
        rw [hnil (Or.inr hml2)]
        simp
    · rw [hnil (Or.inl hs)]
      simp
  · intro i hi
    refine ⟨hper i hi, fun part hm => ?_⟩
    have e := dependency_pushed_ids _ _ _ _ _ (hper i hi) part hm
    have k := opts_string_value_cases (items.getD i Json.null) "id".toList
    exact ⟨e, fun s hv => e.trans (k.1 s hv), fun hv => e.trans (k.2 hv)⟩

/-- Witness of C10, amended: in the set built from the sample descriptor the ids of the
main part and the multilib parts are distinct, and the two dependency parts have the ids
`coprdep:dep`, given by the options of the first dependency, and the empty id, the third
dependency having no options. -/
theorem generated_part_ids_distinct_witness :
    ∃ (main : CoprRepoPart) (mls deps : List CoprRepoPart),
      sample_repo.repositories = main :: (mls ++ deps) ∧
      ((main :: mls).map CoprRepoPart.id).Nodup ∧
      deps.map CoprRepoPart.id = ["coprdep:dep".toList, []] := by
  obtain ⟨main, mls, deps, u, chroot, items, per, hrep, _, hnd, hitems, hlen, hfl, hper⟩ :=
    generated_part_ids_distinct sample_config sample_descriptor (fun _ => false)
      "copr.fedorainfracloud.org".toList "@copr".toList "copr-dev".toList [] sample_repo rfl
      (fun _ => rfl)
      (fun keys hk => by
        have e : ((CoprRepo.main_repo_json sample_descriptor sample_config.name_version
            sample_config.arch).get_dict_item "multilib".toList).keys
            = Except.ok ["i686".toList, "ppc".toList] := rfl
        rw [e] at hk
        cases hk
        decide)
  refine ⟨main, mls, deps, hrep, hnd, ?_⟩
  have e : sample_descriptor.get_dict_item "dependencies".toList
      = Json.array [sample_copr_dependency,
          Json.object [("type".toList, Json.string "unknown".toList)],
          sample_external_dependency] := rfl
  have hi : items = [sample_copr_dependency,
      Json.object [("type".toList, Json.string "unknown".toList)],
      sample_external_dependency] := Json.array.inj (hitems.symm.trans e)
  subst hi
  match per, hlen, hfl, hper with
  | [a, b, c], _, hfl, hper =>
    obtain ⟨⟨t0, ht0, h0, _, _⟩, hid0⟩ := hper 0 (by decide)
    obtain ⟨⟨t1, ht1, _, _, h1⟩, _⟩ := hper 1 (by decide)
    obtain ⟨⟨t2, ht2, _, h2, _⟩, hid2⟩ := hper 2 (by decide)
    have e0 : t0 = "copr".toList :=
      (Except.ok.inj (show Except.ok "copr".toList = (Except.ok t0 : Except Error Str)
        from ht0)).symm
    have e1 : t1 = "unknown".toList :=
      (Except.ok.inj (show Except.ok "unknown".toList = (Except.ok t1 : Except Error Str)
        from ht1)).symm
    have e2 : t2 = "external_baseurl".toList :=
      (Except.ok.inj (show Except.ok "external_baseurl".toList
        = (Except.ok t2 : Except Error Str) from ht2)).symm
    obtain ⟨p0, _, ha⟩ := h0 e0
    have hb := h1 (by rw [e1]; decide) (by rw [e1]; decide)
    obtain ⟨p2, _, hc⟩ := h2 e2
    have ha2 : a = [p0] := ha
    have hb2 : b = [] := hb
    have hc2 : c = [p2] := hc
    have i0 : p0.id = "coprdep:dep".toList :=
      (hid0 p0 (by rw [show [a, b, c].getD 0 [] = a from rfl, ha2]; simp)).2.1
        "coprdep:dep".toList rfl
    have i2 : p2.id = [] :=
      (hid2 p2 (by rw [show [a, b, c].getD 2 [] = c from rfl, hc2]; simp)).2.2 rfl
    rw [hfl, ha2, hb2, hc2]
    show [p0.id, p2.id] = ["coprdep:dep".toList, []]
    rw [i0, i2]

/-! ## Lemmas: the lines of a stanza -/

theorem lines_of_from_line (l rest : Str) (hl : Char.ofNat 10 ∉ l) :
    ∀ current, lines_of_from (l ++ Char.ofNat 10 :: rest) current
      = (current ++ l) :: lines_of_from rest [] := by
  induction l with
  | nil => intro current; simp [lines_of_from]
  | cons c cs ih =>
    intro current
    simp only [List.mem_cons, not_or] at hl
    have hc : c ≠ Char.ofNat 10 := fun e => hl.1 e.symm
    rw [List.cons_append, lines_of_from, if_neg hc, ih hl.2]
    simp

/-- The lines of a text made of newline-free lines are these lines. -/
theorem lines_of_unlines (ls : List Str) (h : ∀ l ∈ ls, Char.ofNat 10 ∉ l) :
    lines_of (unlines ls) = ls := by
  unfold lines_of
  induction ls with
  | nil => rfl
  | cons l rest ih =>
    rw [unlines_cons, List.append_assoc]
    have e : "\n".toList ++ unlines rest = Char.ofNat 10 :: unlines rest := rfl
    rw [e, lines_of_from_line l _ (h l (by simp)), List.nil_append,
      ih (fun x hx => h x (List.mem_cons_of_mem _ hx))]

theorem newline_not_mem_int_to_string (i : Int) : Char.ofNat 10 ∉ int_to_string i := by
  have hd : ∀ n, Char.ofNat 10 ∉ to_string n := by
    intro n hm
    have := to_string_all_digits n _ hm
    exact absurd this (by decide)
  unfold int_to_string
  split
  · simp only [List.mem_cons, not_or]
    exact ⟨by decide, hd _⟩
  · exact hd _

theorem int_to_string_eq_to_string (i : Int) (n : Nat) (h : int_to_string i = to_string n) :
    i = n := by
  unfold int_to_string at h
  split at h
  · exfalso
    have hm : '-' ∈ to_string n := by rw [← h]; simp
    exact absurd (to_string_all_digits n _ hm) (by decide)
  · have := to_string_injective _ _ h
    omega
theorem not_default_line_of_head (a : Char) (x : Str) (h1 : a ≠ 'p') (h2 : a ≠ 'c')
    (h3 : a ≠ 'm') : ¬ is_default_line (a :: x) := by
  rintro (h | h | h)
  · exact h1 (List.cons.inj h).1
  · exact h2 (List.cons.inj h).1
  · exact h3 (List.cons.inj h).1

theorem not_default_line_cost (i : Int) (hi : i ≠ 0) :
    ¬ is_default_line ("cost=".toList ++ int_to_string i) := by
  rintro (h | h | h)
  · exact absurd (List.cons.inj h).1 (by decide)
  · have e : "cost=0".toList = "cost=".toList ++ to_string 0 := rfl
    rw [e] at h
    have := int_to_string_eq_to_string i 0 (List.append_cancel_left h)
    exact hi (by simpa using this)
  · exact absurd (List.cons.inj h).1 (by decide)

theorem not_default_line_priority (i : Int) (hi : i ≠ 99) :
    ¬ is_default_line ("priority=".toList ++ int_to_string i) := by
  rintro (h | h | h)
  · have e : "priority=99".toList = "priority=".toList ++ to_string 99 := rfl
    rw [e] at h
    have := int_to_string_eq_to_string i 99 (List.append_cancel_left h)
    exact hi (by simpa using this)
  · exact absurd (List.cons.inj h).1 (by decide)
  · exact absurd (List.cons.inj h).1 (by decide)

/-- No line the stanza is made of spells out a default. -/
theorem stanza_lines_not_default (p : CoprRepoPart) :
    ∀ l ∈ stanza_lines p, ¬ is_default_line l := by
  intro l hl
  unfold stanza_lines at hl
  simp only [List.mem_append, List.mem_cons, List.mem_singleton, List.not_mem_nil, or_false,
    or_assoc] at hl
  rcases hl with h | h | h | h | h | h | h | h | h | h | h | h
  · rw [h]; exact not_default_line_of_head _ _ (by decide) (by decide) (by decide)
  · rw [h]; exact not_default_line_of_head _ _ (by decide) (by decide) (by decide)
  · rw [h]; exact not_default_line_of_head _ _ (by decide) (by decide) (by decide)
  · rw [h]; exact not_default_line_of_head _ _ (by decide) (by decide) (by decide)
  · rw [h]; exact not_default_line_of_head _ _ (by decide) (by decide) (by decide)
  · split at h
    · simp only [List.mem_cons, List.mem_singleton, List.not_mem_nil, or_false] at h
      rcases h with h | h
      · rw [h]; exact not_default_line_of_head _ _ (by decide) (by decide) (by decide)
      · rw [h]; exact not_default_line_of_head _ _ (by decide) (by decide) (by decide)
    · simp only [List.mem_singleton] at h
      rw [h]; exact not_default_line_of_head _ _ (by decide) (by decide) (by decide)
  · rw [h]; exact not_default_line_of_head _ _ (by decide) (by decide) (by decide)
  · split at h
    · next hc =>
      simp only [List.mem_singleton] at h
      rw [h]; exact not_default_line_cost _ hc
    · simp at h
  · rw [h]; exact not_default_line_of_head _ _ (by decide) (by decide) (by decide)
  · rw [h]; exact not_default_line_of_head _ _ (by decide) (by decide) (by decide)
  · split at h
    · next hc =>
      simp only [List.mem_singleton] at h
      rw [h]; exact not_default_line_priority _ hc
    · simp at h
  · split at h
    · simp only [List.mem_singleton] at h
      rw [h]
      rintro (h2 | h2 | h2) <;> exact absurd h2 (by decide)
    · simp at h

/-- The lines of a stanza have no newline when id, name, base URL and key URL have none. -/
theorem stanza_lines_no_newline (p : CoprRepoPart) (h1 : Char.ofNat 10 ∉ p.id)
    (h2 : Char.ofNat 10 ∉ p.name) (h3 : Char.ofNat 10 ∉ p.baseurl)
    (h4 : Char.ofNat 10 ∉ p.gpgkey) : ∀ l ∈ stanza_lines p, Char.ofNat 10 ∉ l := by
  intro l hl
  unfold stanza_lines at hl
  simp only [List.mem_append, List.mem_cons, List.mem_singleton, List.not_mem_nil, or_false,
    or_assoc] at hl
  have hlit : ∀ (s : String) (x : Str), Char.ofNat 10 ∉ s.toList → Char.ofNat 10 ∉ x →
      Char.ofNat 10 ∉ s.toList ++ x := by
    intro s x hs hx hm
    rcases List.mem_append.mp hm with e | e
    · exact hs e
    · exact hx e
  rcases hl with h | h | h | h | h | h | h | h | h | h | h | h
  · rw [h]
    intro hm
    simp only [List.mem_append] at hm
    rcases hm with (e | e) | e
    · exact absurd e (by decide)
    · exact h1 e
    · exact absurd e (by decide)
  · rw [h]; exact hlit _ _ (by decide) h2
  · rw [h]; exact hlit _ _ (by decide) h3
  · rw [h]; decide
  · rw [h]; decide
  · split at h
    · simp only [List.mem_cons, List.mem_singleton, List.not_mem_nil, or_false] at h
      rcases h with h | h
      · rw [h]; decide
      · rw [h]; exact hlit _ _ (by decide) h4
    · simp only [List.mem_singleton] at h
      rw [h]; decide
  · rw [h]; decide
  · split at h
    · simp only [List.mem_singleton] at h
      rw [h]; exact hlit _ _ (by decide) (newline_not_mem_int_to_string _)
    · simp at h
  · rw [h]; decide
  · rw [h]; decide
  · split at h
    · simp only [List.mem_singleton] at h
      rw [h]; exact hlit _ _ (by decide) (newline_not_mem_int_to_string _)
    · simp at h
  · split at h
    · simp only [List.mem_singleton] at h
      rw [h]; decide
    · simp at h

/-- C16 as stated fails: a part whose name, taken from the options of the descriptor, has
two lines is written with a line `priority=99`. -/
theorem output_has_default_line :
    override_start.update_from_json_opts two_line_name_fragment = Except.ok two_line_name_part ∧
    two_line_name_part.name = "Copr repo\npriority=99".toList ∧
    "priority=99".toList ∈ lines_of two_line_name_part.output := by
  refine ⟨rfl, by decide, by decide⟩

/-- C16, amended: none of the lines a stanza is made of is `priority=99`, `cost=0` or
`module_hotfixes=0`, whatever the members of the part are; and when the id, the name, the
base URL and the key URL of the part have no newline, the lines of the written text are
the lines of the stanza, so that no line of the text is one of the three. -/
theorem output_has_no_default_line (p : CoprRepoPart) :
    (∀ l ∈ stanza_lines p, ¬ is_default_line l) ∧
    (Char.ofNat 10 ∉ p.id → Char.ofNat 10 ∉ p.name → Char.ofNat 10 ∉ p.baseurl →
      Char.ofNat 10 ∉ p.gpgkey →
      lines_of p.output = stanza_lines p ∧
      "priority=99".toList ∉ lines_of p.output ∧ "cost=0".toList ∉ lines_of p.output ∧
      "module_hotfixes=0".toList ∉ lines_of p.output) := by
  refine ⟨stanza_lines_not_default p, fun h1 h2 h3 h4 => ?_⟩
  have hout : p.output = unlines (stanza_lines p) := by
    unfold CoprRepoPart.output stanza_lines
    by_cases hg : p.gpgkey = [] <;> by_cases hc : p.cost = 0 <;> by_cases hp : p.priority = 99
      <;> cases hm : p.module_hotfixes
      <;> simp only [hg, hc, hp, ne_eq, not_true_eq_false, not_false_eq_true, if_true,
        if_false, Bool.false_eq_true, unlines_cons, unlines_nil, unlines_append,
        List.append_assoc, List.cons_append, List.nil_append, List.append_nil]
      <;> rfl
  have hl : lines_of p.output = stanza_lines p := by
    rw [hout]
    exact lines_of_unlines _ (stanza_lines_no_newline p h1 h2 h3 h4)
  rw [hl]
  exact ⟨rfl, fun hm => stanza_lines_not_default p _ hm (Or.inl rfl),
    fun hm => stanza_lines_not_default p _ hm (Or.inr (Or.inl rfl)),
    fun hm => stanza_lines_not_default p _ hm (Or.inr (Or.inr rfl))⟩

/-- Witness of C16, amended: the main part of the set built from the sample descriptor. -/
theorem output_has_no_default_line_witness :
    "priority=99".toList ∉ lines_of (sample_repo.repositories.headD override_start).output ∧
    "cost=0".toList ∉ lines_of (sample_repo.repositories.headD override_start).output :=
  have h := (output_has_no_default_line (sample_repo.repositories.headD override_start)).2
    (by decide) (by decide) (by decide) (by decide)
  ⟨h.2.1, h.2.2.1⟩

/-! ## Lemmas: sets of chroots and the message that lists them -/

theorem str_lt_irrefl : ∀ x : Str, str_lt x x = false := by
  intro x
  induction x with
  | nil => rfl
  | cons a as ih => simp [str_lt, ih]

theorem str_lt_trans : ∀ x y z : Str, str_lt x y = true → str_lt y z = true →
    str_lt x z = true := by
  intro x
  induction x with
  | nil =>
    intro y z h1 h2
    cases y with
    | nil => simp [str_lt] at h1
    | cons b bs =>
      cases z with
      | nil => simp [str_lt] at h2
      | cons c cs => rfl
  | cons a as ih =>
    intro y z h1 h2
    cases y with
    | nil => simp [str_lt] at h1
    | cons b bs =>
      cases z with
      | nil => simp [str_lt] at h2
      | cons c cs =>
        simp only [str_lt] at h1 h2 ⊢
        by_cases hab : a.toNat < b.toNat
        · by_cases hbc : b.toNat < c.toNat
          · have : a.toNat < c.toNat := by omega
            simp [this]
          · simp only [hbc, if_false] at h2
            by_cases hcb : c.toNat < b.toNat
            · simp [hcb] at h2
            · have : a.toNat < c.toNat := by omega
              simp [this]
        · simp only [hab, if_false] at h1
          by_cases hba : b.toNat < a.toNat
          · simp [hba] at h1
          · simp only [hba, if_false] at h1
            have hab2 : a.toNat = b.toNat := by omega
            by_cases hbc : b.toNat < c.toNat
            · have : a.toNat < c.toNat := by omega
              simp [this]
            · simp only [hbc, if_false] at h2
              by_cases hcb : c.toNat < b.toNat
              · simp [hcb] at h2
              · simp only [hcb, if_false] at h2
                have h3 : ¬ a.toNat < c.toNat := by omega
                have h4 : ¬ c.toNat < a.toNat := by omega
                simp only [h3, h4, if_false]
                exact ih bs cs h1 h2

theorem char_eq_of_toNat_eq (a b : Char) (h : a.toNat = b.toNat) : a = b := by
  apply Char.ext
  apply UInt32.ext
  exact h

theorem str_lt_total : ∀ x y : Str, str_lt x y = false → str_lt y x = false → x = y := by
  intro x
  induction x with
  | nil =>
    intro y h1 h2
    cases y with
    | nil => rfl
    | cons b bs => simp [str_lt] at h1
  | cons a as ih =>
    intro y h1 h2
    cases y with
    | nil => simp [str_lt] at h2
    | cons b bs =>
      simp only [str_lt] at h1 h2
      by_cases hab : a.toNat < b.toNat
      · simp [hab] at h1
      · by_cases hba : b.toNat < a.toNat
        · simp [hba] at h2
        · simp only [hab, hba, if_false] at h1 h2
          rw [char_eq_of_toNat_eq a b (by omega), ih bs h1 h2]

theorem mem_set_insert (x : Str) : ∀ (S : StrSet) (y : Str),
    y ∈ set_insert S x ↔ y = x ∨ y ∈ S := by
  intro S
  induction S with
  | nil => intro y; simp [set_insert]
  | cons s rest ih =>
    intro y
    simp only [set_insert]
    cases h1 : str_lt x s with
    | true => simp
    | false =>
      cases h2 : str_lt s x with
      | true =>
        simp only [Bool.false_eq_true, if_false, if_true, List.mem_cons, ih]
        tauto
      | false =>
        simp only [Bool.false_eq_true, if_false, List.mem_cons]
        have e : x = s := str_lt_total x s h1 h2
        subst e
        tauto

theorem set_insert_pairwise (x : Str) : ∀ S : StrSet,
    S.Pairwise (fun a b => str_lt a b = true) →
    (set_insert S x).Pairwise (fun a b => str_lt a b = true) := by
  intro S
  induction S with
  | nil => intro _; simp [set_insert]
  | cons s rest ih =>
    intro h
    have hs := List.pairwise_cons.mp h
    simp only [set_insert]
    cases h1 : str_lt x s with
    | true =>
      simp only [if_true]
      refine List.pairwise_cons.mpr ⟨?_, h⟩
      intro a ha
      rcases List.mem_cons.mp ha with e | e
      · rw [e]; exact h1
      · exact str_lt_trans x s a h1 (hs.1 a e)
    | false =>
      cases h2 : str_lt s x with
      | true =>
        simp only [Bool.false_eq_true, if_false, if_true]
        refine List.pairwise_cons.mpr ⟨?_, ih hs.2⟩
        intro a ha
        rcases (mem_set_insert x rest a).mp ha with e | e
        · rw [e]; exact h2
        · exact hs.1 a e
      | false =>
        simp only [Bool.false_eq_true, if_false]
        exact h

theorem pairwise_str_lt_nodup (S : StrSet) (h : S.Pairwise (fun a b => str_lt a b = true)) :
    S.Nodup := by
  refine List.Pairwise.imp ?_ h
  intro a b hab e
  rw [e, str_lt_irrefl] at hab
  cases hab

theorem available_chroots_of_arches_pairwise (nv : Str) : ∀ (arches : List Str) (acc : StrSet),
    acc.Pairwise (fun a b => str_lt a b = true) →
    (CoprRepo.available_chroots_of_arches nv arches acc).Pairwise
      (fun a b => str_lt a b = true) := by
  intro arches
  induction arches with
  | nil => intro acc h; exact h
  | cons a rest ih =>
    intro acc h
    exact ih _ (set_insert_pairwise _ _ h)

theorem available_chroots_loop_pairwise (repos : Json) : ∀ (nvs : List Str) (acc S : StrSet),
    acc.Pairwise (fun a b => str_lt a b = true) →
    CoprRepo.available_chroots_loop repos nvs acc = Except.ok S →
    S.Pairwise (fun a b => str_lt a b = true) := by
  intro nvs
  induction nvs with
  | nil =>
    intro acc S h hS
    cases hS
    exact h
  | cons nv rest ih =>
    intro acc S h hS
    unfold CoprRepo.available_chroots_loop at hS
    obtain ⟨ks, _, hS⟩ := (except_bind_eq_ok _ _ _).mp hS
    exact ih _ S (available_chroots_of_arches_pairwise _ _ _ h) hS

theorem available_chroots_pairwise (json : Json) (S : StrSet)
    (h : CoprRepo.available_chroots json = Except.ok S) :
    S.Pairwise (fun a b => str_lt a b = true) := by
  unfold CoprRepo.available_chroots at h
  obtain ⟨nvs, _, h⟩ := (except_bind_eq_ok _ _ _).mp h
  exact available_chroots_loop_pairwise _ nvs [] S List.Pairwise.nil h

theorem available_chroots_lines_false (S : List Str) :
    available_chroots_lines S false
      = (S.map (fun x => "\n".toList ++ (" ".toList ++ x))).flatten := by
  induction S with
  | nil => rfl
  | cons s rest ih => simp [available_chroots_lines, ih]

theorem available_chroots_lines_true (S : List Str) :
    available_chroots_lines S true
      = List.intercalate "\n".toList (S.map (fun x => " ".toList ++ x)) := by
  cases S with
  | nil => rfl
  | cons s rest =>
    rw [List.map_cons, intercalate_cons, List.map_map]
    simp only [available_chroots_lines, available_chroots_lines_false, Bool.not_true,
      Bool.false_eq_true, if_false, List.nil_append, List.append_assoc]
    rfl

theorem lines_of_from_last (l : Str) (hl : Char.ofNat 10 ∉ l) :
    ∀ current, current ++ l ≠ [] → lines_of_from l current = [current ++ l] := by
  induction l with
  | nil =>
    intro current h
    rw [List.append_nil] at h
    simp [lines_of_from, h]
  | cons c cs ih =>
    intro current _
    simp only [List.mem_cons, not_or] at hl
    have hc : c ≠ Char.ofNat 10 := fun e => hl.1 e.symm
    rw [lines_of_from, if_neg hc, ih hl.2 _ (by simp)]
    simp

/-- The lines of a text made of newline-free, non-empty lines with a newline between them
are these lines. -/
theorem lines_of_intercalate (ls : List Str) (h : ∀ l ∈ ls, Char.ofNat 10 ∉ l ∧ l ≠ []) :
    lines_of (List.intercalate "\n".toList ls) = ls := by
  unfold lines_of
  induction ls with
  | nil => rfl
  | cons l rest ih =>
    cases rest with
    | nil =>
      have e : List.intercalate "\n".toList [l] = l := by simp [List.intercalate]
      rw [e, lines_of_from_last l (h l (by simp)).1 [] (by simpa using (h l (by simp)).2)]
      rfl
    | cons m rest2 =>
      have e : List.intercalate "\n".toList (l :: m :: rest2)
          = l ++ Char.ofNat 10 :: List.intercalate "\n".toList (m :: rest2) := by
        simp [List.intercalate]
      rw [e, lines_of_from_line l _ (h l (by simp)).1, List.nil_append,
        ih (fun x hx => h x (List.mem_cons_of_mem _ hx))]

/-- C21: `available_chroots_error` throws (its value is the exception), and the message is
the sentence that names the attempted chroot in parentheses, or that says that the chroot
could not be detected when it is empty, then the sentence that introduces the list and a
newline, then the elements of the set in iteration order, each behind one space, with a
newline between two of them and nothing behind the last.  The iteration order of a set is
strictly ascending, so that every element is listed once: `set_insert` keeps a set
strictly ascending and adds just the inserted element, and the set the constructor
computes from the descriptor is strictly ascending.  When no element has a newline the
lines of the list are the elements, one per line. -/
theorem available_chroots_error_lists_set (S : StrSet) (c : Str) :
    available_chroots_error S c = Error.runtime_error
      ((if c = [] then "Unable to detect chroot, specify it explicitly.".toList
        else "Chroot not found in the given Copr project (".toList ++ c ++ ").".toList)
        ++ " You can choose one of the avaiable chroots explicitly:\n".toList
        ++ List.intercalate "\n".toList (S.map (fun x => " ".toList ++ x))) ∧
    ((∀ x ∈ S, Char.ofNat 10 ∉ x) →
      lines_of (List.intercalate "\n".toList (S.map (fun x => " ".toList ++ x)))
        = S.map (fun x => " ".toList ++ x)) ∧
    (S.Pairwise (fun a b => str_lt a b = true) → S.Nodup) ∧
    (∀ x : Str, S.Pairwise (fun a b => str_lt a b = true) →
      (set_insert S x).Pairwise (fun a b => str_lt a b = true) ∧
      ∀ y, y ∈ set_insert S x ↔ y = x ∨ y ∈ S) ∧
    (∀ json : Json, CoprRepo.available_chroots json = Except.ok S →
      S.Pairwise (fun a b => str_lt a b = true)) ∧
    (c ≠ [] → c ∉ S → ∀ nv a : Str,
      CoprRepo.resolve_chroot S nv a c = Except.error (available_chroots_error S c)) := by
  refine ⟨?_, ?_, pairwise_str_lt_nodup S, fun x h => ⟨set_insert_pairwise x S h,
    mem_set_insert x S⟩, fun json h => available_chroots_pairwise json S h, ?_⟩
  · simp only [available_chroots_error, available_chroots_message, gettext,
      available_chroots_lines_true]
    by_cases hc : c = []
    · simp [hc]
    · simp [hc]
  · intro h
    refine lines_of_intercalate _ ?_
    intro l hl
    obtain ⟨x, hx, rfl⟩ := List.mem_map.mp hl
    refine ⟨?_, by simp⟩
    intro hm
    rcases List.mem_append.mp hm with e | e
    · exact absurd e (by decide)
    · exact h x hx e
  · intro hc hS nv a
    rw [resolve_chroot_explicit S nv a c hc, if_neg hS]

/-- Witness of C21: the chroot `fedora-40-x86_64` is not among the chroots of the sample
descriptor. -/
theorem available_chroots_error_lists_set_witness :
    CoprRepo.available_chroots sample_descriptor
      = Except.ok ["epel-9-x86_64".toList, "fedora-39-x86_64".toList] ∧
    CoprRepo.resolve_chroot ["epel-9-x86_64".toList, "fedora-39-x86_64".toList]
        "fedora-40".toList "x86_64".toList "fedora-40-x86_64".toList
      = Except.error (Error.runtime_error
          ("Chroot not found in the given Copr project (fedora-40-x86_64). "
            ++ "You can choose one of the avaiable chroots explicitly:\n"
            ++ " epel-9-x86_64\n fedora-39-x86_64").toList) :=
  ⟨rfl,
    ((available_chroots_error_lists_set ["epel-9-x86_64".toList, "fedora-39-x86_64".toList]
      "fedora-40-x86_64".toList).2.2.2.2.2 (by decide) (by decide) _ _).trans
      (congrArg Except.error (by decide))⟩

/-! ## Lemmas: the PROJECT_SPEC expression -/

theorem takeWhile_not_slash_append (a t : Str) (ha : '/' ∉ a) :
    (a ++ '/' :: t).takeWhile not_slash = a ∧ (a ++ '/' :: t).dropWhile not_slash = '/' :: t := by
  induction a with
  | nil => simp [not_slash]
  | cons c cs ih =>
    simp only [List.mem_cons, not_or] at ha
    have hc : not_slash c = true := by
      simp only [not_slash, bne_iff_ne, ne_eq]
      exact fun e => ha.1 e.symm
    simp only [List.cons_append, List.takeWhile_cons, List.dropWhile_cons, hc, if_true,
      ih ha.2, and_self]

theorem takeWhile_not_slash_all (a : Str) (ha : '/' ∉ a) :
    a.takeWhile not_slash = a ∧ a.dropWhile not_slash = [] := by
  induction a with
  | nil => simp
  | cons c cs ih =>
    simp only [List.mem_cons, not_or] at ha
    have hc : not_slash c = true := by
      simp only [not_slash, bne_iff_ne, ne_eq]
      exact fun e => ha.1 e.symm
    simp only [List.takeWhile_cons, List.dropWhile_cons, hc, if_true, ih ha.2, and_self]

theorem not_slash_run (s : Str) :
    '/' ∉ s.takeWhile not_slash ∧
    (s.dropWhile not_slash = [] ∨ ∃ t, s.dropWhile not_slash = '/' :: t) := by
  induction s with
  | nil => simp
  | cons c cs ih =>
    by_cases hc : c = '/'
    · subst hc
      simp [not_slash]
    · have hn : not_slash c = true := by simpa [not_slash] using hc
      simp only [List.takeWhile_cons, List.dropWhile_cons, hn, if_true, List.mem_cons, not_or]
      exact ⟨⟨fun e => hc e.symm, ih.1⟩, ih.2⟩

theorem match_owner_dirname_eq_some (s owner dirname : Str) :
    match_owner_dirname s = some (owner, dirname) ↔
      owner ≠ [] ∧ '/' ∉ owner ∧ '/' ∉ dirname ∧ s = owner ++ '/' :: dirname := by
  constructor
  · intro h
    unfold match_owner_dirname at h
    have hs : s = s.takeWhile not_slash ++ s.dropWhile not_slash :=
      (List.takeWhile_append_dropWhile _ _).symm
    have hr := not_slash_run s
    by_cases ho : s.takeWhile not_slash = []
    · simp [ho] at h
    · simp only [ho, if_false] at h
      rcases hr.2 with e | ⟨t, e⟩
      · rw [e] at h; simp at h
      · rw [e] at h hs
        simp only at h
        have ht := not_slash_run t
        have hts : t = t.takeWhile not_slash ++ t.dropWhile not_slash :=
          (List.takeWhile_append_dropWhile _ _).symm
        by_cases hd : t.dropWhile not_slash = []
        · simp only [hd, if_true, Option.some.injEq, Prod.mk.injEq] at h
          rw [hd, List.append_nil] at hts
          obtain ⟨h1, h2⟩ := h
          subst h1
          refine ⟨ho, hr.1, ?_, ?_⟩
          · rw [← h2]; exact ht.1
          · rw [← h2, ← hts]; exact hs
        · simp [hd] at h
  · rintro ⟨ho, h1, h2, rfl⟩
    unfold match_owner_dirname
    obtain ⟨e1, e2⟩ := takeWhile_not_slash_append owner dirname h1
    obtain ⟨e3, e4⟩ := takeWhile_not_slash_all dirname h2
    simp only [e1, e2, e3, e4, ho, if_false, if_true]

theorem match_owner_dirname_no_slash (s : Str) (h : '/' ∉ s) : match_owner_dirname s = none := by
  unfold match_owner_dirname
  obtain ⟨e1, e2⟩ := takeWhile_not_slash_all s h
  simp only [e1, e2]
  split <;> rfl

theorem project_spec_match_eq_some (s hub owner dirname : Str) :
    project_spec_match s = some (hub, owner, dirname) ↔
      '/' ∉ hub ∧ owner ≠ [] ∧ '/' ∉ owner ∧ '/' ∉ dirname ∧
      ((hub = [] ∧ s = owner ++ '/' :: dirname) ∨
       (hub ≠ [] ∧ s = hub ++ '/' :: (owner ++ '/' :: dirname))) := by
  constructor
  · intro h
    unfold project_spec_match at h
    have hs : s = s.takeWhile not_slash ++ s.dropWhile not_slash :=
      (List.takeWhile_append_dropWhile _ _).symm
    have hr := not_slash_run s
    simp only at h
    split at h
    · next r hw =>
      cases h
      by_cases hh : s.takeWhile not_slash = []
      · simp [hh] at hw
      · simp only [hh, if_false] at hw
        rcases hr.2 with e | ⟨t, e⟩
        · rw [e] at hw; simp at hw
        · rw [e] at hw hs
          simp only at hw
          cases hm : match_owner_dirname t with
          | none => rw [hm] at hw; simp at hw
          | some od =>
            obtain ⟨o, d⟩ := od
            rw [hm] at hw
            simp only [Option.some.injEq, Prod.mk.injEq] at hw
            obtain ⟨h1, h2, h3⟩ := hw
            subst h1 h2 h3
            obtain ⟨k1, k2, k3, k4⟩ := (match_owner_dirname_eq_some t o d).mp hm
            refine ⟨hr.1, k1, k2, k3, Or.inr ⟨hh, ?_⟩⟩
            rw [← k4]; exact hs
    · next hw =>
      cases hm : match_owner_dirname s with
      | none => rw [hm] at h; simp at h
      | some od =>
        obtain ⟨o, d⟩ := od
        rw [hm] at h
        simp only [Option.some.injEq, Prod.mk.injEq] at h
        obtain ⟨h1, h2, h3⟩ := h
        subst h1 h2 h3
        obtain ⟨k1, k2, k3, k4⟩ := (match_owner_dirname_eq_some s o d).mp hm
        exact ⟨by simp, k1, k2, k3, Or.inl ⟨rfl, k4⟩⟩
  · rintro ⟨h0, h1, h2, h3, (⟨rfl, rfl⟩ | ⟨hh, rfl⟩)⟩
    · unfold project_spec_match
      obtain ⟨e1, e2⟩ := takeWhile_not_slash_append owner dirname h2
      have e3 := match_owner_dirname_no_slash dirname h3
      have e4 := (match_owner_dirname_eq_some (owner ++ '/' :: dirname) owner dirname).mpr
        ⟨h1, h2, h3, rfl⟩
      simp only [e1, e2, e3, e4, h1, if_false]
    · unfold project_spec_match
      obtain ⟨e1, e2⟩ := takeWhile_not_slash_append hub (owner ++ '/' :: dirname) h0
      have e4 := (match_owner_dirname_eq_some (owner ++ '/' :: dirname) owner dirname).mpr
        ⟨h1, h2, h3, rfl⟩
      simp only [e1, e2, e4, hh, if_false]

/-! ## Theorems: the PROJECT_SPEC argument -/

/-- C22, the hook as it is: a project spec is accepted exactly when it is `OWNER/PROJECT`
or `HUB/OWNER/PROJECT` with a non-empty hub, a non-empty owner and no slash inside a
component, while the project may be empty; hub, owner and project directory are then set
to the components (the hub to the empty string when there is none), and every other
string is rejected with the error `Invalid PROJECT_SPEC format`.  So `owner/` and
`hub/owner/` are accepted with an empty project directory. -/
theorem project_spec_accepted (cmd : CoprEnableCommand) (s : Str) :
    (∀ hub owner dirname : Str,
      project_spec_match s = some (hub, owner, dirname) ↔
        '/' ∉ hub ∧ owner ≠ [] ∧ '/' ∉ owner ∧ '/' ∉ dirname ∧
        ((hub = [] ∧ s = owner ++ "/".toList ++ dirname) ∨
         (hub ≠ [] ∧ s = hub ++ "/".toList ++ owner ++ "/".toList ++ dirname))) ∧
    (∀ hub owner dirname : Str, project_spec_match s = some (hub, owner, dirname) →
      cmd.project_parse_hook s
        = Except.ok { cmd with opt_hub := hub, opt_owner := owner, opt_dirname := dirname }) ∧
    (project_spec_match s = none →
      cmd.project_parse_hook s
        = Except.error (ArgumentParserError.positional_argument_format
            "Invalid PROJECT_SPEC format '{}'".toList s)) ∧
    cmd.project_parse_hook "owner/".toList
      = Except.ok { cmd with opt_hub := [], opt_owner := "owner".toList, opt_dirname := [] } ∧
    cmd.project_parse_hook "hub/owner/".toList
      = Except.ok { cmd with opt_hub := "hub".toList, opt_owner := "owner".toList,
                             opt_dirname := [] } ∧
    cmd.project_parse_hook "fedora/@footeam/coolproject".toList
      = Except.ok { cmd with opt_hub := "fedora".toList, opt_owner := "@footeam".toList,
                             opt_dirname := "coolproject".toList } ∧
    cmd.project_parse_hook "/project".toList
      = Except.error (ArgumentParserError.positional_argument_format
          "Invalid PROJECT_SPEC format '{}'".toList "/project".toList) := by
  refine ⟨fun hub owner dirname => ?_, fun hub owner dirname h => ?_, fun h => ?_,
    rfl, rfl, rfl, rfl⟩
  · rw [project_spec_match_eq_some]
    simp only [List.append_assoc, List.singleton_append, String.toList, List.cons_append,
      List.nil_append]
  · simp only [CoprEnableCommand.project_parse_hook, h]
    rfl
  · simp only [CoprEnableCommand.project_parse_hook, h]
    rfl

/-! ## Lemmas: the selector and the architecture of an explicit chroot -/

theorem regex_replace_loop_dash_segment_dash :
    ∀ (n : Nat) (s : Str) (b : Bool) (pre : Str), s.length ≤ n →
      (s = [] ∨ ∃ t, s = '-' :: t) →
      regex_replace_loop re_dash_segment [] s b 0 pre = [] := by
  intro n
  induction n with
  | zero =>
    intro s b pre hl _
    have : s = [] := List.length_eq_zero.mp (by omega)
    subst this
    rfl
  | succ n ih =>
    intro s b pre hl hs
    rcases hs with rfl | ⟨t, rfl⟩
    · rfl
    · have hsplit : t = t.takeWhile (fun x => x != '-') ++ t.dropWhile (fun x => x != '-') :=
        (List.takeWhile_append_dropWhile _ _).symm
      have hdrop : t.dropWhile (fun x => x != '-') = [] ∨
          ∃ u, t.dropWhile (fun x => x != '-') = '-' :: u := by
        cases hd : t.dropWhile (fun x => x != '-') with
        | nil => exact Or.inl rfl
        | cons x u =>
          right
          have := List.head_dropWhile_not (fun x => x != '-') t (by rw [hd]; simp)
          simp only [hd, List.head_cons, bne_iff_ne, ne_eq, Bool.not_eq_true,
            Bool.decide_eq_false, Bool.not_eq_true', bne_eq_false_iff_eq] at this
          exact ⟨u, by rw [this]⟩
      have hlen : (t.dropWhile (fun x => x != '-')).length ≤ n := by
        have := (List.dropWhile_suffix (fun x => x != '-') : _ <:+ t).length_le
        simp only [List.length_cons] at hl
        omega
      have hm : re_dash_segment b ('-' :: t)
          = some (1 + (t.takeWhile (fun x => x != '-')).length) := by
        simp [re_dash_segment]
      rw [regex_replace_loop, hm]
      simp only [format_expand_nil, List.nil_append, Nat.add_sub_cancel_left]
      by_cases h0 : t.takeWhile (fun x => x != '-') = []
      · rw [h0, List.length_nil]
        have : t = t.dropWhile (fun x => x != '-') := by
          rw [h0, List.nil_append] at hsplit
          exact hsplit
        rw [this]
        exact ih _ false [] hlen hdrop
      · rw [hsplit, List.takeWhile_append_dropWhile,
          show regex_replace_loop re_dash_segment [] t false
              (t.takeWhile (fun x => x != '-')).length []
            = regex_replace_loop re_dash_segment []
                (t.takeWhile (fun x => x != '-') ++ t.dropWhile (fun x => x != '-')) false
                (t.takeWhile (fun x => x != '-')).length [] by
            rw [List.takeWhile_append_dropWhile],
          regex_replace_loop_skip _ _ _ _ _ _ h0]
        exact ih _ false [] hlen hdrop

/-- Replacing every match of `-[^-]*` by nothing leaves the text before the first dash. -/
theorem regex_replace_dash_segment : ∀ (s : Str) (b : Bool) (pre : Str),
    regex_replace_loop re_dash_segment [] s b 0 pre = s.takeWhile (fun x => x != '-') := by
  intro s
  induction s with
  | nil => intro b pre; rfl
  | cons c cs ih =>
    intro b pre
    by_cases hc : c = '-'
    · subst hc
      rw [regex_replace_loop_dash_segment_dash _ _ b pre (le_refl _) (Or.inr ⟨cs, rfl⟩)]
      simp
    · have hm : re_dash_segment b (c :: cs) = none := by
        simp [re_dash_segment, hc]
      have hn : (c != '-') = true := by simpa using hc
      rw [regex_replace_loop, hm]
      simp only [List.takeWhile_cons, hn, if_true, ih]

theorem after_last_dash_none (a : Str) (ha : '-' ∉ a) : after_last_dash a = none := by
  induction a with
  | nil => rfl
  | cons c cs ih =>
    simp only [List.mem_cons, not_or] at ha
    have hc : c ≠ '-' := fun e => ha.1 e.symm
    simp only [after_last_dash, ih ha.2, hc, if_false]

theorem after_last_dash_append (a : Str) (ha : '-' ∉ a) :
    ∀ p : Str, after_last_dash (p ++ '-' :: a) = some (p.length + 1) := by
  intro p
  induction p with
  | nil => simp [after_last_dash, after_last_dash_none a ha]
  | cons c cs ih => rw [List.cons_append, after_last_dash, ih, List.length_cons]

theorem takeWhile_not_line_terminator (s : Str) (h : ∀ x ∈ s, is_line_terminator x = false) :
    s.takeWhile (fun x => !is_line_terminator x) = s := by
  rw [List.takeWhile_eq_self_iff]
  intro x hx
  simp [h x hx]

theorem regex_replace_loop_last_dash_copy : ∀ (a : Str) (b : Bool) (pre : Str), '-' ∉ a →
    regex_replace_loop re_through_last_dash [] a b 0 pre = a := by
  intro a
  induction a with
  | nil => intro b pre _; rfl
  | cons c cs ih =>
    intro b pre ha
    have hm : re_through_last_dash b (c :: cs) = none := by
      unfold re_through_last_dash
      apply after_last_dash_none
      intro hmem
      exact ha ((List.takeWhile_prefix _).subset hmem)
    rw [regex_replace_loop, hm]
    simp only
    rw [ih _ _ (fun hmem => ha (List.mem_cons_of_mem _ hmem))]

/-- Replacing the match of `.*-` by nothing leaves the text behind the last dash, for a
text of one line. -/
theorem regex_replace_through_last_dash (p a : Str) (ha : '-' ∉ a)
    (hl : ∀ x ∈ p ++ '-' :: a, is_line_terminator x = false) :
    regex_replace (p ++ '-' :: a) re_through_last_dash [] = a := by
  unfold regex_replace
  have hm : ∀ b, re_through_last_dash b (p ++ '-' :: a) = some (p.length + 1) := by
    intro b
    unfold re_through_last_dash
    rw [takeWhile_not_line_terminator _ hl, after_last_dash_append a ha]
  cases p with
  | nil =>
    have hm2 := hm true
    simp only [List.nil_append, List.length_nil, Nat.zero_add] at hm2 ⊢
    rw [regex_replace_loop, hm2]
    simp only [format_expand_nil, List.nil_append, Nat.sub_self]
    exact regex_replace_loop_last_dash_copy a false [] ha
  | cons c cs =>
    have hm2 := hm true
    simp only [List.cons_append, List.length_cons] at hm2 ⊢
    rw [regex_replace_loop, hm2]
    simp only [format_expand_nil, List.nil_append, Nat.add_sub_cancel]
    have e : cs ++ '-' :: a = (cs ++ ['-']) ++ a := by simp
    have e2 : cs.length + 1 = (cs ++ ['-']).length := by simp
    rw [e, e2, regex_replace_loop_skip _ _ _ _ _ _ (by simp)]
    exact regex_replace_loop_last_dash_copy a false [] ha

theorem takeWhile_not_dash_append (a t : Str) (ha : '-' ∉ a) :
    (a ++ '-' :: t).takeWhile (fun x => x != '-') = a := by
  induction a with
  | nil => simp
  | cons c cs ih =>
    simp only [List.mem_cons, not_or] at ha
    have hc : (c != '-') = true := by
      simp only [bne_iff_ne, ne_eq]
      exact fun e => ha.1 e.symm
    simp only [List.cons_append, List.takeWhile_cons, hc, if_true, ih ha.2]

/-! ## Theorems: the selector of an explicit chroot -/

/-- C23, the code as it is: for an explicitly selected chroot `name-release-arch` that is
available, with no dash in the name and in the arch and no line terminator anywhere, the
constructor takes the chroot itself for the base URL and `arch` for the architecture, but
the selector it computes is `name` and not `name-release`: every match of `-[^-]*` is
replaced by nothing, so the text goes from its first dash on, not only the trailing
`-arch`. -/
theorem explicit_chroot_selector (S : StrSet) (nv a name release arch : Str)
    (hn : '-' ∉ name) (ha : '-' ∉ arch)
    (hl : ∀ x ∈ name ++ "-".toList ++ release ++ "-".toList ++ arch,
      is_line_terminator x = false)
    (hS : name ++ "-".toList ++ release ++ "-".toList ++ arch ∈ S) :
    CoprRepo.resolve_chroot S nv a (name ++ "-".toList ++ release ++ "-".toList ++ arch)
      = Except.ok (name ++ "-".toList ++ release ++ "-".toList ++ arch, name, arch) ∧
    name ≠ name ++ "-".toList ++ release := by
  constructor
  · rw [resolve_chroot_explicit S nv a _ (by simp), if_pos hS]
    have e1 : regex_replace (name ++ "-".toList ++ release ++ "-".toList ++ arch)
        re_dash_segment [] = name := by
      unfold regex_replace
      rw [regex_replace_dash_segment]
      have : name ++ "-".toList ++ release ++ "-".toList ++ arch
          = name ++ '-' :: (release ++ "-".toList ++ arch) := by simp
      rw [this, takeWhile_not_dash_append _ _ hn]
    have e2 : regex_replace (name ++ "-".toList ++ release ++ "-".toList ++ arch)
        re_through_last_dash [] = arch := by
      have : name ++ "-".toList ++ release ++ "-".toList ++ arch
          = (name ++ "-".toList ++ release) ++ '-' :: arch := by simp
      rw [this] at hl ⊢
      exact regex_replace_through_last_dash _ _ ha hl
    rw [e1, e2]
  · intro h
    have := congrArg List.length h
    simp at this

/-- Witness of C23: the chroot `epel-9-x86_64` of the sample descriptor gives the selector
`epel`, which is no key of `repos`, while `epel-9` is one. -/
theorem explicit_chroot_selector_witness :
    CoprRepo.available_chroots sample_descriptor
      = Except.ok ["epel-9-x86_64".toList, "fedora-39-x86_64".toList] ∧
    CoprRepo.resolve_chroot ["epel-9-x86_64".toList, "fedora-39-x86_64".toList]
        "fedora-39".toList "x86_64".toList "epel-9-x86_64".toList
      = Except.ok ("epel-9-x86_64".toList, "epel".toList, "x86_64".toList) ∧
    (sample_descriptor.get_dict_item "repos".toList).has_key "epel".toList = false ∧
    (sample_descriptor.get_dict_item "repos".toList).has_key "epel-9".toList = true :=
  ⟨rfl,
    (explicit_chroot_selector ["epel-9-x86_64".toList, "fedora-39-x86_64".toList]
      "fedora-39".toList "x86_64".toList "epel".toList "9".toList "x86_64".toList
      (by decide) (by decide) (by decide) (by decide)).1,
    by decide, by decide⟩

/-! ## Lemmas: the project of a multilib part -/

theorem copr_id_from_repo_id_with_suffix (h o p d : Str) (hh : ':' ∉ h) (ho : ':' ∉ o)
    (hd : '/' ∉ d) :
    copr_id_from_repo_id
        ("copr:".toList ++ h ++ ":".toList ++ o ++ ":".toList ++ p ++ ":ml".toList ++ d)
      = remove_suffix ":ml".toList
          (replace_all "/group_".toList "/@".toList (h ++ '/' :: o) ++
            '/' :: replace_all "/group_".toList "/@".toList p ++ ":ml".toList ++ d) := by
  have e : "copr:".toList ++ h ++ ":".toList ++ o ++ ":".toList ++ p ++ ":ml".toList ++ d
      = "copr:".toList ++ h ++ ":".toList ++ o ++ ":".toList ++ (p ++ ':' :: ("ml".toList ++ d)) := by
    simp
  have k := replace_all_of_head_not_mem '/' "group_".toList "/@".toList dollar_not_mem_at
    ("ml".toList ++ d) (by
      intro hm
      rcases List.mem_append.mp hm with k | k
      · exact absurd k (by decide)
      · exact hd k)
  rw [show '/' :: "group_".toList = "/group_".toList from rfl] at k
  rw [e, copr_id_from_repo_id_parts h o _ hh ho,
    replace_all_split _ _ (by decide) dollar_not_mem_at ':' (by decide), k]
  simp

theorem not_suffix_ml_of_digits (a d : Str) (hd : d ≠ []) (hdig : ∀ c ∈ d, c.isDigit = true) :
    ¬ ":ml".toList <:+ a ++ d := by
  intro hs
  obtain ⟨t, ht⟩ := hs
  have h1 : (a ++ d).getLast? = d.getLast? := List.getLast?_append_of_ne_nil a hd
  have h2 : (t ++ ":ml".toList).getLast? = some 'l' := by
    rw [List.getLast?_append_of_ne_nil t (by decide)]
    rfl
  rw [ht, h1] at h2
  have := hdig _ (List.mem_of_getLast?_eq_some h2)
  exact absurd this (by decide)

/-! ## Theorems: the project of a multilib part -/

/-- C24, the code as it is: for a main repo id `copr:h:o:p` with no colon in `h` and `o`
and a `p` that does not end in `:ml`, the id of the first multilib part, `copr:h:o:p:ml`,
is converted to the same project id as the main id, but the id of the multilib part at a
position i ≥ 1, `copr:h:o:p:ml<i>`, is converted to that project id followed by `:ml<i>`:
`copr_id_from_repo_id` drops a trailing `:ml` only. -/
theorem multilib_part_project (h o p : Str) (i : Nat) (hh : ':' ∉ h) (ho : ':' ∉ o)
    (hp : ¬ ":ml".toList <:+ p) :
    copr_id_from_repo_id
        (multilib_id ("copr:".toList ++ h ++ ":".toList ++ o ++ ":".toList ++ p) 0)
      = copr_id_from_repo_id ("copr:".toList ++ h ++ ":".toList ++ o ++ ":".toList ++ p) ∧
    (i ≠ 0 →
      copr_id_from_repo_id
          (multilib_id ("copr:".toList ++ h ++ ":".toList ++ o ++ ":".toList ++ p) i)
        = copr_id_from_repo_id ("copr:".toList ++ h ++ ":".toList ++ o ++ ":".toList ++ p)
          ++ ":ml".toList ++ to_string i ∧
      copr_id_from_repo_id
          (multilib_id ("copr:".toList ++ h ++ ":".toList ++ o ++ ":".toList ++ p) i)
        ≠ copr_id_from_repo_id ("copr:".toList ++ h ++ ":".toList ++ o ++ ":".toList ++ p)) := by
  have hmain : copr_id_from_repo_id ("copr:".toList ++ h ++ ":".toList ++ o ++ ":".toList ++ p)
      = replace_all "/group_".toList "/@".toList (h ++ '/' :: o) ++
          '/' :: replace_all "/group_".toList "/@".toList p := by
    rw [copr_id_from_repo_id_parts h o p hh ho]
    exact remove_suffix_ml_after_slash _ _ (fun k => hp (suffix_ml_of_replace_all_group p k))
  constructor
  · have e := copr_id_from_repo_id_with_suffix h o p [] hh ho (by simp)
    simp only [List.append_nil] at e
    rw [multilib_id, if_pos rfl, e, hmain]
    have : replace_all "/group_".toList "/@".toList (h ++ '/' :: o) ++
          '/' :: replace_all "/group_".toList "/@".toList p ++ ":ml".toList
        = (replace_all "/group_".toList "/@".toList (h ++ '/' :: o) ++
          '/' :: replace_all "/group_".toList "/@".toList p) ++ ":ml".toList := by simp
    rw [this, remove_suffix_append]
  · intro hi
    have hdig : ∀ c ∈ to_string i, c.isDigit = true := to_string_all_digits i
    have e := copr_id_from_repo_id_with_suffix h o p (to_string i) hh ho (by
      intro hm
      exact absurd (hdig _ hm) (by decide))
    have k : copr_id_from_repo_id
          (multilib_id ("copr:".toList ++ h ++ ":".toList ++ o ++ ":".toList ++ p) i)
        = copr_id_from_repo_id ("copr:".toList ++ h ++ ":".toList ++ o ++ ":".toList ++ p)
          ++ ":ml".toList ++ to_string i := by
      rw [multilib_id, if_neg hi, e, hmain]
      exact remove_suffix_of_not_suffix _ _
        (not_suffix_ml_of_digits _ _ (to_string_ne_nil_all i) hdig)
    refine ⟨k, ?_⟩
    rw [k]
    intro hk
    have := congrArg List.length hk
    simp at this

/-- Witness of C24: the parts of the set built from the sample descriptor, whose multilib
map has two entries: the second multilib part is converted to another project id, and so
to another file name, than the main part and the first multilib part. -/
theorem multilib_part_project_witness :
    sample_repo.repositories.map CoprRepoPart.id
      = ["copr:copr.fedorainfracloud.org:group_copr:copr-dev".toList,
         "copr:copr.fedorainfracloud.org:group_copr:copr-dev:ml".toList,
         "copr:copr.fedorainfracloud.org:group_copr:copr-dev:ml1".toList,
         "coprdep:dep".toList, []] ∧
    copr_id_from_repo_id "copr:copr.fedorainfracloud.org:group_copr:copr-dev:ml".toList
      = "copr.fedorainfracloud.org/@copr/copr-dev".toList ∧
    copr_id_from_repo_id "copr:copr.fedorainfracloud.org:group_copr:copr-dev:ml1".toList
      = "copr.fedorainfracloud.org/@copr/copr-dev:ml1".toList ∧
    copr_id_to_copr_file "copr.fedorainfracloud.org/@copr/copr-dev".toList
      = "_copr:copr.fedorainfracloud.org:group_copr:copr-dev.repo".toList ∧
    copr_id_to_copr_file "copr.fedorainfracloud.org/@copr/copr-dev:ml1".toList
      = "_copr:copr.fedorainfracloud.org:group_copr:copr-dev:ml1.repo".toList :=
  have h := multilib_part_project "copr.fedorainfracloud.org".toList "group_copr".toList
    "copr-dev".toList 1 (by decide) (by decide) (by decide)
  ⟨by decide, h.1.trans (by decide), (h.2 (by decide)).1.trans (by decide), by decide, by decide⟩

/-! ## Lemmas: placeholders of a template -/

/-- The first occurrence of a placeholder `$name` is replaced and the text before it is
copied. -/
theorem replace_all_placeholder (name pre post c : Str) (hne : name ≠ []) (hname : '$' ∉ name)
    (hpre : ¬ ('$' :: name) <:+: pre) (hc : dollar ∉ c) :
    replace_all ('$' :: name) c (pre ++ ('$' :: name) ++ post)
      = pre ++ c ++ replace_all ('$' :: name) c post := by
  unfold replace_all regex_replace
  rw [List.append_assoc, regex_replace_loop_literal_copy _ _ _ pre true []
    (not_prefix_before_placeholder '$' name hname pre post hpre)]
  rw [List.cons_append, regex_replace_loop_literal_match _ _ _ _ _ _ ⟨post, rfl⟩,
    format_expand_of_not_mem _ _ _ _ hc]
  have hskip := regex_replace_loop_skip (re_literal ('$' :: name)) c name post false [] hne
  have hlen : ('$' :: name).length - 1 = name.length := by simp
  rw [hlen, hskip, List.append_assoc]
  congr 2
  exact regex_replace_loop_literal_indep _ _ hc _ _ _ _ _ _

theorem not_infix_of_head_not_mem (a : Char) (as s : Str) (h : a ∉ s) : ¬ (a :: as) <:+: s := by
  rintro ⟨u, v, e⟩
  apply h
  rw [← e]
  simp

theorem replace_all_releasever_basearch (r : Str) :
    replace_all "$releasever".toList r "-$basearch".toList = "-$basearch".toList :=
  regex_replace_loop_literal_no_occurrence _ _ _ _ _ (by decide)

theorem instantiate_plain (y r a : Str) (hy : dollar ∉ y) (hr : dollar ∉ r) (ha : dollar ∉ a) :
    instantiate (y ++ "-$basearch".toList) r a = y ++ "-".toList ++ a := by
  have h1 : replace_all "$releasever".toList r (y ++ "-$basearch".toList)
      = y ++ "-$basearch".toList := by
    have := replace_all_append_of_head_not_mem '$' "releasever".toList r hr
      "-$basearch".toList y hy
    rw [show '$' :: "releasever".toList = "$releasever".toList from rfl] at this
    rw [this, replace_all_releasever_basearch r]
  have h2 : replace_all "$basearch".toList a (y ++ "-$basearch".toList)
      = y ++ "-".toList ++ a := by
    have := replace_all_placeholder "basearch".toList (y ++ "-".toList) [] a (by decide)
      (by decide)
      (not_infix_of_head_not_mem _ _ _ (by
        intro hm
        rcases List.mem_append.mp hm with k | k
        · exact hy k
        · exact absurd k (by decide))) ha
    rw [show '$' :: "basearch".toList = "$basearch".toList from rfl, replace_all_nil,
      List.append_nil, List.append_nil] at this
    rw [← this]
    congr 1
    simp
  unfold instantiate
  rw [h1, h2]

theorem instantiate_releasever (x r a : Str) (hx : dollar ∉ x) (hr : dollar ∉ r)
    (ha : dollar ∉ a) :
    instantiate (x ++ "$releasever-$basearch".toList) r a = x ++ r ++ "-".toList ++ a := by
  have h1 : replace_all "$releasever".toList r (x ++ "$releasever-$basearch".toList)
      = (x ++ r) ++ "-$basearch".toList := by
    have := replace_all_placeholder "releasever".toList x "-$basearch".toList r (by decide)
      (by decide) (not_infix_of_head_not_mem _ _ _ hx) hr
    rw [show '$' :: "releasever".toList = "$releasever".toList from rfl,
      replace_all_releasever_basearch r] at this
    rw [← this]
    congr 1
    simp
  have hxr : dollar ∉ x ++ r := by
    intro hm
    rcases List.mem_append.mp hm with k | k
    · exact hx k
    · exact hr k
  have h2 := instantiate_plain (x ++ r) r a hxr hr ha
  have h3 : replace_all "$releasever".toList r ((x ++ r) ++ "-$basearch".toList)
      = (x ++ r) ++ "-$basearch".toList := by
    have := replace_all_append_of_head_not_mem '$' "releasever".toList r hr
      "-$basearch".toList (x ++ r) hxr
    rw [show '$' :: "releasever".toList = "$releasever".toList from rfl] at this
    rw [this, replace_all_releasever_basearch r]
  unfold instantiate at h2 ⊢
  rw [h3] at h2
  rw [h1, h2]

theorem get_repo_triplet_found (S : StrSet) (nv a : Str) (h : nv ++ "-".toList ++ a ∈ S) :
    get_repo_triplet S nv a = (repo_triplet_template nv, nv) := by
  have hc : set_contains S (nv ++ "-".toList ++ a) = true := by
    simpa [set_contains] using h
  simp only [get_repo_triplet, repo_fallbacks, List.nil_append, get_repo_triplet_loop, hc,
    if_true]

theorem dollar_not_mem_append (x y : Str) (hx : dollar ∉ x) (hy : dollar ∉ y) :
    dollar ∉ x ++ y := by
  intro hm
  rcases List.mem_append.mp hm with k | k
  · exact hx k
  · exact hy k

theorem repo_triplet_template_eln :
    repo_triplet_template "fedora-eln".toList = "fedora-eln".toList ++ "-$basearch".toList := by
  decide

theorem repo_triplet_template_fedora (r : Str) (h : "fedora".toList ++ "-".toList ++ r
      ≠ "fedora-eln".toList) :
    repo_triplet_template ("fedora".toList ++ "-".toList ++ r)
      = "fedora-".toList ++ "$releasever-$basearch".toList := by
  unfold repo_triplet_template
  rw [if_neg h]
  have : starts_with ("fedora".toList ++ "-".toList ++ r) "fedora-".toList = true := by
    simp [starts_with]
  rw [if_pos this]
  rfl

theorem repo_triplet_template_opensuse (r : Str) :
    repo_triplet_template ("opensuse-leap".toList ++ "-".toList ++ r)
      = "opensuse-leap-".toList ++ "$releasever-$basearch".toList := by
  unfold repo_triplet_template
  have h1 : "opensuse-leap".toList ++ "-".toList ++ r ≠ "fedora-eln".toList := by
    intro e
    exact absurd (List.cons.inj e).1 (by decide)
  have h2 : starts_with ("opensuse-leap".toList ++ "-".toList ++ r) "fedora-".toList = false := rfl
  have h3 : starts_with ("opensuse-leap".toList ++ "-".toList ++ r) "opensuse-leap-".toList
      = true := by
    simp [starts_with]
  rw [if_neg h1, h2, h3]
  rfl

theorem repo_triplet_template_mageia (r : Str) :
    repo_triplet_template ("mageia".toList ++ "-".toList ++ r)
      = if "cauldron".toList <:+ r then "mageia-cauldron".toList ++ "-$basearch".toList
        else "mageia-".toList ++ "$releasever-$basearch".toList := by
  unfold repo_triplet_template
  have h1 : "mageia".toList ++ "-".toList ++ r ≠ "fedora-eln".toList := by
    intro e
    exact absurd (List.cons.inj e).1 (by decide)
  have h2 : starts_with ("mageia".toList ++ "-".toList ++ r) "fedora-".toList = false := rfl
  have h3 : starts_with ("mageia".toList ++ "-".toList ++ r) "opensuse-leap-".toList
      = false := rfl
  have h4 : starts_with ("mageia".toList ++ "-".toList ++ r) "mageia".toList = true := by
    simp [starts_with]
  rw [if_neg h1, h2, h3, h4]
  simp only [Bool.false_eq_true, if_false, if_true]
  by_cases hc : "cauldron".toList <:+ r
  · have he : ends_with ("mageia".toList ++ "-".toList ++ r) "cauldron".toList = true := by
      simp only [ends_with, List.isSuffixOf_iff_suffix]
      exact hc.trans (List.suffix_append _ _)
    rw [he, if_pos hc]
    rfl
  · have he : ends_with ("mageia".toList ++ "-".toList ++ r) "cauldron".toList = false := by
      rw [← Bool.not_eq_true]
      simp only [ends_with, List.isSuffixOf_iff_suffix]
      intro hs
      have e : "mageia".toList ++ "-".toList ++ r = "mageia".toList ++ '-' :: r := by simp
      rw [e] at hs
      exact hc (suffix_of_suffix_append_cons '-' (by decide) _ _ hs)
    rw [he, if_neg hc]
    rfl

theorem repo_triplet_template_other (nv : Str) (h1 : ¬ "fedora-".toList <+: nv)
    (h2 : ¬ "opensuse-leap-".toList <+: nv) (h3 : ¬ "mageia".toList <+: nv) :
    repo_triplet_template nv = nv ++ "-$basearch".toList := by
  unfold repo_triplet_template
  by_cases h0 : nv = "fedora-eln".toList
  · rw [if_pos h0]
  · have k1 : starts_with nv "fedora-".toList = false := by
      rw [← Bool.not_eq_true]; simpa only [starts_with, List.isPrefixOf_iff_prefix] using h1
    have k2 : starts_with nv "opensuse-leap-".toList = false := by
      rw [← Bool.not_eq_true]; simpa only [starts_with, List.isPrefixOf_iff_prefix] using h2
    have k3 : starts_with nv "mageia".toList = false := by
      rw [← Bool.not_eq_true]; simpa only [starts_with, List.isPrefixOf_iff_prefix] using h3
    rw [if_neg h0, k1, k2, k3]
    simp

/-! ## Theorems: the template and the matched chroot -/

/-- C25 as stated fails: on a host whose distribution is `fedora-asahi-remix`, release 39,
with the chroot `fedora-asahi-remix-39-aarch64` available, the template is
`fedora-$releasever-$basearch`, which is filled in to `fedora-39-aarch64`. -/
theorem template_instance_differs :
    get_repo_triplet ["fedora-asahi-remix-39-aarch64".toList]
        ("fedora-asahi-remix".toList ++ "-".toList ++ "39".toList) "aarch64".toList
      = ("fedora-$releasever-$basearch".toList, "fedora-asahi-remix-39".toList) ∧
    instantiate
        (get_repo_triplet ["fedora-asahi-remix-39-aarch64".toList]
          ("fedora-asahi-remix".toList ++ "-".toList ++ "39".toList) "aarch64".toList).1
        "39".toList "aarch64".toList
      = "fedora-39-aarch64".toList ∧
    "fedora-39-aarch64".toList
      ≠ "fedora-asahi-remix".toList ++ "-".toList ++ "39".toList ++ "-".toList
          ++ "aarch64".toList := by
  refine ⟨by decide, by decide, by decide⟩

/-- C25, amended: for a distribution `d`, a release `r` and an arch `a` without a dollar
sign, with the chroot `d-r-a` available, the template `get_repo_triplet` returns for the
name_version `d-r` is filled in to `d-r-a`, provided the name_version is `fedora-eln`, or
`d` is `fedora`, or `d` is `opensuse-leap`, or `d` is `mageia` and `r` is `cauldron` or does
not end in `cauldron`, or the name_version starts with none of `fedora-`, `opensuse-leap-`
and `mageia`. -/
theorem template_instance (S : StrSet) (d r a : Str) (hd : dollar ∉ d) (hr : dollar ∉ r)
    (ha : dollar ∉ a) (hS : d ++ "-".toList ++ r ++ "-".toList ++ a ∈ S)
    (hfam : d ++ "-".toList ++ r = "fedora-eln".toList ∨ d = "fedora".toList ∨
      d = "opensuse-leap".toList ∨
      (d = "mageia".toList ∧ (r = "cauldron".toList ∨ ¬ "cauldron".toList <:+ r)) ∨
      (¬ "fedora-".toList <+: d ++ "-".toList ++ r ∧
        ¬ "opensuse-leap-".toList <+: d ++ "-".toList ++ r ∧
        ¬ "mageia".toList <+: d ++ "-".toList ++ r)) :
    instantiate (get_repo_triplet S (d ++ "-".toList ++ r) a).1 r a
      = d ++ "-".toList ++ r ++ "-".toList ++ a := by
  rw [get_repo_triplet_found S _ a hS]
  have hnv : dollar ∉ d ++ "-".toList ++ r :=
    dollar_not_mem_append _ _ (dollar_not_mem_append _ _ hd (by decide)) hr
  have heln : d ++ "-".toList ++ r = "fedora-eln".toList →
      instantiate (repo_triplet_template (d ++ "-".toList ++ r)) r a
        = d ++ "-".toList ++ r ++ "-".toList ++ a := by
    intro h
    have := instantiate_plain (d ++ "-".toList ++ r) r a hnv hr ha
    rw [h] at this ⊢
    rw [repo_triplet_template_eln]
    exact this
  rcases hfam with h | h | h | ⟨h, hc⟩ | ⟨h1, h2, h3⟩
  · exact heln h
  · subst h
    by_cases h0 : "fedora".toList ++ "-".toList ++ r = "fedora-eln".toList
    · exact heln h0
    · rw [repo_triplet_template_fedora r h0,
        instantiate_releasever "fedora-".toList r a (by decide) hr ha]
      simp
  · subst h
    rw [repo_triplet_template_opensuse r,
      instantiate_releasever "opensuse-leap-".toList r a (by decide) hr ha]
    simp
  · subst h
    rw [repo_triplet_template_mageia r]
    rcases hc with hc | hc
    · subst hc
      rw [if_pos (List.suffix_refl _),
        instantiate_plain "mageia-cauldron".toList _ a (by decide) hr ha]
      simp
    · rw [if_neg hc, instantiate_releasever "mageia-".toList r a (by decide) hr ha]
      simp
  · rw [repo_triplet_template_other _ h1 h2 h3]
    exact instantiate_plain _ r a hnv hr ha

/-- Witness of C25, amended: Fedora 39 on x86_64. -/
theorem template_instance_witness :
    instantiate
        (get_repo_triplet ["fedora-39-x86_64".toList]
          ("fedora".toList ++ "-".toList ++ "39".toList) "x86_64".toList).1
        "39".toList "x86_64".toList
      = "fedora".toList ++ "-".toList ++ "39".toList ++ "-".toList ++ "x86_64".toList :=
  template_instance ["fedora-39-x86_64".toList] "fedora".toList "39".toList "x86_64".toList
    (by decide) (by decide) (by decide) (by decide) (Or.inr (Or.inl rfl))

/-! ## Lemmas: the multilib parts -/

theorem count_occurrences_before (pat post : Str) :
    ∀ pre : Str, (∀ u v, pre = u ++ v → v ≠ [] → ¬ pat <+: v ++ post) →
      count_occurrences pat (pre ++ post) = count_occurrences pat post := by
  intro pre
  induction pre with
  | nil => intro _; rfl
  | cons c cs ih =>
    intro h
    have h1 : ¬ pat <+: (c :: cs) ++ post := h [] (c :: cs) rfl (by simp)
    have h2 : pat.isPrefixOf (c :: (cs ++ post)) = false := by
      rw [← Bool.not_eq_true]
      simpa only [List.isPrefixOf_iff_prefix, List.cons_append] using h1
    rw [List.cons_append, count_occurrences, h2]
    simp only [Bool.false_eq_true, if_false, Nat.zero_add]
    exact ih (fun u v e hv => h (c :: u) v (by rw [e]; rfl) hv)

/-- A text that ends with its only `$basearch`: the placeholder occurs once, and replacing
it by a text without a dollar sign replaces the end. -/
theorem basearch_at_end (pre k : Str) (hpre : ¬ "$basearch".toList <:+: pre)
    (hk : dollar ∉ k) :
    count_occurrences "$basearch".toList (pre ++ "$basearch".toList) = 1 ∧
    regex_replace (pre ++ "$basearch".toList) (re_literal "$basearch".toList) k = pre ++ k ∧
    remove_suffix "$basearch".toList (pre ++ "$basearch".toList) = pre := by
  refine ⟨?_, ?_, remove_suffix_append _ _⟩
  · have h := not_prefix_before_placeholder '$' "basearch".toList (by decide) pre [] hpre
    rw [List.append_nil] at h
    have h2 : ∀ u v, pre = u ++ v → v ≠ [] →
        ¬ "$basearch".toList <+: v ++ "$basearch".toList := h
    rw [count_occurrences_before _ _ pre h2]
    decide
  · have := replace_all_placeholder "basearch".toList pre [] k (by decide) (by decide) hpre hk
    rw [replace_all_nil, List.append_nil, List.append_nil] at this
    exact this

/-- Every template ends with `-$basearch` and has no other `$basearch`. -/
theorem repo_triplet_template_shape (nv : Str) (hnv : dollar ∉ nv) :
    ∃ pre, repo_triplet_template nv = pre ++ "$basearch".toList ∧
      ¬ "$basearch".toList <:+: pre ∧ "-".toList <:+ pre := by
  have hplain : ∃ pre, nv ++ "-$basearch".toList = pre ++ "$basearch".toList ∧
      ¬ "$basearch".toList <:+: pre ∧ "-".toList <:+ pre := by
    refine ⟨nv ++ "-".toList, by simp, ?_, List.suffix_append _ _⟩
    apply not_infix_of_head_not_mem
    intro hm
    rcases List.mem_append.mp hm with k | k
    · exact hnv k
    · exact absurd k (by decide)
  unfold repo_triplet_template
  split
  · exact hplain
  · split
    · exact ⟨"fedora-$releasever-".toList, rfl, by decide, by decide⟩
    · split
      · exact ⟨"opensuse-leap-$releasever-".toList, rfl, by decide, by decide⟩
      · split
        · simp only
          split
          · exact ⟨"mageia-cauldron-".toList, rfl, by decide, by decide⟩
          · exact ⟨"mageia-$releasever-".toList, rfl, by decide, by decide⟩
        · exact hplain

/-- The names of the parts the multilib loop pushes: the name of the main part as the
constructor composes it, followed by the key in parentheses, unless the options of the
chroot detail or, before them, those of the multilib entry give a name. -/
theorem multilib_loop_names (main mljson : Json) (repo_id name u owner dir chroot gpgkey : Str) :
    ∀ (keys : List Str) (suffix : Nat) (parts : List CoprRepoPart),
      CoprRepo.multilib_loop main mljson repo_id name u owner dir chroot gpgkey keys suffix
        = Except.ok parts →
      parts.map CoprRepoPart.name
        = keys.map (fun key =>
            later_wins (opts_string_value (mljson.get_dict_item key) "name".toList)
              (opts_string_value main "name".toList)
              (name ++ " (".toList ++ key ++ ")".toList)) := by
  intro keys
  induction keys with
  | nil =>
    intro suffix parts h
    cases h
    rfl
  | cons key rest ih =>
    intro suffix parts h
    unfold CoprRepo.multilib_loop at h
    obtain ⟨p1, h1, h⟩ := (except_bind_eq_ok _ _ _).mp h
    obtain ⟨p2, h2, h⟩ := (except_bind_eq_ok _ _ _).mp h
    obtain ⟨others, h3, h⟩ := (except_bind_eq_ok _ _ _).mp h
    cases h
    have k := member_later_wins CoprRepoPart.name "name".toList Json.string_value
      update_from_json_opt_name _ p1 p2 main (mljson.get_dict_item key) h1 h2
    simp only [List.map_cons, ih (suffix + 1) others h3]
    congr 1

theorem opts_string_value_none (json : Json) (key : Str)
    (h : (json.get_dict_item "opts".toList).has_key key = false) :
    opts_string_value json key = none := by
  simp only [opts_string_value, opts_value, h, Bool.false_eq_true, if_false]

/-! ## Theorems: the multilib parts -/

/-- C26 as stated fails: when the options of the chroot detail give a name, the main part
and the multilib part both carry that name, without the multilib key behind it. -/
theorem multilib_name_overridden :
    CoprRepo.network_constructed sample_config named_descriptor (fun _ => false)
        "copr.fedorainfracloud.org".toList "@copr".toList "copr-dev".toList []
      = Except.ok named_repo ∧
    named_repo.repositories.map CoprRepoPart.name
      = ["Nightly builds".toList, "Nightly builds".toList] ∧
    named_repo.repositories.map CoprRepoPart.id
      = ["copr:copr.fedorainfracloud.org:group_copr:copr-dev".toList,
         "copr:copr.fedorainfracloud.org:group_copr:copr-dev:ml".toList] ∧
    "Nightly builds".toList ≠ "Nightly builds".toList ++ " (".toList ++ "i686".toList
      ++ ")".toList := by
  refine ⟨rfl, by decide, by decide, by decide⟩

/-- C26, amended: for a name_version without a dollar sign the template ends with
`-$basearch` and has `$basearch` once, and in a set the constructor builds without an
explicit chroot from a chroot detail with a multilib map whose keys have no dollar sign,
the multilib part of the key `k` has the base URL `results_url/owner/project_dir/t'/`,
where `t'` is the template with its trailing `$basearch` replaced by `k`; its name is the
name the options of the multilib entry give, else the name the options of the chroot
detail give, else `Copr repo for <project_dir> owned by <owner> (k)`; so when none of
these options has a name, it is the name of the main part followed by ` (k)`. -/
theorem multilib_part_urls (cfg : CoprConfig) (json : Json) (indet : Nat → Bool)
    (hub owner dir : Str) (r : CoprRepo) (keys : List Str)
    (h : CoprRepo.network_constructed cfg json indet hub owner dir [] = Except.ok r)
    (hnv : dollar ∉ cfg.name_version)
    (hml : (CoprRepo.main_repo_json json cfg.name_version cfg.arch).has_key "multilib".toList
      = true)
    (hk : ((CoprRepo.main_repo_json json cfg.name_version cfg.arch).get_dict_item
      "multilib".toList).keys = Except.ok keys)
    (hkeys : ∀ key ∈ keys, dollar ∉ key) :
    "-$basearch".toList <:+ repo_triplet_template cfg.name_version ∧
    count_occurrences "$basearch".toList (repo_triplet_template cfg.name_version) = 1 ∧
    ∃ main mls deps u,
      (json.get_dict_item "results_url".toList).string_value = Except.ok u ∧
      r.repositories = main :: (mls ++ deps) ∧
      mls.map CoprRepoPart.baseurl
        = keys.map (fun key => u ++ "/".toList ++ owner ++ "/".toList ++ dir ++ "/".toList
            ++ (remove_suffix "$basearch".toList (repo_triplet_template cfg.name_version)
              ++ key) ++ "/".toList) ∧
      mls.map CoprRepoPart.name
        = keys.map (fun key =>
            later_wins
              (opts_string_value
                (((CoprRepo.main_repo_json json cfg.name_version cfg.arch).get_dict_item
                  "multilib".toList).get_dict_item key) "name".toList)
              (opts_string_value (CoprRepo.main_repo_json json cfg.name_version cfg.arch)
                "name".toList)
              ("Copr repo for ".toList ++ dir ++ " owned by ".toList ++ owner ++ " (".toList
                ++ key ++ ")".toList)) ∧
      (((CoprRepo.main_repo_json json cfg.name_version cfg.arch).get_dict_item
          "opts".toList).has_key "name".toList = false →
        (∀ key ∈ keys,
          ((((CoprRepo.main_repo_json json cfg.name_version cfg.arch).get_dict_item
            "multilib".toList).get_dict_item key).get_dict_item "opts".toList).has_key
              "name".toList = false) →
        mls.map CoprRepoPart.name
          = keys.map (fun key => main.name ++ " (".toList ++ key ++ ")".toList)) := by
  obtain ⟨pre, ht, hpre, x, hx⟩ := repo_triplet_template_shape cfg.name_version hnv
  refine ⟨?_, ?_, ?_⟩
  · rw [ht]
    exact ⟨x, by rw [← hx]; simp⟩
  · rw [ht]
    exact (basearch_at_end pre [] hpre (by simp)).1
  obtain ⟨S, chroot, selector, arch, _, hres, hexp⟩ :=
    network_constructed_eq_ok cfg json indet hub owner dir [] r h
  have hv := resolve_chroot_auto S _ _ _ hres
  obtain ⟨h1, h2⟩ := Prod.mk.inj hv
  obtain ⟨h2, h3⟩ := Prod.mk.inj h2
  subst h1 h2 h3
  obtain ⟨u, main, mls, deps, hu, hm, hmls, hd, rfl⟩ :=
    (expand_eq_ok _ _ _ _ _ _ _ _ _ _ _).mp hexp
  simp only [CoprRepo.multilib_repos, hml, and_self, if_true] at hmls
  obtain ⟨keys2, hk2, hloop⟩ := (except_bind_eq_ok _ _ _).mp hmls
  rw [hk] at hk2
  cases hk2
  have hnames := multilib_loop_names _ _ _ _ _ _ _ _ _ keys 0 mls hloop
  refine ⟨main, mls, deps, u, hu, by simp, ?_, ?_, ?_⟩
  · rw [multilib_loop_baseurls _ _ _ _ _ _ _ _ _ keys 0 mls hloop]
    apply List.map_congr_left
    intro key hkey
    have hb := basearch_at_end pre key hpre (hkeys key hkey)
    rw [ht, hb.2.1, hb.2.2]
  · exact hnames
  · intro hn0 hn
    have hmain : main.name = "Copr repo for ".toList ++ dir ++ " owned by ".toList ++ owner := by
      have k := (member_after_opts CoprRepoPart.name "name".toList Json.string_value
        update_from_json_opt_name _ main _ hm).1
      have e : opts_value (CoprRepo.main_repo_json json cfg.name_version cfg.arch)
          "name".toList = none := by
        simp only [opts_value, hn0, Bool.false_eq_true, if_false]
      rw [e] at k
      exact k
    rw [hnames]
    apply List.map_congr_left
    intro key hkey
    rw [opts_string_value_none _ _ hn0, opts_string_value_none _ _ (hn key hkey), hmain]
    rfl

/-- Witness of C26, amended: the multilib parts of the set built from the sample
descriptor, for the keys i686 and ppc. -/
theorem multilib_part_urls_witness :
    ∃ main mls deps,
      sample_repo.repositories = main :: (mls ++ deps) ∧
      mls.map CoprRepoPart.baseurl
        = ["https://download.copr.example/results/@copr/copr-dev/fedora-$releasever-i686/".toList,
           "https://download.copr.example/results/@copr/copr-dev/fedora-$releasever-ppc/".toList] ∧
      mls.map CoprRepoPart.name
        = ["Copr repo for copr-dev owned by @copr (i686)".toList,
           "Copr repo for copr-dev owned by @copr (ppc)".toList] := by
  obtain ⟨_, _, main, mls, deps, u, hu, hr, hb, _, hn⟩ :=
    multilib_part_urls sample_config sample_descriptor (fun _ => false)
      "copr.fedorainfracloud.org".toList "@copr".toList "copr-dev".toList sample_repo
      ["i686".toList, "ppc".toList] rfl (by decide) (by decide) rfl (by decide)
  have hu2 : u = "https://download.copr.example/results".toList := by
    have : Except.ok u = (Except.ok "https://download.copr.example/results".toList :
        Except Error Str) := hu.symm.trans rfl
    cases this
    rfl
  subst hu2
  have hmain : main.name = "Copr repo for copr-dev owned by @copr".toList := by
    have : sample_repo.repositories.head? = some main := by rw [hr]; rfl
    have k : sample_repo.repositories.head?.map CoprRepoPart.name
        = some "Copr repo for copr-dev owned by @copr".toList := by decide
    rw [this] at k
    exact Option.some.inj k
  refine ⟨main, mls, deps, hr, hb.trans (by decide), ?_⟩
  rw [hn (by decide) (by decide), hmain]
  decide

/-! ## Lemmas: the project name of a project directory -/

theorem regex_replace_loop_colon_rest_colon (cs : Str) (b : Bool) (pre : Str)
    (h : ∀ x ∈ cs, is_line_terminator x = false) :
    regex_replace_loop re_colon_rest [] (':' :: cs) b 0 pre = [] := by
  have hm : re_colon_rest b (':' :: cs) = some (1 + cs.length) := by
    simp only [re_colon_rest, if_true, takeWhile_not_line_terminator cs h]
  rw [regex_replace_loop, hm]
  simp only [format_expand_nil, List.nil_append, Nat.add_sub_cancel_left]
  cases cs with
  | nil => rfl
  | cons c rest =>
    have := regex_replace_loop_skip re_colon_rest [] (c :: rest) [] false [] (by simp)
    rw [List.append_nil] at this
    rw [this]
    rfl

/-- Replacing every match of `:.*` by nothing leaves the text before the first colon, for a
text of one line. -/
theorem regex_replace_colon_rest : ∀ (s : Str) (b : Bool) (pre : Str),
    (∀ x ∈ s, is_line_terminator x = false) →
    regex_replace_loop re_colon_rest [] s b 0 pre = s.takeWhile (fun x => x != ':') := by
  intro s
  induction s with
  | nil => intro b pre _; rfl
  | cons c cs ih =>
    intro b pre h
    have hcs : ∀ x ∈ cs, is_line_terminator x = false :=
      fun x hx => h x (List.mem_cons_of_mem _ hx)
    by_cases hc : c = ':'
    · subst hc
      rw [regex_replace_loop_colon_rest_colon cs b pre hcs]
      simp
    · have hm : re_colon_rest b (c :: cs) = none := by
        simp [re_colon_rest, hc]
      have hn : (c != ':') = true := by simpa using hc
      rw [regex_replace_loop, hm]
      simp only [List.takeWhile_cons, hn, if_true, ih _ _ hcs]

/-! ## Theorems: the URLs of the main part -/

/-- C27 as stated fails: for the project directory `copr-dev:pr`, newline, `1`, the key
URL has the project name `copr-dev`, newline, `1`: the expression `:.*` ends at the end of
the line, and what follows the line is kept. -/
theorem main_gpgkey_not_truncated :
    CoprRepo.network_constructed sample_config sample_descriptor (fun _ => false)
        "copr.fedorainfracloud.org".toList "@copr".toList "copr-dev:pr\n1".toList []
      = Except.ok two_line_dirname_repo ∧
    two_line_dirname_repo.repositories.head?.map CoprRepoPart.gpgkey
      = some "https://download.copr.example/results/@copr/copr-dev\n1/pubkey.gpg".toList ∧
    "copr-dev:pr\n1".toList.takeWhile (fun x => x != ':') = "copr-dev".toList ∧
    "https://download.copr.example/results/@copr/copr-dev\n1/pubkey.gpg".toList
      ≠ "https://download.copr.example/results".toList ++ "/".toList ++ "@copr".toList
          ++ "/".toList ++ "copr-dev".toList ++ "/pubkey.gpg".toList := by
  refine ⟨rfl, by decide, by decide, by decide⟩

/-- C27, amended: in a set the constructor builds, for the results URL `r`, the owner `o`,
the project directory `p` and the resolved chroot `c` (the explicitly selected chroot, or
else the template of the host), the main part has the base URL `r/o/p/c/`, and when `p`
has no newline and no carriage return it has the key URL `r/o/n/pubkey.gpg` where `n` is
`p` up to its first colon (`p` itself when it has none); the owner is in both as it was
given. -/
theorem main_part_urls (cfg : CoprConfig) (json : Json) (indet : Nat → Bool)
    (hub owner dir sel : Str) (r : CoprRepo)
    (h : CoprRepo.network_constructed cfg json indet hub owner dir sel = Except.ok r) :
    ∃ (main : CoprRepoPart) (rest : List CoprRepoPart) (u c : Str),
      (json.get_dict_item "results_url".toList).string_value = Except.ok u ∧
      r.repositories = main :: rest ∧
      (sel ≠ [] → c = sel) ∧
      (sel = [] → c = repo_triplet_template cfg.name_version) ∧
      main.baseurl = u ++ "/".toList ++ owner ++ "/".toList ++ dir ++ "/".toList ++ c
        ++ "/".toList ∧
      ((∀ x ∈ dir, is_line_terminator x = false) →
        main.gpgkey = u ++ "/".toList ++ owner ++ "/".toList
          ++ dir.takeWhile (fun x => x != ':') ++ "/pubkey.gpg".toList) ∧
      (':' ∉ dir → dir.takeWhile (fun x => x != ':') = dir) := by
  obtain ⟨S, chroot, selector, arch, _, hres, hexp⟩ :=
    network_constructed_eq_ok cfg json indet hub owner dir sel r h
  obtain ⟨u, main, mls, deps, hu, hm, _, _, rfl⟩ := (expand_eq_ok _ _ _ _ _ _ _ _ _ _ _).mp hexp
  have hkeep := update_from_json_opts_keeps _ _ _ hm
  refine ⟨main, mls ++ deps, u, chroot, hu, by simp, ?_, ?_, hkeep.1, ?_, ?_⟩
  · intro hs
    rw [resolve_chroot_explicit S _ _ sel hs] at hres
    split at hres
    · cases hres; rfl
    · cases hres
  · intro hs
    subst hs
    have hv := resolve_chroot_auto S _ _ _ hres
    exact (Prod.mk.inj hv).1
  · intro hl
    rw [hkeep.2.2.1]
    simp only [CoprRepoPart.of_fields, regex_replace, regex_replace_colon_rest dir true [] hl,
      List.append_assoc]
    rfl
  · intro hc
    rw [List.takeWhile_eq_self_iff]
    intro x hx
    simp only [bne_iff_ne, ne_eq]
    intro e
    exact hc (e ▸ hx)

/-- Witness of C27, amended: the sample descriptor and the project directory
`copr-dev:pr:7` of the group `@copr`. -/
theorem main_part_urls_witness :
    colon_dirname_repo.repositories.head?.map CoprRepoPart.baseurl
      = some ("https://download.copr.example/results/@copr/copr-dev:pr:7/"
          ++ "fedora-$releasever-$basearch/").toList ∧
    colon_dirname_repo.repositories.head?.map CoprRepoPart.gpgkey
      = some "https://download.copr.example/results/@copr/copr-dev/pubkey.gpg".toList := by
  obtain ⟨main, rest, u, c, hu, hrep, _, hc, hb, hg, _⟩ :=
    main_part_urls sample_config sample_descriptor (fun _ => false)
      "copr.fedorainfracloud.org".toList "@copr".toList "copr-dev:pr:7".toList []
      colon_dirname_repo rfl
  have hu2 : u = "https://download.copr.example/results".toList := by
    have : Except.ok u = (Except.ok "https://download.copr.example/results".toList :
        Except Error Str) := hu.symm.trans rfl
    cases this
    rfl
  subst hu2
  have hc2 := hc rfl
  subst hc2
  rw [hrep]
  simp only [List.head?_cons, Option.map_some', hb, hg (by decide)]
  exact ⟨by decide, by decide⟩

/-! ## Theorems: the file of a set -/

/-- C28, the code as it is: for every text `s`, the file name `copr_id_to_copr_file s`
starts with `_copr:`, ends with `.repo` and has no slash, so that the path `save` writes
to is a directory, a slash, and that file name; but that directory is `/tmp` and not the
repository configuration directory `/etc/yum.repos.d`: `save` assigns `/etc/yum.repos.d`
to the path and then overwrites it with `/tmp`.  The set built from the sample descriptor
is written to `/tmp/_copr:copr.fedorainfracloud.org:group_copr:copr-dev.repo`. -/
theorem copr_file_single_component (s : Str) :
    "_copr:".toList <+: copr_id_to_copr_file s ∧
    ".repo".toList <:+ copr_id_to_copr_file s ∧
    '/' ∉ copr_id_to_copr_file s ∧
    (∀ r : CoprRepo, r.id = s →
      r.save_path = "/tmp".toList ++ "/".toList ++ copr_id_to_copr_file s ∧
      r.save_path ≠ "/etc/yum.repos.d".toList ++ "/".toList ++ copr_id_to_copr_file s ∧
      ¬ "/etc/yum.repos.d".toList <+: r.save_path) ∧
    copr_id_to_copr_file "../../etc/passwd".toList = "_copr:..:..:etc:passwd.repo".toList ∧
    sample_repo.id = "copr.fedorainfracloud.org/@copr/copr-dev".toList ∧
    sample_repo.save_path
      = "/tmp/_copr:copr.fedorainfracloud.org:group_copr:copr-dev.repo".toList := by
  have hno : '/' ∉ copr_id_to_copr_file s := by
    rw [copr_id_to_copr_file_flatMap]
    intro hm
    simp only [List.mem_append, List.mem_flatMap] at hm
    rcases hm with (hm | ⟨c, ⟨d, _, hd⟩, hc⟩) | hm
    · exact absurd hm (by decide)
    · by_cases h1 : c = '@'
      · rw [if_pos h1] at hc
        exact absurd hc (by decide)
      · rw [if_neg h1, List.mem_singleton] at hc
        subst hc
        by_cases h2 : d = '/'
        · rw [if_pos h2] at hd
          exact absurd hd (by decide)
        · rw [if_neg h2, List.mem_singleton] at hd
          exact h2 hd.symm
    · exact absurd hm (by decide)
  have hpre : "_copr:".toList <+: copr_id_to_copr_file s := by
    unfold copr_id_to_copr_file
    simp only [List.append_assoc]
    exact List.prefix_append _ _
  refine ⟨hpre, ?_, hno, ?_, by decide, by decide, by decide⟩
  · unfold copr_id_to_copr_file
    exact List.suffix_append _ _
  · intro r hr
    have hs : starts_with (copr_id_to_copr_file s) "/".toList = false := by
      obtain ⟨t, ht⟩ := hpre
      rw [← ht]
      rfl
    have hpath : r.save_path = "/tmp".toList ++ "/".toList ++ copr_id_to_copr_file s := by
      simp only [CoprRepo.save_path, path_append, path_assign, hr, hs, Bool.false_eq_true,
        if_false]
      rfl
    refine ⟨hpath, ?_, ?_⟩
    · rw [hpath]
      intro hc
      have h1 := List.cons.inj hc
      have h2 := List.cons.inj h1.2
      exact absurd h2.1 (by decide)
    · rw [hpath]
      rintro ⟨t, ht⟩
      have h1 := List.cons.inj ht
      have h2 := List.cons.inj h1.2
      exact absurd h2.1 (by decide)

end dnf5
